import Mathlib

/-!
# Buddy allocator (`src/src/lab.c`): shallow embedding

The pool structure and the mapped region are modelled as one store of
`struct avail` records addressed by `Ptr`.  A pointer into the mapped region
is represented by its byte offset from `pool->base`, so `pool->base` itself is
`Ptr.block 0`; `&pool->avail[i]` is `Ptr.sentinel i`.  Headers of distinct
blocks are distinct cells of the store (block sizes are at least
`2^SMALLEST_K`, which is assumed to be at least `sizeof(struct avail)`).
Payload bytes are not modelled.  `size_t` is 64 bits wide.
-/

namespace Buddy

/-! ## Definitions -/

/-- Modelled from the spec: the constants of `lab.h` (which is not among the
sources): the block-order limits, the three tag values, and
`header_size = sizeof(struct avail)`. -/
structure Config where
  SMALLEST_K : Nat
  MIN_K : Nat
  MAX_K : Nat
  DEFAULT_K : Nat
  BLOCK_RESERVED : Nat
  BLOCK_AVAIL : Nat
  BLOCK_UNUSED : Nat
  header_size : Nat

/-- The value of `ENOMEM` in `<errno.h>` (Linux). -/
def ENOMEM : Nat := 12

/-- A `struct avail *`: `NULL`, `&pool->avail[i]`, or `pool->base + off`. -/
inductive Ptr where
  | null : Ptr
  | sentinel (i : Nat) : Ptr
  | block (off : Nat) : Ptr
  deriving DecidableEq

/-- The record `struct avail` (declared in `lab.h`; its fields are the ones
`lab.c` reads and writes). -/
structure avail where
  tag : Nat
  kval : Nat
  next : Ptr
  prev : Ptr

/-- The record `struct buddy_pool` together with the region it maps:
`mem (Ptr.sentinel i)` is `pool->avail[i]`, `mem (Ptr.block off)` is the
header stored at `pool->base + off`. -/
structure buddy_pool where
  kval_m : Nat
  numbytes : Nat
  mem : Ptr → avail

/-- All-zero `struct avail`, as left by `memset` and by a fresh anonymous
mapping. -/
def zero_avail : avail := ⟨0, 0, Ptr.null, Ptr.null⟩

/-- Store `p->tag = v`. -/
def setTag (pool : buddy_pool) (p : Ptr) (v : Nat) : buddy_pool :=
  { pool with mem := fun q => if q = p then { pool.mem p with tag := v } else pool.mem q }

/-- Store `p->kval = v`. -/
def setKval (pool : buddy_pool) (p : Ptr) (v : Nat) : buddy_pool :=
  { pool with mem := fun q => if q = p then { pool.mem p with kval := v } else pool.mem q }

/-- Store `p->next = v`. -/
def setNext (pool : buddy_pool) (p : Ptr) (v : Ptr) : buddy_pool :=
  { pool with mem := fun q => if q = p then { pool.mem p with next := v } else pool.mem q }

/-- Store `p->prev = v`. -/
def setPrev (pool : buddy_pool) (p : Ptr) (v : Ptr) : buddy_pool :=
  { pool with mem := fun q => if q = p then { pool.mem p with prev := v } else pool.mem q }

/-- The loop of `btok`: `while (bytes_ceil < bytes) { bytes_ceil <<= 1; kval++; }`
with `bytes_ceil` a 64-bit unsigned value.  The first argument bounds the
number of loop tests; `none` means the bound was reached with the loop still
running. -/
def btokLoop (bytes : Nat) : Nat → Nat → Nat → Option Nat
  | 0, _, _ => none
  | fuel + 1, bytes_ceil, kval =>
    if bytes_ceil < bytes then btokLoop bytes fuel ((bytes_ceil <<< 1) % 2 ^ 64) (kval + 1)
    else some kval

/-- The function `btok`.  After 64 shifts `bytes_ceil` is `0` for good, so 66
loop tests decide whether the loop ever exits (`btokLoop_fuel`); `none` means
that `btok` does not return. -/
def btok (bytes : Nat) : Option Nat := btokLoop bytes 66 1 0

/-- The function `buddy_calc` on offsets from `pool->base`:
`offset ^ (1ULL << buddy->kval)`.  The shift is not reduced modulo `2^64`:
wherever the loops call `buddy_calc` the order is below `kval_m`, which is at
most 63 for constants that satisfy `Config.sane`. -/
def buddy_calc (pool : buddy_pool) (buddy : Nat) : Nat :=
  buddy ^^^ (1 <<< (pool.mem (Ptr.block buddy)).kval)

/-- The search loop of `buddy_malloc`:
`while (block_k <= pool->kval_m && pool->avail[block_k].next == &pool->avail[block_k]) block_k++;`
The first argument bounds the iterations; `kval_m + 1 - block_k` is enough. -/
def searchLoop (pool : buddy_pool) : Nat → Nat → Nat
  | 0, block_k => block_k
  | fuel + 1, block_k =>
    if block_k ≤ pool.kval_m ∧ (pool.mem (Ptr.sentinel block_k)).next = Ptr.sentinel block_k then
      searchLoop pool fuel (block_k + 1)
    else block_k

/-- Unlinking, as in both `buddy_malloc` and `buddy_free`:
`b->prev->next = b->next; b->next->prev = b->prev;`. -/
def unlink (pool : buddy_pool) (b : Ptr) : buddy_pool :=
  let pool1 := setNext pool (pool.mem b).prev (pool.mem b).next
  setPrev pool1 (pool1.mem b).next (pool1.mem b).prev

/-- Insertion at the head of `avail[k]`, as in both `buddy_malloc` and
`buddy_free`: `b->next = avail[k].next; b->prev = &avail[k];
avail[k].next->prev = b; avail[k].next = b;`. -/
def push_head (pool : buddy_pool) (k : Nat) (b : Ptr) : buddy_pool :=
  let pool1 := setNext pool b (pool.mem (Ptr.sentinel k)).next
  let pool2 := setPrev pool1 b (Ptr.sentinel k)
  let pool3 := setPrev pool2 (pool2.mem (Ptr.sentinel k)).next b
  setNext pool3 (Ptr.sentinel k) b

/-- The split loop of `buddy_malloc`: `while (block_k > kval) { ... }`.
The first argument bounds the iterations; `block_k - kval` is enough. -/
def splitLoop (cfg : Config) (kval : Nat) : Nat → buddy_pool → Nat → Nat → buddy_pool
  | 0, pool, _, _ => pool
  | fuel + 1, pool, block, block_k =>
    if block_k > kval then
      let block_k := block_k - 1
      let pool := setKval pool (Ptr.block block) block_k
      let buddy := buddy_calc pool block
      let pool := setTag pool (Ptr.block buddy) cfg.BLOCK_AVAIL
      let pool := setKval pool (Ptr.block buddy) block_k
      let pool := push_head pool block_k (Ptr.block buddy)
      splitLoop cfg kval fuel pool block block_k
    else pool

/-- What a call of `buddy_malloc` leaves behind: the returned pointer (`none`
is `NULL`, `some p` is `(char *)pool->base + p`), the pool (`none` when the
argument was `NULL`) and `errno`. -/
structure MallocResult where
  ret : Option Nat
  pool : Option buddy_pool
  errno : Nat

/-- The function `buddy_malloc`.  The pool argument is `none` for `NULL`.
The result is `none` when the call does not return: `btok` loops forever, or
the head of the chosen list is not a block of the region (the C code would
use it as one). -/
def buddy_malloc (cfg : Config) (pool : Option buddy_pool) (size : Nat) (errno : Nat) :
    Option MallocResult :=
  match pool with
  | none => some ⟨none, none, errno⟩
  | some pool =>
    if size = 0 then some ⟨none, some pool, errno⟩
    else
      let required_size := (size + cfg.header_size) % 2 ^ 64
      match btok required_size with
      | none => none
      | some kval =>
        let kval := if kval < cfg.SMALLEST_K then cfg.SMALLEST_K else kval
        let block_k := searchLoop pool (pool.kval_m + 1 - kval) kval
        if block_k > pool.kval_m then some ⟨none, some pool, ENOMEM⟩
        else
          match (pool.mem (Ptr.sentinel block_k)).next with
          | Ptr.block block =>
            let pool := unlink pool (Ptr.block block)
            let pool := splitLoop cfg kval (block_k - kval) pool block block_k
            let pool := setTag pool (Ptr.block block) cfg.BLOCK_RESERVED
            some ⟨some (block + cfg.header_size), some pool, errno⟩
          | _ => none

/-- The coalescing loop of `buddy_free`: `while (kval < pool->kval_m) { ... }`;
it yields the pool, `block` and `kval` at loop exit.  The first argument
bounds the iterations; `kval_m - kval` is enough. -/
def freeLoop (cfg : Config) : Nat → buddy_pool → Nat → Nat → buddy_pool × Nat × Nat
  | 0, pool, block, kval => (pool, block, kval)
  | fuel + 1, pool, block, kval =>
    if kval < pool.kval_m then
      let buddy := buddy_calc pool block
      if (pool.mem (Ptr.block buddy)).tag ≠ cfg.BLOCK_AVAIL ∨
          (pool.mem (Ptr.block buddy)).kval ≠ kval then (pool, block, kval)
      else
        let pool := unlink pool (Ptr.block buddy)
        let block := if buddy < block then buddy else block
        let kval := kval + 1
        let pool := setKval pool (Ptr.block block) kval
        freeLoop cfg fuel pool block kval
    else (pool, block, kval)

/-- The function `buddy_free`; `ptr` is `none` for `NULL` and `some p` for
`(char *)pool->base + p`. -/
def buddy_free (cfg : Config) (pool : buddy_pool) (ptr : Option Nat) : buddy_pool :=
  match ptr with
  | none => pool
  | some p =>
    let block := p - cfg.header_size
    let pool := setTag pool (Ptr.block block) cfg.BLOCK_AVAIL
    let kval := (pool.mem (Ptr.block block)).kval
    let r := freeLoop cfg (pool.kval_m - kval) pool block kval
    let pool := setTag r.1 (Ptr.block r.2.1) cfg.BLOCK_AVAIL
    push_head pool r.2.2 (Ptr.block r.2.1)

/-- The sentinel loop of `buddy_init`: for `i = 0 .. kval`,
`avail[i].next = avail[i].prev = &avail[i]; avail[i].kval = i; avail[i].tag = BLOCK_UNUSED`.
`initLoop cfg n pool` runs the iterations `i = 0 .. n - 1`. -/
def initLoop (cfg : Config) : Nat → buddy_pool → buddy_pool
  | 0, pool => pool
  | i + 1, pool =>
    let pool := initLoop cfg i pool
    let pool := setPrev pool (Ptr.sentinel i) (Ptr.sentinel i)
    let pool := setNext pool (Ptr.sentinel i) (pool.mem (Ptr.sentinel i)).prev
    let pool := setKval pool (Ptr.sentinel i) i
    setTag pool (Ptr.sentinel i) cfg.BLOCK_UNUSED

/-- The order `buddy_init` chooses from the result of `btok` (or `DEFAULT_K`):
`if (kval < MIN_K) kval = MIN_K; if (kval > MAX_K) kval = MAX_K - 1;`. -/
def init_kval (cfg : Config) (kval : Nat) : Nat :=
  let kval := if kval < cfg.MIN_K then cfg.MIN_K else kval
  if kval > cfg.MAX_K then cfg.MAX_K - 1 else kval

/-- The part of `buddy_init` after the order is chosen, for a successful
`mmap` (a failed one kills the process): the cleared pool structure, the fresh
zero-filled mapping, the sentinels and the first block. -/
def init_pool (cfg : Config) (kval : Nat) : buddy_pool :=
  let pool : buddy_pool := ⟨kval, (1 <<< kval) % 2 ^ 64, fun _ => zero_avail⟩
  let pool := initLoop cfg (kval + 1) pool
  let pool := setPrev pool (Ptr.sentinel kval) (Ptr.block 0)
  let pool := setNext pool (Ptr.sentinel kval) (pool.mem (Ptr.sentinel kval)).prev
  let m := (pool.mem (Ptr.sentinel kval)).next
  let pool := setTag pool m cfg.BLOCK_AVAIL
  let pool := setKval pool m kval
  let pool := setPrev pool m (Ptr.sentinel kval)
  setNext pool m (pool.mem m).prev

/-- The function `buddy_init`; `none` when `btok` does not return. -/
def buddy_init (cfg : Config) (size : Nat) : Option buddy_pool :=
  if size = 0 then some (init_pool cfg (init_kval cfg cfg.DEFAULT_K))
  else
    match btok size with
    | none => none
    | some kval => some (init_pool cfg (init_kval cfg kval))

/-- The list `avail[k]` read off the store: the offsets of the blocks met by
following `next` from `p` until something that is not a block of the region
(the sentinel, in a well-formed list) is met. -/
def walk (pool : buddy_pool) : Nat → Ptr → List Nat
  | 0, _ => []
  | fuel + 1, p =>
    match p with
    | Ptr.block o => o :: walk pool fuel (pool.mem (Ptr.block o)).next
    | _ => []

/-- The blocks on `avail[k]`, head first.  A list of blocks of the region has
at most `2^kval_m` members. -/
def freeList (pool : buddy_pool) (k : Nat) : List Nat :=
  walk pool (2 ^ pool.kval_m) (pool.mem (Ptr.sentinel k)).next

/-- The assertions of `check_buddy_pool_full` in `tests/test-lab.c`. -/
def check_buddy_pool_full (cfg : Config) (pool : buddy_pool) : Prop :=
  (∀ i, i < pool.kval_m →
    (pool.mem (Ptr.sentinel i)).next = Ptr.sentinel i ∧
    (pool.mem (Ptr.sentinel i)).prev = Ptr.sentinel i ∧
    (pool.mem (Ptr.sentinel i)).tag = cfg.BLOCK_UNUSED ∧
    (pool.mem (Ptr.sentinel i)).kval = i) ∧
  (pool.mem (pool.mem (Ptr.sentinel pool.kval_m)).next).tag = cfg.BLOCK_AVAIL ∧
  (pool.mem (pool.mem (Ptr.sentinel pool.kval_m)).next).next = Ptr.sentinel pool.kval_m ∧
  (pool.mem (pool.mem (Ptr.sentinel pool.kval_m)).prev).prev = Ptr.sentinel pool.kval_m ∧
  (pool.mem (Ptr.sentinel pool.kval_m)).next = Ptr.block 0

/-- Modelled from the spec: concrete values for the constants of `lab.h`,
used for concrete evaluations.  The spec gives `SMALLEST_K = 6`, the comments
of `tests/test-lab.c` give `MIN_K = 20` (a pool of 1 MiB); `MAX_K = 48`,
`DEFAULT_K = 30`, the tags 0, 1, 3 and `sizeof(struct avail) = 24` are the
values of the course's `lab.h` on an LP64 target. -/
def std : Config := ⟨6, 20, 48, 30, 0, 1, 3, 24⟩

/-- The offset of the order-`k+1` block made of a block and its buddy. -/
def parent (o k : Nat) : Nat := if o ^^^ 2 ^ k < o then o ^^^ 2 ^ k else o

/-- The blocks `B` (pairs of offset and order) tile `[0, 2^K)`: each is aligned
and inside, two that share a byte are the same, and every byte is in one. -/
structure Tiling (K : Nat) (B : Nat → Nat → Prop) : Prop where
  aligned : ∀ o k, B o k → 2 ^ k ∣ o
  bounded : ∀ o k, B o k → o + 2 ^ k ≤ 2 ^ K
  disjoint : ∀ o1 k1 o2 k2 x, B o1 k1 → B o2 k2 → o1 ≤ x → x < o1 + 2 ^ k1 →
    o2 ≤ x → x < o2 + 2 ^ k2 → o1 = o2 ∧ k1 = k2
  cover : ∀ x, x < 2 ^ K → ∃ o k, B o k ∧ o ≤ x ∧ x < o + 2 ^ k

/-- The free blocks `F` and the reserved blocks `R` of a pool of order `K`:
together they tile the region, no block is both, and no two free blocks of one
order below `K` are buddies. -/
structure Layout (K : Nat) (F R : Nat → Nat → Prop) : Prop where
  tiling : Tiling K (fun o k => F o k ∨ R o k)
  excl : ∀ o k, F o k → ¬ R o k
  nobuddy : ∀ o k, k < K → F o k → ¬ F (o ^^^ 2 ^ k) k

/-- The list `avail[k]` seen from node `p` onwards: following `next` from `p`
meets the blocks at offsets `L` in turn and then the sentinel `avail[k]`, and
every `prev` points one step back. -/
def Chain (pool : buddy_pool) (k : Nat) : Ptr → List Nat → Prop
  | p, [] => (pool.mem p).next = Ptr.sentinel k ∧ (pool.mem (Ptr.sentinel k)).prev = p
  | p, o :: L => (pool.mem p).next = Ptr.block o ∧ (pool.mem (Ptr.block o)).prev = p ∧
      Chain pool k (Ptr.block o) L

/-- The free lists of the pool hold the blocks `fl`: `avail[k]` is a
well-formed list of the blocks `fl k`, the sentinels and the listed blocks
carry their tags and orders, and no block is listed twice. -/
structure Lists (cfg : Config) (pool : buddy_pool) (fl : Nat → List Nat) : Prop where
  chain : ∀ k, k ≤ pool.kval_m → Chain pool k (Ptr.sentinel k) (fl k)
  sent : ∀ k, k ≤ pool.kval_m → (pool.mem (Ptr.sentinel k)).tag = cfg.BLOCK_UNUSED ∧
    (pool.mem (Ptr.sentinel k)).kval = k
  hdr : ∀ k o, o ∈ fl k → (pool.mem (Ptr.block o)).tag = cfg.BLOCK_AVAIL ∧
    (pool.mem (Ptr.block o)).kval = k
  nodup : ∀ k, (fl k).Nodup

/-- The invariant of the pool between calls: `fl` are the free lists, `rs` the
blocks handed out (offset and order). -/
structure GInv (cfg : Config) (pool : buddy_pool) (fl : Nat → List Nat)
    (rs : List (Nat × Nat)) : Prop where
  lists : Lists cfg pool fl
  layout : Layout pool.kval_m (fun o k => o ∈ fl k) (fun o k => (o, k) ∈ rs)
  res : ∀ o k, (o, k) ∈ rs → (pool.mem (Ptr.block o)).tag = cfg.BLOCK_RESERVED ∧
    (pool.mem (Ptr.block o)).kval = k
  rs_nodup : rs.Nodup

/-- The invariant inside `buddy_malloc` and `buddy_free`, while the block at
offset `o` of order `k` is neither on a free list nor handed out. -/
structure TInv (cfg : Config) (pool : buddy_pool) (fl : Nat → List Nat)
    (rs : List (Nat × Nat)) (o k : Nat) : Prop where
  lists : Lists cfg pool fl
  layout : Layout pool.kval_m (fun o2 k2 => o2 ∈ fl k2)
    (fun o2 k2 => (o2, k2) ∈ rs ∨ (o2 = o ∧ k2 = k))
  res : ∀ o2 k2, (o2, k2) ∈ rs → (pool.mem (Ptr.block o2)).tag = cfg.BLOCK_RESERVED ∧
    (pool.mem (Ptr.block o2)).kval = k2
  rs_nodup : rs.Nodup
  tk : (pool.mem (Ptr.block o)).kval = k
  fresh : ∀ k2, (o, k2) ∉ rs

/-- The free lists after the split loop took the block at `o` from order `bk`
down to order `kval`: every order in between got the upper half at its head. -/
def splitFl (fl : Nat → List Nat) (o kval bk : Nat) : Nat → List Nat :=
  fun j => if kval ≤ j ∧ j < bk then (o + 2 ^ j) :: fl j else fl j

/-- The free lists of a fresh pool: one block, the whole region, on
`avail[K]`. -/
def initFl (K : Nat) : Nat → List Nat := Function.update (fun _ => []) K [0]

/-- The pool states reachable from `buddy_init` by calls of `buddy_malloc`
and by calls of `buddy_free` on outstanding pointers, with the value of
`errno` and the list of outstanding pointers (each as its offset from
`pool->base`). Sizes are `size_t` values. -/
inductive Reach (cfg : Config) : buddy_pool → Nat → List Nat → Prop
  | init (size errno : Nat) (pool : buddy_pool) : size < 2 ^ 64 →
      buddy_init cfg size = some pool → Reach cfg pool errno []
  | malloc (pool : buddy_pool) (errno : Nat) (out : List Nat) (size : Nat) (r : MallocResult)
      (pool2 : buddy_pool) : Reach cfg pool errno out → size < 2 ^ 64 →
      buddy_malloc cfg (some pool) size errno = some r → r.pool = some pool2 →
      Reach cfg pool2 r.errno (match r.ret with
        | some p => p :: out
        | none => out)
  | free (pool : buddy_pool) (errno : Nat) (out : List Nat) (p : Nat) :
      Reach cfg pool errno out → p ∈ out →
      Reach cfg (buddy_free cfg pool (some p)) errno (out.erase p)

/-- The invariant of reachable states, in terms of the outstanding pointers. -/
def Inv (cfg : Config) (pool : buddy_pool) (out : List Nat) : Prop :=
  ∃ fl rs, GInv cfg pool fl rs ∧ out = rs.map (fun b => b.1 + cfg.header_size)

/-- The block at offset `o` is on the free list `avail[k]`. -/
def IsFreeBlock (pool : buddy_pool) (o k : Nat) : Prop :=
  k ≤ pool.kval_m ∧ o ∈ freeList pool k

/-- The block at offset `o` is outstanding (its user pointer `o + header_size`
was returned by `buddy_malloc` and not yet freed) and its header has order
`k`. -/
def IsResBlock (cfg : Config) (pool : buddy_pool) (out : List Nat) (o k : Nat) : Prop :=
  o + cfg.header_size ∈ out ∧ (pool.mem (Ptr.block o)).kval = k

/-- The pool is full, in the words of the spec: every `avail[i]`, `i < kval_m`,
is an empty self-linked sentinel with tag `BLOCK_UNUSED` and order `i`, and
`avail[kval_m]` holds exactly one block, at `base`, with tag `BLOCK_AVAIL` and
order `kval_m`. -/
def is_full (cfg : Config) (pool : buddy_pool) : Prop :=
  (∀ i, i < pool.kval_m →
    (pool.mem (Ptr.sentinel i)).next = Ptr.sentinel i ∧
    (pool.mem (Ptr.sentinel i)).prev = Ptr.sentinel i ∧
    (pool.mem (Ptr.sentinel i)).tag = cfg.BLOCK_UNUSED ∧
    (pool.mem (Ptr.sentinel i)).kval = i ∧
    freeList pool i = []) ∧
  freeList pool pool.kval_m = [0] ∧
  (pool.mem (Ptr.sentinel pool.kval_m)).next = Ptr.block 0 ∧
  (pool.mem (Ptr.sentinel pool.kval_m)).prev = Ptr.block 0 ∧
  (pool.mem (Ptr.block 0)).next = Ptr.sentinel pool.kval_m ∧
  (pool.mem (Ptr.block 0)).prev = Ptr.sentinel pool.kval_m ∧
  (pool.mem (Ptr.block 0)).tag = cfg.BLOCK_AVAIL ∧
  (pool.mem (Ptr.block 0)).kval = pool.kval_m

/-- The pool after a call of `buddy_malloc` on `pool` (the pool itself if the
call does not return). -/
def malloc_pool (cfg : Config) (pool : buddy_pool) (size errno : Nat) : buddy_pool :=
  match buddy_malloc cfg (some pool) size errno with
  | some r => (match r.pool with
    | some p => p
    | none => pool)
  | none => pool

/-- The pointer returned by a call of `buddy_malloc` on `pool` (`none` for
`NULL`, and if the call does not return). -/
def malloc_ret (cfg : Config) (pool : buddy_pool) (size errno : Nat) : Option Nat :=
  match buddy_malloc cfg (some pool) size errno with
  | some r => r.ret
  | none => none

/-- The value of `errno` after a call of `buddy_malloc` on `pool`. -/
def malloc_errno (cfg : Config) (pool : buddy_pool) (size errno : Nat) : Nat :=
  match buddy_malloc cfg (some pool) size errno with
  | some r => r.errno
  | none => errno

/-- Calls of `buddy_free` on the pointers of a list, in the order of the list. -/
def freeAll (cfg : Config) : buddy_pool → List Nat → buddy_pool
  | pool, [] => pool
  | pool, p :: ps => freeAll cfg (buddy_free cfg pool (some p)) ps

/-- Modelled from the spec: what the spec takes for granted about the
constants of `lab.h`: the smallest block order is at most the smallest pool
order, the pool orders `MIN_K .. MAX_K - 1` exist and `2^k` fits `size_t` for
each of them and for `DEFAULT_K`, and the tags of free and of reserved blocks
differ. -/
def Config.sane (cfg : Config) : Prop :=
  cfg.SMALLEST_K ≤ cfg.MIN_K ∧ cfg.MIN_K < cfg.MAX_K ∧ cfg.MAX_K ≤ 64 ∧ cfg.DEFAULT_K < 64 ∧
    cfg.BLOCK_AVAIL ≠ cfg.BLOCK_RESERVED

/-- A fresh pool of `2^20` bytes (`buddy_init(&pool, UINT64_C(1) << MIN_K)`). -/
def fresh20 : buddy_pool := init_pool std 20

/-- The pool of `test_buddy_malloc_one_byte` after `buddy_malloc(&pool, 1)`. -/
def one_byte : buddy_pool := malloc_pool std fresh20 1 0

/-- The pool of `test_buddy_malloc_exhaustion` after the first call
`buddy_malloc(&pool, 2^18 - 24)`. -/
def quarter1 : buddy_pool := malloc_pool std fresh20 (2 ^ 18 - 24) 0

/-- The pool of `test_buddy_malloc_exhaustion` after the second call. -/
def quarter2 : buddy_pool := malloc_pool std quarter1 (2 ^ 18 - 24) 0

/-- The pool of `test_buddy_malloc_exhaustion` after the third call. -/
def quarter3 : buddy_pool := malloc_pool std quarter2 (2 ^ 18 - 24) 0

/-- The pool of `test_buddy_malloc_exhaustion` after the fourth call: the four
quarters of the region are outstanding. -/
def quarter4 : buddy_pool := malloc_pool std quarter3 (2 ^ 18 - 24) 0

/-- The node at which following `next` from `p` leaves the blocks of the
region: the first pointer met that is not a block (after at most `fuel`
steps). -/
def walk_end (pool : buddy_pool) : Nat → Ptr → Ptr
  | 0, p => p
  | fuel + 1, p =>
    match p with
    | Ptr.block o => walk_end pool fuel (pool.mem (Ptr.block o)).next
    | q => q

/-- The reachable states with, for every outstanding pointer, the size it was
requested with: the states reachable from `buddy_init` by calls of
`buddy_malloc` and by calls of `buddy_free` on outstanding pointers, with the
value of `errno` and the list of the pairs of an outstanding pointer and the
`size` argument of the call of `buddy_malloc` that returned it. -/
inductive ReachN (cfg : Config) : buddy_pool → Nat → List (Nat × Nat) → Prop
  | init (size errno : Nat) (pool : buddy_pool) : size < 2 ^ 64 →
      buddy_init cfg size = some pool → ReachN cfg pool errno []
  | malloc (pool : buddy_pool) (errno : Nat) (out : List (Nat × Nat)) (size : Nat)
      (r : MallocResult) (pool2 : buddy_pool) : ReachN cfg pool errno out → size < 2 ^ 64 →
      buddy_malloc cfg (some pool) size errno = some r → r.pool = some pool2 →
      ReachN cfg pool2 r.errno (match r.ret with
        | some p => (p, size) :: out
        | none => out)
  | free (pool : buddy_pool) (errno : Nat) (out : List (Nat × Nat)) (p n : Nat) :
      ReachN cfg pool errno out → (p, n) ∈ out →
      ReachN cfg (buddy_free cfg pool (some p)) errno (out.erase (p, n))

/-- The loop of `test_buddy_fragmentation_stress`: `count` calls of
`buddy_malloc(&pool, size)`, each asserted to return a non-null pointer. The
result is the pool and `errno` after the calls and the pointers returned, the
last one first; `none` when a call does not return or returns `NULL`. -/
def mallocLoop (cfg : Config) (size : Nat) :
    Nat → buddy_pool → Nat → List Nat → Option (buddy_pool × Nat × List Nat)
  | 0, pool, e, acc => some (pool, e, acc)
  | c + 1, pool, e, acc =>
    match buddy_malloc cfg (some pool) size e with
    | some ⟨some p, some pool2, e2⟩ => mallocLoop cfg size c pool2 e2 (p :: acc)
    | _ => none

/-! ## Theorems -/

/-! ## Stores -/

section setters

variable (pool : buddy_pool) (p q : Ptr)

@[simp] theorem setTag_kval_m (v : Nat) : (setTag pool p v).kval_m = pool.kval_m := rfl

@[simp] theorem setKval_kval_m (v : Nat) : (setKval pool p v).kval_m = pool.kval_m := rfl

@[simp] theorem setNext_kval_m (v : Ptr) : (setNext pool p v).kval_m = pool.kval_m := rfl

@[simp] theorem setPrev_kval_m (v : Ptr) : (setPrev pool p v).kval_m = pool.kval_m := rfl

@[simp] theorem setTag_numbytes (v : Nat) : (setTag pool p v).numbytes = pool.numbytes := rfl

@[simp] theorem setKval_numbytes (v : Nat) : (setKval pool p v).numbytes = pool.numbytes := rfl

@[simp] theorem setNext_numbytes (v : Ptr) : (setNext pool p v).numbytes = pool.numbytes := rfl

@[simp] theorem setPrev_numbytes (v : Ptr) : (setPrev pool p v).numbytes = pool.numbytes := rfl

@[simp] theorem setTag_tag (v : Nat) :
    ((setTag pool p v).mem q).tag = if q = p then v else (pool.mem q).tag := by
  unfold setTag; by_cases h : q = p <;> simp [h]

@[simp] theorem setTag_kval (v : Nat) : ((setTag pool p v).mem q).kval = (pool.mem q).kval := by
  unfold setTag; by_cases h : q = p <;> simp [h]

@[simp] theorem setTag_next (v : Nat) : ((setTag pool p v).mem q).next = (pool.mem q).next := by
  unfold setTag; by_cases h : q = p <;> simp [h]

@[simp] theorem setTag_prev (v : Nat) : ((setTag pool p v).mem q).prev = (pool.mem q).prev := by
  unfold setTag; by_cases h : q = p <;> simp [h]

@[simp] theorem setKval_tag (v : Nat) : ((setKval pool p v).mem q).tag = (pool.mem q).tag := by
  unfold setKval; by_cases h : q = p <;> simp [h]

@[simp] theorem setKval_kval (v : Nat) :
    ((setKval pool p v).mem q).kval = if q = p then v else (pool.mem q).kval := by
  unfold setKval; by_cases h : q = p <;> simp [h]

@[simp] theorem setKval_next (v : Nat) : ((setKval pool p v).mem q).next = (pool.mem q).next := by
  unfold setKval; by_cases h : q = p <;> simp [h]

@[simp] theorem setKval_prev (v : Nat) : ((setKval pool p v).mem q).prev = (pool.mem q).prev := by
  unfold setKval; by_cases h : q = p <;> simp [h]

@[simp] theorem setNext_tag (v : Ptr) : ((setNext pool p v).mem q).tag = (pool.mem q).tag := by
  unfold setNext; by_cases h : q = p <;> simp [h]

@[simp] theorem setNext_kval (v : Ptr) : ((setNext pool p v).mem q).kval = (pool.mem q).kval := by
  unfold setNext; by_cases h : q = p <;> simp [h]

@[simp] theorem setNext_next (v : Ptr) :
    ((setNext pool p v).mem q).next = if q = p then v else (pool.mem q).next := by
  unfold setNext; by_cases h : q = p <;> simp [h]

@[simp] theorem setNext_prev (v : Ptr) : ((setNext pool p v).mem q).prev = (pool.mem q).prev := by
  unfold setNext; by_cases h : q = p <;> simp [h]

@[simp] theorem setPrev_tag (v : Ptr) : ((setPrev pool p v).mem q).tag = (pool.mem q).tag := by
  unfold setPrev; by_cases h : q = p <;> simp [h]

@[simp] theorem setPrev_kval (v : Ptr) : ((setPrev pool p v).mem q).kval = (pool.mem q).kval := by
  unfold setPrev; by_cases h : q = p <;> simp [h]

@[simp] theorem setPrev_next (v : Ptr) : ((setPrev pool p v).mem q).next = (pool.mem q).next := by
  unfold setPrev; by_cases h : q = p <;> simp [h]

@[simp] theorem setPrev_prev (v : Ptr) :
    ((setPrev pool p v).mem q).prev = if q = p then v else (pool.mem q).prev := by
  unfold setPrev; by_cases h : q = p <;> simp [h]

end setters

/-- Two pools with the same fields are equal. -/
theorem buddy_pool_ext {a b : buddy_pool} (h1 : a.kval_m = b.kval_m) (h2 : a.numbytes = b.numbytes)
    (h3 : ∀ q, a.mem q = b.mem q) : a = b := by
  cases a; cases b; simp only [buddy_pool.mk.injEq] at *
  exact ⟨h1, h2, funext h3⟩

/-- Two headers with the same fields are equal. -/
theorem avail_ext {a b : avail} (h1 : a.tag = b.tag) (h2 : a.kval = b.kval)
    (h3 : a.next = b.next) (h4 : a.prev = b.prev) : a = b := by
  cases a; cases b; simp only [avail.mk.injEq] at *
  exact ⟨h1, h2, h3, h4⟩

/-! ## `btok` -/

theorem btokLoop_mono (bytes : Nat) : ∀ (fuel c k r : Nat),
    btokLoop bytes fuel c k = some r → btokLoop bytes (fuel + 1) c k = some r := by
  intro fuel
  induction fuel with
  | zero => intro c k r h; simp [btokLoop] at h
  | succ n ih =>
    intro c k r h
    rw [btokLoop] at h
    rw [btokLoop]
    by_cases hc : c < bytes
    · rw [if_pos hc] at h ⊢
      exact ih _ _ _ h
    · rw [if_neg hc] at h ⊢
      exact h

theorem btokLoop_mono_le (bytes : Nat) (fuel fuel2 c k r : Nat) (hle : fuel ≤ fuel2)
    (h : btokLoop bytes fuel c k = some r) : btokLoop bytes fuel2 c k = some r := by
  induction hle with
  | refl => exact h
  | step _ ih => exact btokLoop_mono _ _ _ _ _ ih

theorem shl_one_pow (i : Nat) (hi : i < 63) : ((2 ^ i) <<< 1) % 2 ^ 64 = 2 ^ (i + 1) := by
  rw [Nat.shiftLeft_eq, pow_one, ← pow_succ]
  apply Nat.mod_eq_of_lt
  exact Nat.pow_lt_pow_right (by norm_num) (by omega)

/-- Within the range where no shift overflows, the loop of `btok` exits with
the least exponent. -/
theorem btokLoop_spec (bytes : Nat) (hb : bytes ≤ 2 ^ 63) : ∀ (fuel i : Nat),
    i ≤ 63 → 63 - i < fuel → (i = 0 ∨ 2 ^ (i - 1) < bytes) →
    ∃ k, btokLoop bytes fuel (2 ^ i) i = some k ∧ bytes ≤ 2 ^ k ∧
      (k = 0 ∨ 2 ^ (k - 1) < bytes) ∧ k ≤ 63 := by
  intro fuel
  induction fuel with
  | zero => intro i _ h; omega
  | succ n ih =>
    intro i hi hf hinv
    rw [btokLoop]
    by_cases hc : 2 ^ i < bytes
    · rw [if_pos hc]
      have hi63 : i < 63 := by
        rcases Nat.lt_or_ge i 63 with h | h
        · exact h
        · have : i = 63 := by omega
          subst this; omega
      rw [shl_one_pow i hi63]
      exact ih (i + 1) (by omega) (by omega) (Or.inr (by simpa using hc))
    · rw [if_neg hc]
      exact ⟨i, rfl, by omega, hinv, hi⟩

/-- For `bytes ≤ 2^63`, `btok` returns the least `k` with `bytes ≤ 2^k`. -/
theorem btok_spec (bytes : Nat) (hb : bytes ≤ 2 ^ 63) :
    ∃ k, btok bytes = some k ∧ bytes ≤ 2 ^ k ∧ (k = 0 ∨ 2 ^ (k - 1) < bytes) ∧ k ≤ 63 := by
  have := btokLoop_spec bytes hb 66 0 (by omega) (by omega) (Or.inl rfl)
  simpa [btok] using this

/-- Beyond `2^63` the loop of `btok` never exits: `bytes_ceil` runs through
the powers of two up to `2^63` and then stays `0`. -/
theorem btokLoop_none (bytes : Nat) (hb : 2 ^ 63 < bytes) : ∀ (fuel c k : Nat),
    (c = 0 ∨ ∃ i, i ≤ 63 ∧ c = 2 ^ i) → btokLoop bytes fuel c k = none := by
  intro fuel
  induction fuel with
  | zero => intro c k _; rfl
  | succ n ih =>
    intro c k hc
    rw [btokLoop]
    have hlt : c < bytes := by
      rcases hc with h | ⟨i, hi, h⟩
      · omega
      · have : (2:Nat) ^ i ≤ 2 ^ 63 := Nat.pow_le_pow_right (by norm_num) hi
        omega
    rw [if_pos hlt]
    apply ih
    rcases hc with h | ⟨i, hi, h⟩
    · left; subst h; rfl
    · rcases Nat.lt_or_ge i 63 with h63 | h63
      · right; exact ⟨i + 1, by omega, by rw [h, shl_one_pow i h63]⟩
      · left
        have : i = 63 := by omega
        subst this; subst h; rfl

theorem btok_none (bytes : Nat) (hb : 2 ^ 63 < bytes) : btok bytes = none :=
  btokLoop_none bytes hb 66 1 0 (Or.inr ⟨0, by omega, rfl⟩)

/-- The bound of 66 loop tests in `btok` loses nothing: any larger bound
gives the same answer. -/
theorem btokLoop_fuel (bytes fuel : Nat) (h : 66 ≤ fuel) :
    btokLoop bytes fuel 1 0 = btok bytes := by
  rcases Nat.lt_or_ge (2 ^ 63) bytes with hb | hb
  · rw [btok_none bytes hb]
    exact btokLoop_none bytes hb fuel 1 0 (Or.inr ⟨0, by omega, rfl⟩)
  · obtain ⟨k, hk, _⟩ := btok_spec bytes hb
    rw [hk]
    exact btokLoop_mono_le bytes 66 fuel 1 0 k h hk

theorem btok_some_iff (bytes k : Nat) :
    btok bytes = some k ↔ bytes ≤ 2 ^ 63 ∧ bytes ≤ 2 ^ k ∧ (k = 0 ∨ 2 ^ (k - 1) < bytes) := by
  constructor
  · intro h
    rcases Nat.lt_or_ge (2 ^ 63) bytes with hb | hb
    · rw [btok_none bytes hb] at h; cases h
    · obtain ⟨k', hk', h1, h2, _⟩ := btok_spec bytes hb
      rw [hk'] at h
      cases h
      exact ⟨hb, h1, h2⟩
  · rintro ⟨hb, h1, h2⟩
    obtain ⟨k', hk', h1', h2', _⟩ := btok_spec bytes hb
    rw [hk']
    congr 1
    rcases Nat.lt_trichotomy k' k with hlt | heq | hgt
    · exfalso
      rcases h2 with h2 | h2
      · omega
      · have : (2:Nat) ^ k' ≤ 2 ^ (k - 1) := Nat.pow_le_pow_right (by norm_num) (by omega)
        omega
    · exact heq
    · exfalso
      rcases h2' with h2' | h2'
      · omega
      · have : (2:Nat) ^ k ≤ 2 ^ (k' - 1) := Nat.pow_le_pow_right (by norm_num) (by omega)
        omega

theorem btok_two_pow (k : Nat) (hk : k ≤ 63) : btok (2 ^ k) = some k := by
  rw [btok_some_iff]
  refine ⟨Nat.pow_le_pow_right (by norm_num) hk, le_refl _, ?_⟩
  rcases Nat.eq_zero_or_pos k with h | h
  · exact Or.inl h
  · exact Or.inr (Nat.pow_lt_pow_right (by norm_num) (by omega))

/-! ## Arithmetic of aligned power-of-two blocks -/

theorem two_pow_succ_eq (k : Nat) : (2:Nat) ^ (k + 1) = 2 ^ k + 2 ^ k := by
  rw [pow_succ]; omega

theorem two_pow_pos_nat (k : Nat) : 0 < (2:Nat) ^ k := Nat.pow_pos (by norm_num)

theorem one_shl (k : Nat) : 1 <<< k = 2 ^ k := by
  rw [Nat.shiftLeft_eq, one_mul]

/-- Flipping bit `k` of a multiple of `2^(k+1)` adds `2^k`. -/
theorem xor_two_pow_even (m k : Nat) : (2 ^ (k + 1) * m) ^^^ 2 ^ k = 2 ^ (k + 1) * m + 2 ^ k := by
  apply Nat.eq_of_testBit_eq
  intro j
  have hlt : (2:Nat) ^ k < 2 ^ (k + 1) := Nat.pow_lt_pow_right (by norm_num) (by omega)
  rw [Nat.testBit_xor, Nat.testBit_mul_pow_two_add m hlt j]
  have h0 := Nat.testBit_mul_pow_two_add m (two_pow_pos_nat (k + 1)) j
  rw [Nat.add_zero] at h0
  rw [h0]
  by_cases hj : j < k + 1
  · simp [hj]
  · simp only [hj, if_false]
    rw [Nat.testBit_two_pow]
    have : ¬ k = j := by omega
    simp [this]

/-- Flipping bit `k` of an odd multiple of `2^k` subtracts `2^k`. -/
theorem xor_two_pow_odd (m k : Nat) : (2 ^ (k + 1) * m + 2 ^ k) ^^^ 2 ^ k = 2 ^ (k + 1) * m := by
  rw [← xor_two_pow_even, Nat.xor_assoc, Nat.xor_self, Nat.xor_zero]

/-- A multiple of `2^k` is a multiple of `2^(k+1)`, or one plus `2^k`. -/
theorem aligned_cases (o k : Nat) (h : 2 ^ k ∣ o) :
    (∃ m, o = 2 ^ (k + 1) * m) ∨ (∃ m, o = 2 ^ (k + 1) * m + 2 ^ k) := by
  obtain ⟨q, rfl⟩ := h
  rcases Nat.even_or_odd' q with ⟨m, hm | hm⟩
  · left; exact ⟨m, by rw [hm, pow_succ]; ring⟩
  · right; exact ⟨m, by rw [hm, pow_succ]; ring⟩

theorem xor_two_pow_of_dvd_succ (o k : Nat) (h : 2 ^ (k + 1) ∣ o) : o ^^^ 2 ^ k = o + 2 ^ k := by
  obtain ⟨m, rfl⟩ := h
  exact xor_two_pow_even m k

/-- The buddy offset is aligned like the block. -/
theorem xor_two_pow_dvd (o k : Nat) (h : 2 ^ k ∣ o) : 2 ^ k ∣ o ^^^ 2 ^ k := by
  rcases aligned_cases o k h with ⟨m, rfl⟩ | ⟨m, rfl⟩
  · rw [xor_two_pow_even]
    exact Dvd.intro (2 * m + 1) (by rw [pow_succ]; ring)
  · rw [xor_two_pow_odd]
    exact Dvd.intro (2 * m) (by rw [pow_succ]; ring)

theorem xor_two_pow_ne (o k : Nat) : o ^^^ 2 ^ k ≠ o := by
  intro h
  have h2 : (o ^^^ 2 ^ k) ^^^ o = 0 := by rw [h, Nat.xor_self]
  rw [Nat.xor_comm, ← Nat.xor_assoc, Nat.xor_self, Nat.zero_xor] at h2
  have := two_pow_pos_nat k
  omega

theorem xor_two_pow_invol (o k : Nat) : (o ^^^ 2 ^ k) ^^^ 2 ^ k = o := by
  rw [Nat.xor_assoc, Nat.xor_self, Nat.xor_zero]

/-- Between two multiples of `d`, the gap is at least `d`. -/
theorem dvd_gap (d a b : Nat) (ha : d ∣ a) (hb : d ∣ b) (hlt : a < b) : a + d ≤ b := by
  by_contra hcon
  have h1 : b < a + d := by omega
  have := Nat.le_of_lt_add_of_dvd h1 hb ha
  omega

theorem two_pow_dvd_of_le (k1 k2 o : Nat) (hle : k1 ≤ k2) (h : 2 ^ k2 ∣ o) : 2 ^ k1 ∣ o :=
  Dvd.dvd.trans (pow_dvd_pow 2 hle) h

/-- Aligned blocks are nested or disjoint: of two that share a point, the one
of smaller order lies inside the other. -/
theorem dyadic_nested (o1 k1 o2 k2 x : Nat) (hk : k1 ≤ k2) (h1 : 2 ^ k1 ∣ o1) (h2 : 2 ^ k2 ∣ o2)
    (hx1 : o1 ≤ x) (hx1' : x < o1 + 2 ^ k1) (hx2 : o2 ≤ x) (hx2' : x < o2 + 2 ^ k2) :
    o2 ≤ o1 ∧ o1 + 2 ^ k1 ≤ o2 + 2 ^ k2 := by
  have h2' : 2 ^ k1 ∣ o2 := two_pow_dvd_of_le k1 k2 o2 hk h2
  have h3 : 2 ^ k1 ∣ o2 + 2 ^ k2 := Dvd.dvd.add h2' (pow_dvd_pow 2 hk)
  constructor
  · exact Nat.le_of_lt_add_of_dvd (by omega) h2' h1
  · exact dvd_gap _ _ _ h1 h3 (by omega)

/-- Two aligned blocks of one order that share a point are the same. -/
theorem dyadic_same (o1 o2 k x : Nat) (h1 : 2 ^ k ∣ o1) (h2 : 2 ^ k ∣ o2)
    (hx1 : o1 ≤ x) (hx1' : x < o1 + 2 ^ k) (hx2 : o2 ≤ x) (hx2' : x < o2 + 2 ^ k) : o1 = o2 := by
  have a := dyadic_nested o1 k o2 k x (le_refl _) h1 h2 hx1 hx1' hx2 hx2'
  have b := dyadic_nested o2 k o1 k x (le_refl _) h2 h1 hx2 hx2' hx1 hx1'
  omega

theorem parent_spec (o k : Nat) (h : 2 ^ k ∣ o) :
    2 ^ (k + 1) ∣ parent o k ∧
    ((parent o k = o ∧ o ^^^ 2 ^ k = o + 2 ^ k) ∨
     (parent o k = o ^^^ 2 ^ k ∧ o = (o ^^^ 2 ^ k) + 2 ^ k)) := by
  have hp := two_pow_pos_nat k
  rcases aligned_cases o k h with ⟨m, rfl⟩ | ⟨m, rfl⟩
  · have hx := xor_two_pow_even m k
    unfold parent
    rw [hx, if_neg (by omega)]
    exact ⟨Dvd.intro _ rfl, Or.inl ⟨rfl, rfl⟩⟩
  · have hx := xor_two_pow_odd m k
    unfold parent
    rw [hx, if_pos (by omega)]
    exact ⟨Dvd.intro _ rfl, Or.inr ⟨rfl, rfl⟩⟩

/-- A block of order below `K` inside the region has its buddy inside the
region too. -/
theorem parent_bounded (o k K : Nat) (h : 2 ^ k ∣ o) (hk : k < K) (hb : o + 2 ^ k ≤ 2 ^ K) :
    parent o k + 2 ^ (k + 1) ≤ 2 ^ K := by
  obtain ⟨hd, hc⟩ := parent_spec o k h
  have hp := two_pow_pos_nat k
  have hK : 2 ^ (k + 1) ∣ 2 ^ K := pow_dvd_pow 2 (by omega)
  apply dvd_gap _ _ _ hd hK
  rcases hc with ⟨h1, _⟩ | ⟨h1, h2⟩ <;> omega

/-! ## Tilings of the region by blocks -/

theorem Tiling.tiling_congr {K : Nat} {B B2 : Nat → Nat → Prop} (t : Tiling K B)
    (h : ∀ o k, B2 o k ↔ B o k) : Tiling K B2 where
  aligned o k hb := t.aligned o k ((h o k).1 hb)
  bounded o k hb := t.bounded o k ((h o k).1 hb)
  disjoint o1 k1 o2 k2 x h1 h2 := t.disjoint o1 k1 o2 k2 x ((h _ _).1 h1) ((h _ _).1 h2)
  cover x hx := by
    obtain ⟨o, k, hb, h1, h2⟩ := t.cover x hx
    exact ⟨o, k, (h o k).2 hb, h1, h2⟩

theorem Tiling.order_le {K : Nat} {B : Nat → Nat → Prop} (t : Tiling K B) (o k : Nat)
    (hb : B o k) : k ≤ K := by
  have h := t.bounded o k hb
  by_contra hc
  have : (2:Nat) ^ K < 2 ^ k := Nat.pow_lt_pow_right (by norm_num) (by omega)
  omega

theorem Tiling.same_offset {K : Nat} {B : Nat → Nat → Prop} (t : Tiling K B) (o k1 k2 : Nat)
    (h1 : B o k1) (h2 : B o k2) : k1 = k2 :=
  (t.disjoint o k1 o k2 o h1 h2 (le_refl _) (by have := two_pow_pos_nat k1; omega) (le_refl _)
    (by have := two_pow_pos_nat k2; omega)).2

/-- Splitting the block `(o, k+1)` into `(o, k)` and `(o + 2^k, k)`. -/
theorem Tiling.tiling_split {K : Nat} {B : Nat → Nat → Prop} (t : Tiling K B) (o k : Nat)
    (hb : B o (k + 1)) :
    Tiling K (fun o2 k2 => (B o2 k2 ∧ o2 ≠ o) ∨ (o2 = o ∧ k2 = k) ∨ (o2 = o + 2 ^ k ∧ k2 = k)) := by
  have hal := t.aligned o _ hb
  have hbd := t.bounded o _ hb
  have hpw := two_pow_succ_eq k
  have hpos := two_pow_pos_nat k
  have hal1 : 2 ^ k ∣ o := two_pow_dvd_of_le k (k + 1) o (by omega) hal
  -- every new block lies inside an old block
  have old : ∀ o2 k2, ((B o2 k2 ∧ o2 ≠ o) ∨ (o2 = o ∧ k2 = k) ∨ (o2 = o + 2 ^ k ∧ k2 = k)) →
      ∃ o3 k3, B o3 k3 ∧ o3 ≤ o2 ∧ o2 + 2 ^ k2 ≤ o3 + 2 ^ k3 ∧ (o3 = o → o ≤ o2 ∧ o2 + 2 ^ k2 ≤ o + 2 ^ (k + 1)) := by
    intro o2 k2 h
    rcases h with ⟨h, hne⟩ | ⟨rfl, rfl⟩ | ⟨rfl, rfl⟩
    · exact ⟨o2, k2, h, le_refl _, le_refl _, fun he => absurd he hne⟩
    · exact ⟨o2, k2 + 1, hb, le_refl _, by omega, fun _ => by omega⟩
    · exact ⟨o, k2 + 1, hb, by omega, by omega, fun _ => by omega⟩
  constructor
  · intro o2 k2 h
    rcases h with ⟨h, _⟩ | ⟨rfl, rfl⟩ | ⟨rfl, rfl⟩
    · exact t.aligned _ _ h
    · exact hal1
    · exact Dvd.dvd.add hal1 (dvd_refl _)
  · intro o2 k2 h
    rcases h with ⟨h, _⟩ | ⟨rfl, rfl⟩ | ⟨rfl, rfl⟩
    · exact t.bounded _ _ h
    · omega
    · omega
  · intro o1 k1 o2 k2 x h1 h2 a1 a2 b1 b2
    rcases h1 with ⟨h1, n1⟩ | ⟨rfl, rfl⟩ | ⟨rfl, rfl⟩ <;>
      rcases h2 with ⟨h2, n2⟩ | ⟨rfl, rfl⟩ | ⟨rfl, rfl⟩
    · exact t.disjoint o1 k1 o2 k2 x h1 h2 a1 a2 b1 b2
    · exact absurd (t.disjoint o1 k1 o2 (k2 + 1) x h1 hb a1 a2 b1 (by omega)).1 n1
    · exact absurd (t.disjoint o1 k1 o (k2 + 1) x h1 hb a1 a2 (by omega) (by omega)).1 n1
    · exact absurd (t.disjoint o2 k2 o1 (k1 + 1) x h2 hb b1 b2 a1 (by omega)).1 n2
    · exact ⟨rfl, rfl⟩
    · omega
    · exact absurd (t.disjoint o2 k2 o (k1 + 1) x h2 hb b1 b2 (by omega) (by omega)).1 n2
    · omega
    · exact ⟨rfl, rfl⟩
  · intro x hx
    obtain ⟨o2, k2, h, h1, h2⟩ := t.cover x hx
    by_cases he : o2 = o
    · subst he
      have := t.same_offset o2 k2 (k + 1) h hb
      subst this
      by_cases hh : x < o2 + 2 ^ k
      · exact ⟨o2, k, Or.inr (Or.inl ⟨rfl, rfl⟩), h1, hh⟩
      · exact ⟨o2 + 2 ^ k, k, Or.inr (Or.inr ⟨rfl, rfl⟩), by omega, by omega⟩
    · exact ⟨o2, k2, Or.inl ⟨h, he⟩, h1, h2⟩

/-- Merging the blocks `(o, k)` and `(o + 2^k, k)` into `(o, k+1)`. -/
theorem Tiling.tiling_merge {K : Nat} {B : Nat → Nat → Prop} (t : Tiling K B) (o k : Nat)
    (hal : 2 ^ (k + 1) ∣ o) (hb1 : B o k) (hb2 : B (o + 2 ^ k) k) :
    Tiling K (fun o2 k2 => (B o2 k2 ∧ o2 ≠ o ∧ o2 ≠ o + 2 ^ k) ∨ (o2 = o ∧ k2 = k + 1)) := by
  have hbd := t.bounded _ _ hb2
  have hpw := two_pow_succ_eq k
  have hpos := two_pow_pos_nat k
  constructor
  · intro o2 k2 h
    rcases h with ⟨h, _⟩ | ⟨rfl, rfl⟩
    · exact t.aligned _ _ h
    · exact hal
  · intro o2 k2 h
    rcases h with ⟨h, _⟩ | ⟨rfl, rfl⟩
    · exact t.bounded _ _ h
    · omega
  · intro o1 k1 o2 k2 x h1 h2 a1 a2 b1 b2
    have key : ∀ o3 k3, B o3 k3 → o3 ≠ o → o3 ≠ o + 2 ^ k → o3 ≤ x → x < o3 + 2 ^ k3 →
        o ≤ x → x < o + 2 ^ (k + 1) → False := by
      intro o3 k3 h3 n1 n2 c1 c2 d1 d2
      by_cases hh : x < o + 2 ^ k
      · exact n1 (t.disjoint o3 k3 o k x h3 hb1 c1 c2 d1 hh).1
      · exact n2 (t.disjoint o3 k3 (o + 2 ^ k) k x h3 hb2 c1 c2 (by omega) (by omega)).1
    rcases h1 with ⟨h1, n1, n1'⟩ | ⟨rfl, rfl⟩ <;> rcases h2 with ⟨h2, n2, n2'⟩ | ⟨rfl, rfl⟩
    · exact t.disjoint o1 k1 o2 k2 x h1 h2 a1 a2 b1 b2
    · exact (key o1 k1 h1 n1 n1' a1 a2 b1 b2).elim
    · exact (key o2 k2 h2 n2 n2' b1 b2 a1 a2).elim
    · exact ⟨rfl, rfl⟩
  · intro x hx
    obtain ⟨o2, k2, h, h1, h2⟩ := t.cover x hx
    by_cases he : o2 = o
    · subst he
      have := t.same_offset o2 k2 k h hb1
      subst this
      exact ⟨o2, k2 + 1, Or.inr ⟨rfl, rfl⟩, h1, by omega⟩
    · by_cases he2 : o2 = o + 2 ^ k
      · subst he2
        have := t.same_offset _ k2 k h hb2
        subst this
        exact ⟨o, k2 + 1, Or.inr ⟨rfl, rfl⟩, by omega, by omega⟩
      · exact ⟨o2, k2, Or.inl ⟨h, he, he2⟩, h1, h2⟩

/-- In a tiling, the byte where the buddy of a block `(o, k)`, `k < K`, starts
is the first byte of a block of order at most `k`. -/
theorem Tiling.buddy_start {K : Nat} {B : Nat → Nat → Prop} (t : Tiling K B) (o k : Nat)
    (hb : B o k) (hk : k < K) : ∃ k2, k2 ≤ k ∧ B (o ^^^ 2 ^ k) k2 := by
  have hal := t.aligned o k hb
  have hbd := t.bounded o k hb
  obtain ⟨hpd, hpc⟩ := parent_spec o k hal
  have hpb := parent_bounded o k K hal hk hbd
  have hpw := two_pow_succ_eq k
  have hpos := two_pow_pos_nat k
  have hbal := xor_two_pow_dvd o k hal
  have hlt : o ^^^ 2 ^ k < 2 ^ K := by
    rcases hpc with ⟨h1, h2⟩ | ⟨h1, h2⟩ <;> omega
  obtain ⟨ox, kx, hx, hx1, hx2⟩ := t.cover _ hlt
  have halx := t.aligned ox kx hx
  rcases Nat.lt_or_ge k kx with hgt | hle
  · exfalso
    -- the covering block would contain the parent, hence `o`
    have hn := dyadic_nested (parent o k) (k + 1) ox kx (o ^^^ 2 ^ k) (by omega) hpd halx
      (by rcases hpc with ⟨h1, h2⟩ | ⟨h1, h2⟩ <;> omega)
      (by rcases hpc with ⟨h1, h2⟩ | ⟨h1, h2⟩ <;> omega) hx1 hx2
    have hd := t.disjoint ox kx o k o hx hb
      (by rcases hpc with ⟨h1, h2⟩ | ⟨h1, h2⟩ <;> omega)
      (by rcases hpc with ⟨h1, h2⟩ | ⟨h1, h2⟩ <;> omega) (le_refl _) (by omega)
    omega
  · have hn := dyadic_nested ox kx (o ^^^ 2 ^ k) k (o ^^^ 2 ^ k) hle halx hbal hx1 hx2
      (le_refl _) (by omega)
    have : ox = o ^^^ 2 ^ k := by omega
    subst this
    exact ⟨kx, hle, hx⟩

/-- An aligned range `[d, d + 2^kd)` that meets no reserved block holds no
free block of order below `kd`. -/
theorem Layout.min_free {K : Nat} {F R : Nat → Nat → Prop} (L : Layout K F R) (d kd : Nat)
    (hd : 2 ^ kd ∣ d) (hkd : kd ≤ K)
    (hnoR : ∀ o k x, R o k → o ≤ x → x < o + 2 ^ k → d ≤ x → x < d + 2 ^ kd → False) :
    ∀ k o, F o k → k < kd → d ≤ o → o < d + 2 ^ kd → False := by
  intro k
  induction k using Nat.strong_induction_on with
  | _ k ih =>
    intro o hF hk h1 h2
    have hB : (fun o k => F o k ∨ R o k) o k := Or.inl hF
    have hal := L.tiling.aligned o k hB
    obtain ⟨k2, hk2, hb2⟩ := L.tiling.buddy_start o k hB (by omega)
    obtain ⟨hpd, hpc⟩ := parent_spec o k hal
    have hpw := two_pow_succ_eq k
    have hpos := two_pow_pos_nat k
    have hpos2 := two_pow_pos_nat k2
    have hn := dyadic_nested (parent o k) (k + 1) d kd o (by omega) hpd hd
      (by rcases hpc with ⟨a, b⟩ | ⟨a, b⟩ <;> omega)
      (by rcases hpc with ⟨a, b⟩ | ⟨a, b⟩ <;> omega) h1 h2
    have hb1 : d ≤ o ^^^ 2 ^ k := by rcases hpc with ⟨a, b⟩ | ⟨a, b⟩ <;> omega
    have hb1' : o ^^^ 2 ^ k < d + 2 ^ kd := by rcases hpc with ⟨a, b⟩ | ⟨a, b⟩ <;> omega
    rcases hb2 with hF2 | hR2
    · rcases Nat.lt_or_ge k2 k with hlt | hge
      · exact ih k2 hlt _ hF2 (by omega) hb1 hb1'
      · have : k2 = k := by omega
        subst this
        exact L.nobuddy o k2 (by omega) hF hF2
    · exact hnoR _ k2 _ hR2 (le_refl _) (by omega) hb1 hb1'

/-- The reserved blocks determine the free blocks. -/
theorem Layout.canonical {K : Nat} {F1 F2 R : Nat → Nat → Prop} (L1 : Layout K F1 R)
    (L2 : Layout K F2 R) : ∀ o k, F1 o k → F2 o k := by
  intro o k hF
  have hB : (fun o k => F1 o k ∨ R o k) o k := Or.inl hF
  have hal := L1.tiling.aligned o k hB
  have hbd := L1.tiling.bounded o k hB
  have hpos := two_pow_pos_nat k
  obtain ⟨ox, kx, hx, hx1, hx2⟩ := L2.tiling.cover o (by omega)
  have halx := L2.tiling.aligned ox kx hx
  have hposx := two_pow_pos_nat kx
  have hFx : F2 ox kx := by
    rcases hx with h | h
    · exact h
    · exfalso
      have := L1.tiling.disjoint o k ox kx o hB (Or.inr h) (le_refl _) (by omega) hx1 hx2
      rw [← this.1, ← this.2] at h
      exact L1.excl o k hF h
  rcases Nat.lt_trichotomy k kx with hlt | heq | hgt
  · exfalso
    refine L1.min_free ox kx halx (L2.tiling.order_le ox kx hx) ?_ k o hF hlt hx1 hx2
    intro o3 k3 x hR a1 a2 b1 b2
    have := L2.tiling.disjoint o3 k3 ox kx x (Or.inr hR) hx a1 a2 b1 b2
    rw [this.1, this.2] at hR
    exact L2.excl ox kx hFx hR
  · subst heq
    have := dyadic_same o ox k o hal halx (le_refl _) (by omega) hx1 hx2
    subst this
    exact hFx
  · exfalso
    have hn := dyadic_nested ox kx o k o (by omega) halx hal hx1 hx2 (le_refl _) (by omega)
    refine L2.min_free o k hal (L1.tiling.order_le o k hB) ?_ kx ox hFx hgt (by omega) (by omega)
    intro o3 k3 x hR a1 a2 b1 b2
    have := L1.tiling.disjoint o3 k3 o k x (Or.inr hR) hB a1 a2 b1 b2
    rw [this.1, this.2] at hR
    exact L1.excl o k hF hR

/-- With no reserved block, the only free block is the whole region. -/
theorem Layout.layout_full {K : Nat} {F R : Nat → Nat → Prop} (L : Layout K F R)
    (hR : ∀ o k, ¬ R o k) : ∀ o k, F o k ↔ (o = 0 ∧ k = K) := by
  have fwd : ∀ o k, F o k → (o = 0 ∧ k = K) := by
    intro o k hF
    have hB : (fun o k => F o k ∨ R o k) o k := Or.inl hF
    have hbd := L.tiling.bounded o k hB
    have hle := L.tiling.order_le o k hB
    rcases Nat.lt_or_ge k K with hlt | hge
    · exfalso
      have hpos := two_pow_pos_nat k
      exact L.min_free 0 K (dvd_zero _) (le_refl _) (fun o3 k3 _ h _ _ _ _ => hR o3 k3 h)
        k o hF hlt (Nat.zero_le _) (by omega)
    · have : k = K := by omega
      subst this
      exact ⟨by omega, rfl⟩
  intro o k
  constructor
  · exact fwd o k
  · rintro ⟨rfl, rfl⟩
    obtain ⟨o, k2, hb, h1, h2⟩ := L.tiling.cover 0 (two_pow_pos_nat k)
    rcases hb with h | h
    · obtain ⟨rfl, rfl⟩ := fwd o k2 h
      exact h
    · exact absurd h (hR o k2)

/-! ## Effect of unlinking and head insertion on the store -/

section unlink_lemmas

variable (pool : buddy_pool) (b q : Ptr)

@[simp] theorem unlink_kval_m : (unlink pool b).kval_m = pool.kval_m := rfl

@[simp] theorem unlink_numbytes : (unlink pool b).numbytes = pool.numbytes := rfl

@[simp] theorem unlink_tag : ((unlink pool b).mem q).tag = (pool.mem q).tag := by
  simp [unlink]

@[simp] theorem unlink_kval : ((unlink pool b).mem q).kval = (pool.mem q).kval := by
  simp [unlink]

theorem unlink_next :
    ((unlink pool b).mem q).next =
      if q = (pool.mem b).prev then (pool.mem b).next else (pool.mem q).next := by
  simp [unlink]

theorem unlink_prev (h : (pool.mem b).prev ≠ b) :
    ((unlink pool b).mem q).prev =
      if q = (pool.mem b).next then (pool.mem b).prev else (pool.mem q).prev := by
  have h2 : ¬ b = (pool.mem b).prev := fun e => h e.symm
  simp [unlink, h2]

end unlink_lemmas

section push_lemmas

variable (pool : buddy_pool) (k : Nat) (b q : Ptr)

@[simp] theorem push_head_kval_m : (push_head pool k b).kval_m = pool.kval_m := rfl

@[simp] theorem push_head_numbytes : (push_head pool k b).numbytes = pool.numbytes := rfl

@[simp] theorem push_head_tag : ((push_head pool k b).mem q).tag = (pool.mem q).tag := by
  simp [push_head]

@[simp] theorem push_head_kval : ((push_head pool k b).mem q).kval = (pool.mem q).kval := by
  simp [push_head]

theorem push_head_next :
    ((push_head pool k b).mem q).next =
      if q = Ptr.sentinel k then b
      else if q = b then (pool.mem (Ptr.sentinel k)).next else (pool.mem q).next := by
  simp [push_head]

theorem push_head_prev (h : b ≠ Ptr.sentinel k) :
    ((push_head pool k b).mem q).prev =
      if q = (pool.mem (Ptr.sentinel k)).next then b
      else if q = b then Ptr.sentinel k else (pool.mem q).prev := by
  have h2 : ¬ Ptr.sentinel k = b := fun e => h e.symm
  simp [push_head, h2]

end push_lemmas

/-! ## Lists -/

theorem Chain.chain_frame (pool pool2 : buddy_pool) (k : Nat) : ∀ (L : List Nat) (p : Ptr),
    Chain pool k p L →
    (pool2.mem p).next = (pool.mem p).next →
    (∀ o, o ∈ L → (pool2.mem (Ptr.block o)).next = (pool.mem (Ptr.block o)).next ∧
      (pool2.mem (Ptr.block o)).prev = (pool.mem (Ptr.block o)).prev) →
    (pool2.mem (Ptr.sentinel k)).prev = (pool.mem (Ptr.sentinel k)).prev →
    Chain pool2 k p L := by
  intro L
  induction L with
  | nil =>
    intro p hc hn _ hs
    simp only [Chain] at hc ⊢
    rw [hn, hs]; exact hc
  | cons o L ih =>
    intro p hc hn hL hs
    simp only [Chain] at hc ⊢
    obtain ⟨h1, h2, h3⟩ := hc
    have ho := hL o (List.mem_cons_self _ _)
    refine ⟨by rw [hn, h1], by rw [ho.2, h2], ?_⟩
    exact ih (Ptr.block o) h3 ho.1 (fun o2 h => hL o2 (List.mem_cons_of_mem _ h)) hs

/-- In a list, `prev` of a member is the start node or another member. -/
theorem Chain.prev_mem (pool : buddy_pool) (k b : Nat) : ∀ (L : List Nat) (p : Ptr),
    Chain pool k p L → b ∈ L → L.Nodup →
    (pool.mem (Ptr.block b)).prev = p ∨
      ∃ o, o ∈ L ∧ o ≠ b ∧ (pool.mem (Ptr.block b)).prev = Ptr.block o := by
  intro L
  induction L with
  | nil => intro p _ hb; simp at hb
  | cons a L ih =>
    intro p hc hb hnd
    simp only [Chain] at hc
    obtain ⟨_, h2, h3⟩ := hc
    rw [List.nodup_cons] at hnd
    by_cases hab : b = a
    · subst hab; exact Or.inl h2
    · have hbL : b ∈ L := by
        rcases List.mem_cons.1 hb with h | h
        · exact absurd h hab
        · exact h
      right
      rcases ih (Ptr.block a) h3 hbL hnd.2 with h | ⟨o, ho, hne, h⟩
      · exact ⟨a, List.mem_cons_self _ _, fun e => hab e.symm, h⟩
      · exact ⟨o, List.mem_cons_of_mem _ ho, hne, h⟩

/-- In a list, `next` of a member is the sentinel or another member. -/
theorem Chain.next_mem (pool : buddy_pool) (k b : Nat) : ∀ (L : List Nat) (p : Ptr),
    Chain pool k p L → b ∈ L → L.Nodup →
    (pool.mem (Ptr.block b)).next = Ptr.sentinel k ∨
      ∃ o, o ∈ L ∧ o ≠ b ∧ (pool.mem (Ptr.block b)).next = Ptr.block o := by
  intro L
  induction L with
  | nil => intro p _ hb; simp at hb
  | cons a L ih =>
    intro p hc hb hnd
    simp only [Chain] at hc
    obtain ⟨_, _, h3⟩ := hc
    rw [List.nodup_cons] at hnd
    by_cases hab : b = a
    · subst hab
      cases L with
      | nil => simp only [Chain] at h3; exact Or.inl h3.1
      | cons c L2 =>
        simp only [Chain] at h3
        right
        refine ⟨c, by simp, ?_, h3.1⟩
        intro e; subst e; exact hnd.1 (List.mem_cons_self _ _)
    · have hbL : b ∈ L := by
        rcases List.mem_cons.1 hb with h | h
        · exact absurd h hab
        · exact h
      rcases ih (Ptr.block a) h3 hbL hnd.2 with h | ⟨o, ho, hne, h⟩
      · exact Or.inl h
      · exact Or.inr ⟨o, List.mem_cons_of_mem _ ho, hne, h⟩

/-- The first node after `p`. -/
theorem Chain.head_eq (pool : buddy_pool) (k : Nat) (L : List Nat) (p : Ptr)
    (hc : Chain pool k p L) :
    (L = [] ∧ (pool.mem p).next = Ptr.sentinel k) ∨
      ∃ o r, L = o :: r ∧ (pool.mem p).next = Ptr.block o := by
  cases L with
  | nil => exact Or.inl ⟨rfl, hc.1⟩
  | cons o L => exact Or.inr ⟨o, L, rfl, hc.1⟩

/-- Unlinking a member of a list removes it from the list. -/
theorem Chain.chain_unlink (pool : buddy_pool) (k b : Nat) : ∀ (L : List Nat) (p : Ptr),
    Chain pool k p L → b ∈ L → L.Nodup → (∀ o, o ∈ L → p ≠ Ptr.block o) →
    Chain (unlink pool (Ptr.block b)) k p (L.erase b) := by
  intro L
  induction L with
  | nil => intro p _ hb; simp at hb
  | cons a L ih =>
    intro p hc hb hnd hp
    have hprev := Chain.prev_mem pool k b (a :: L) p hc hb hnd
    have hnext := Chain.next_mem pool k b (a :: L) p hc hb hnd
    have hpr : (pool.mem (Ptr.block b)).prev ≠ Ptr.block b := by
      rcases hprev with h | ⟨o, _, hne, h⟩
      · rw [h]; exact hp b hb
      · rw [h]; intro e; injection e with e; exact hne e
    have hc0 := hc
    simp only [Chain] at hc
    obtain ⟨h1, h2, h3⟩ := hc
    have hnd0 := hnd
    rw [List.nodup_cons] at hnd
    by_cases hab : a = b
    · subst hab
      rw [List.erase_cons_head]
      have hpa : p ≠ Ptr.block a := hp a (List.mem_cons_self _ _)
      cases L with
      | nil =>
        simp only [Chain] at h3 ⊢
        rw [unlink_next, unlink_prev _ _ _ hpr, h2, h3.1]
        simp
      | cons c L2 =>
        simp only [Chain] at h3 ⊢
        obtain ⟨g1, g2, g3⟩ := h3
        have hca : c ≠ a := by
          intro e; subst e; exact hnd.1 (List.mem_cons_self _ _)
        have hpc : p ≠ Ptr.block c := hp c (by simp)
        rw [List.nodup_cons] at hnd
        refine ⟨?_, ?_, ?_⟩
        · rw [unlink_next, h2, g1]; simp
        · rw [unlink_prev _ _ _ hpr, h2, g1]; simp
        · apply Chain.chain_frame pool _ k L2 (Ptr.block c) g3
          · rw [unlink_next, h2, if_neg (fun e => hpc e.symm)]
          · intro o ho
            have hpo : p ≠ Ptr.block o := hp o (by simp [ho])
            have hoc : o ≠ c := by
              intro e; subst e; exact hnd.2.1 ho
            rw [unlink_next, unlink_prev _ _ _ hpr, h2, g1,
              if_neg (fun e => hpo e.symm), if_neg (by intro e; injection e with e; exact hoc e)]
            exact ⟨rfl, rfl⟩
          · rw [unlink_prev _ _ _ hpr, g1, if_neg (by intro e; cases e)]
    · have hbL : b ∈ L := by
        rcases List.mem_cons.1 hb with h | h
        · exact absurd h.symm hab
        · exact h
      rw [List.erase_cons_tail (by simpa using hab)]
      simp only [Chain]
      have hih := ih (Ptr.block a) h3 hbL hnd.2
        (by intro o ho e; injection e with e; subst e; exact hnd.1 ho)
      have hprev2 := Chain.prev_mem pool k b L (Ptr.block a) h3 hbL hnd.2
      have hnext2 := Chain.next_mem pool k b L (Ptr.block a) h3 hbL hnd.2
      refine ⟨?_, ?_, hih⟩
      · rw [unlink_next, if_neg, h1]
        rcases hprev2 with h | ⟨o, ho, _, h⟩
        · rw [h]; exact hp a (List.mem_cons_self _ _)
        · rw [h]; exact hp o (List.mem_cons_of_mem _ ho)
      · rw [unlink_prev _ _ _ hpr, if_neg, h2]
        rcases hnext2 with h | ⟨o, ho, _, h⟩
        · rw [h]; intro e; cases e
        · rw [h]; intro e; injection e with e; subst e; exact hnd.1 ho

/-- Head insertion puts the block in front of the list. -/
theorem Chain.chain_push (pool : buddy_pool) (k b : Nat) (L : List Nat)
    (hc : Chain pool k (Ptr.sentinel k) L) (hb : b ∉ L) (hnd : L.Nodup) :
    Chain (push_head pool k (Ptr.block b)) k (Ptr.sentinel k) (b :: L) := by
  have hbs : Ptr.block b ≠ Ptr.sentinel k := by intro e; cases e
  have hsb : Ptr.sentinel k ≠ Ptr.block b := by intro e; cases e
  cases L with
  | nil =>
    simp only [Chain] at hc ⊢
    obtain ⟨h1, h2⟩ := hc
    refine ⟨?_, ?_, ?_, ?_⟩
    · rw [push_head_next]; simp
    · rw [push_head_prev _ _ _ _ hbs, h1]; simp
    · rw [push_head_next, h1]; simp
    · rw [push_head_prev _ _ _ _ hbs, h1]; simp
  | cons c L2 =>
    simp only [Chain] at hc ⊢
    obtain ⟨h1, h2, h3⟩ := hc
    have hbc : b ≠ c := by intro e; subst e; exact hb (List.mem_cons_self _ _)
    rw [List.nodup_cons] at hnd
    refine ⟨?_, ?_, ?_, ?_, ?_⟩
    · rw [push_head_next]; simp
    · rw [push_head_prev _ _ _ _ hbs, h1]; simp [hbc]
    · rw [push_head_next, h1]; simp
    · rw [push_head_prev _ _ _ _ hbs, h1]; simp
    · apply Chain.chain_frame pool _ k L2 (Ptr.block c) h3
      · have hcb : c ≠ b := fun e => hbc e.symm
        rw [push_head_next]; simp [hcb]
      · intro o ho
        have hob : o ≠ b := by intro e; subst e; exact hb (List.mem_cons_of_mem _ ho)
        have hoc : o ≠ c := by intro e; subst e; exact hnd.1 ho
        rw [push_head_next, push_head_prev _ _ _ _ hbs, h1]
        simp [hob, hoc]
      · rw [push_head_prev _ _ _ _ hbs, h1]; simp

/-- Following `next` reads a list off the store. -/
theorem Chain.walk_eq (pool : buddy_pool) (k : Nat) : ∀ (L : List Nat) (p : Ptr) (fuel : Nat),
    Chain pool k p L → L.length ≤ fuel → walk pool fuel (pool.mem p).next = L := by
  intro L
  induction L with
  | nil =>
    intro p fuel hc _
    simp only [Chain] at hc
    rw [hc.1]
    cases fuel <;> rfl
  | cons o L ih =>
    intro p fuel hc hf
    simp only [Chain] at hc
    obtain ⟨h1, _, h3⟩ := hc
    rw [h1]
    cases fuel with
    | zero => simp at hf
    | succ n =>
      simp only [walk]
      rw [ih (Ptr.block o) n h3 (by simpa using hf)]

/-! ## Moves between layouts -/

/-- A free block leaves the free lists (it is handed out or is in transit). -/
theorem Layout.layout_take {K : Nat} {F R : Nat → Nat → Prop} (L : Layout K F R) (o k : Nat)
    (hF : F o k) (F2 R2 : Nat → Nat → Prop)
    (hF2 : ∀ o2 k2, F2 o2 k2 ↔ (F o2 k2 ∧ o2 ≠ o))
    (hR2 : ∀ o2 k2, R2 o2 k2 ↔ (R o2 k2 ∨ (o2 = o ∧ k2 = k))) : Layout K F2 R2 := by
  have same : ∀ o2 k2, F o2 k2 ∨ R o2 k2 → o2 = o → k2 = k := by
    intro o2 k2 h e
    subst e
    exact L.tiling.same_offset o2 k2 k h (Or.inl hF)
  constructor
  · apply L.tiling.tiling_congr
    intro o2 k2
    rw [hF2, hR2]
    constructor
    · rintro (⟨h, _⟩ | h | ⟨rfl, rfl⟩)
      · exact Or.inl h
      · exact Or.inr h
      · exact Or.inl hF
    · rintro (h | h)
      · by_cases e : o2 = o
        · exact Or.inr (Or.inr ⟨e, same o2 k2 (Or.inl h) e⟩)
        · exact Or.inl ⟨h, e⟩
      · exact Or.inr (Or.inl h)
  · intro o2 k2 h1 h2
    rw [hF2] at h1
    rw [hR2] at h2
    rcases h2 with h2 | ⟨e, _⟩
    · exact L.excl o2 k2 h1.1 h2
    · exact h1.2 e
  · intro o2 k2 hk h1 h2
    rw [hF2] at h1 h2
    exact L.nobuddy o2 k2 hk h1.1 h2.1

/-- A block that is not free becomes free; its buddy must not be free. -/
theorem Layout.layout_give {K : Nat} {F R : Nat → Nat → Prop} (L : Layout K F R) (o k : Nat)
    (hR : R o k) (hbud : k < K → ¬ F (o ^^^ 2 ^ k) k) (F2 R2 : Nat → Nat → Prop)
    (hF2 : ∀ o2 k2, F2 o2 k2 ↔ (F o2 k2 ∨ (o2 = o ∧ k2 = k)))
    (hR2 : ∀ o2 k2, R2 o2 k2 ↔ (R o2 k2 ∧ o2 ≠ o)) : Layout K F2 R2 := by
  have same : ∀ o2 k2, F o2 k2 ∨ R o2 k2 → o2 = o → k2 = k := by
    intro o2 k2 h e
    subst e
    exact L.tiling.same_offset o2 k2 k h (Or.inr hR)
  have hFo : ∀ k2, ¬ F o k2 := by
    intro k2 h
    have := same o k2 (Or.inl h) rfl
    subst this
    exact L.excl o k2 h hR
  constructor
  · apply L.tiling.tiling_congr
    intro o2 k2
    rw [hF2, hR2]
    constructor
    · rintro ((h | ⟨rfl, rfl⟩) | ⟨h, _⟩)
      · exact Or.inl h
      · exact Or.inr hR
      · exact Or.inr h
    · rintro (h | h)
      · exact Or.inl (Or.inl h)
      · by_cases e : o2 = o
        · exact Or.inl (Or.inr ⟨e, same o2 k2 (Or.inr h) e⟩)
        · exact Or.inr ⟨h, e⟩
  · intro o2 k2 h1 h2
    rw [hF2] at h1
    rw [hR2] at h2
    rcases h1 with h1 | ⟨e, _⟩
    · exact L.excl o2 k2 h1 h2.1
    · exact h2.2 e
  · intro o2 k2 hk h1 h2
    rw [hF2] at h1 h2
    rcases h1 with h1 | ⟨rfl, rfl⟩
    · rcases h2 with h2 | h2
      · exact L.nobuddy o2 k2 hk h1 h2
      · obtain ⟨e, rfl⟩ := h2
        have e2 : o2 = o ^^^ 2 ^ k2 := by rw [← e, xor_two_pow_invol]
        rw [e2] at h1
        exact hbud hk h1
    · rcases h2 with h2 | ⟨e, _⟩
      · exact hbud hk h2
      · exact xor_two_pow_ne o2 k2 e

/-- The block `(o, k+1)`, not free, is split: `(o, k)` stays not free and the
upper half `(o + 2^k, k)` becomes free. -/
theorem Layout.layout_split {K : Nat} {F R : Nat → Nat → Prop} (L : Layout K F R) (o k : Nat)
    (hR : R o (k + 1)) (F2 R2 : Nat → Nat → Prop)
    (hF2 : ∀ o2 k2, F2 o2 k2 ↔ (F o2 k2 ∨ (o2 = o + 2 ^ k ∧ k2 = k)))
    (hR2 : ∀ o2 k2, R2 o2 k2 ↔ ((R o2 k2 ∧ o2 ≠ o) ∨ (o2 = o ∧ k2 = k))) : Layout K F2 R2 := by
  have hB : (fun o k => F o k ∨ R o k) o (k + 1) := Or.inr hR
  have hal := L.tiling.aligned o _ hB
  have hpw := two_pow_succ_eq k
  have hpos := two_pow_pos_nat k
  have hFo : ∀ k2, ¬ F o k2 := by
    intro k2 h
    have := L.tiling.same_offset o k2 (k + 1) (Or.inl h) hB
    subst this
    exact L.excl o _ h hR
  -- nothing else starts inside the block being split
  have inside : ∀ o2 k2, F o2 k2 ∨ R o2 k2 → o ≤ o2 → o2 < o + 2 ^ (k + 1) → o2 = o := by
    intro o2 k2 h a1 a2
    have hp2 := two_pow_pos_nat k2
    exact (L.tiling.disjoint o2 k2 o (k + 1) o2 h hB (le_refl _) (by omega) a1 a2).1
  have hFu : ∀ k2, ¬ F (o + 2 ^ k) k2 := by
    intro k2 h
    have := inside _ k2 (Or.inl h) (by omega) (by omega)
    omega
  have hRu : ∀ k2, ¬ R (o + 2 ^ k) k2 := by
    intro k2 h
    have := inside _ k2 (Or.inr h) (by omega) (by omega)
    omega
  constructor
  · apply (L.tiling.tiling_split o k hB).tiling_congr
    intro o2 k2
    rw [hF2, hR2]
    constructor
    · rintro ((h | h) | ⟨h, hne⟩ | h)
      · refine Or.inl ⟨Or.inl h, ?_⟩
        intro e; subst e; exact hFo k2 h
      · exact Or.inr (Or.inr h)
      · exact Or.inl ⟨Or.inr h, hne⟩
      · exact Or.inr (Or.inl h)
    · rintro (⟨h | h, hne⟩ | h | h)
      · exact Or.inl (Or.inl h)
      · exact Or.inr (Or.inl ⟨h, hne⟩)
      · exact Or.inr (Or.inr h)
      · exact Or.inl (Or.inr h)
  · intro o2 k2 h1 h2
    rw [hF2] at h1
    rw [hR2] at h2
    rcases h1 with h1 | ⟨rfl, rfl⟩
    · rcases h2 with ⟨h2, _⟩ | ⟨rfl, rfl⟩
      · exact L.excl o2 k2 h1 h2
      · exact hFo k2 h1
    · rcases h2 with ⟨h2, _⟩ | ⟨e, _⟩
      · exact hRu k2 h2
      · omega
  · intro o2 k2 hk h1 h2
    rw [hF2] at h1 h2
    have hx : (o + 2 ^ k) ^^^ 2 ^ k = o := by
      rw [← xor_two_pow_of_dvd_succ o k hal, xor_two_pow_invol]
    rcases h1 with h1 | ⟨rfl, rfl⟩
    · rcases h2 with h2 | ⟨e, rfl⟩
      · exact L.nobuddy o2 k2 hk h1 h2
      · have e2 : o2 = o := by rw [← hx, ← e, xor_two_pow_invol]
        subst e2
        exact hFo k2 h1
    · rw [hx] at h2
      rcases h2 with h2 | ⟨e, _⟩
      · exact hFo k2 h2
      · omega

/-- Coalescing: the block `(o, k)`, not free, absorbs its free buddy and
becomes `(parent o k, k+1)`. -/
theorem Layout.layout_merge {K : Nat} {F R : Nat → Nat → Prop} (L : Layout K F R) (o k : Nat)
    (hR : R o k) (hF : F (o ^^^ 2 ^ k) k) (F2 R2 : Nat → Nat → Prop)
    (hF2 : ∀ o2 k2, F2 o2 k2 ↔ (F o2 k2 ∧ o2 ≠ o ^^^ 2 ^ k))
    (hR2 : ∀ o2 k2, R2 o2 k2 ↔ ((R o2 k2 ∧ o2 ≠ o) ∨ (o2 = parent o k ∧ k2 = k + 1))) :
    Layout K F2 R2 := by
  have hBo : (fun o k => F o k ∨ R o k) o k := Or.inr hR
  have hBb : (fun o k => F o k ∨ R o k) (o ^^^ 2 ^ k) k := Or.inl hF
  have hal := L.tiling.aligned o _ hBo
  obtain ⟨hpd, hpc⟩ := parent_spec o k hal
  have hpw := two_pow_succ_eq k
  have hpos := two_pow_pos_nat k
  have hne := xor_two_pow_ne o k
  have hFo : ∀ k2, ¬ F o k2 := by
    intro k2 h
    have := L.tiling.same_offset o k2 k (Or.inl h) hBo
    subst this
    exact L.excl o _ h hR
  have hRb : ∀ k2, ¬ R (o ^^^ 2 ^ k) k2 := by
    intro k2 h
    have := L.tiling.same_offset _ k2 k (Or.inr h) hBb
    subst this
    exact L.excl _ _ hF h
  have hlow : (fun o k => F o k ∨ R o k) (parent o k) k := by
    rcases hpc with ⟨a, _⟩ | ⟨a, _⟩
    · rw [a]; exact hBo
    · rw [a]; exact hBb
  have hup : (fun o k => F o k ∨ R o k) (parent o k + 2 ^ k) k := by
    rcases hpc with ⟨a, b⟩ | ⟨a, b⟩
    · rw [a, ← b]; exact hBb
    · rw [a, ← b]; exact hBo
  have hpair : ∀ o2, (o2 ≠ parent o k ∧ o2 ≠ parent o k + 2 ^ k) ↔ (o2 ≠ o ∧ o2 ≠ o ^^^ 2 ^ k) := by
    intro o2
    rcases hpc with ⟨a, b⟩ | ⟨a, b⟩
    · rw [a, ← b]
    · rw [a, ← b]; exact and_comm
  constructor
  · apply (L.tiling.tiling_merge (parent o k) k hpd hlow hup).tiling_congr
    intro o2 k2
    rw [hF2, hR2]
    constructor
    · rintro (⟨h, n⟩ | ⟨h, n⟩ | h)
      · refine Or.inl ⟨Or.inl h, ?_⟩
        rw [hpair]
        exact ⟨fun e => by subst e; exact hFo k2 h, n⟩
      · refine Or.inl ⟨Or.inr h, ?_⟩
        rw [hpair]
        exact ⟨n, fun e => by subst e; exact hRb k2 h⟩
      · exact Or.inr h
    · rintro (⟨h | h, n⟩ | h)
      · rw [hpair] at n
        exact Or.inl ⟨h, n.2⟩
      · rw [hpair] at n
        exact Or.inr (Or.inl ⟨h, n.1⟩)
      · exact Or.inr (Or.inr h)
  · intro o2 k2 h1 h2
    rw [hF2] at h1
    rw [hR2] at h2
    rcases h2 with ⟨h2, _⟩ | ⟨rfl, rfl⟩
    · exact L.excl o2 k2 h1.1 h2
    · have := L.tiling.same_offset _ _ k (Or.inl h1.1) hlow
      omega
  · intro o2 k2 hk h1 h2
    rw [hF2] at h1 h2
    exact L.nobuddy o2 k2 hk h1.1 h2.1

/-- A reserved block is taken for coalescing, or a block in transit is handed
out: the blocks stay the same. -/
theorem Layout.layout_congr {K : Nat} {F R : Nat → Nat → Prop} (L : Layout K F R)
    (F2 R2 : Nat → Nat → Prop) (hF2 : ∀ o2 k2, F2 o2 k2 ↔ F o2 k2)
    (hR2 : ∀ o2 k2, R2 o2 k2 ↔ R o2 k2) : Layout K F2 R2 := by
  constructor
  · apply L.tiling.tiling_congr
    intro o2 k2
    rw [hF2, hR2]
  · intro o2 k2 h1 h2
    rw [hF2] at h1
    rw [hR2] at h2
    exact L.excl o2 k2 h1 h2
  · intro o2 k2 hk h1 h2
    rw [hF2] at h1 h2
    exact L.nobuddy o2 k2 hk h1 h2

theorem Lists.order_unique {cfg : Config} {pool : buddy_pool} {fl : Nat → List Nat}
    (L : Lists cfg pool fl) (o k1 k2 : Nat) (h1 : o ∈ fl k1) (h2 : o ∈ fl k2) : k1 = k2 := by
  rw [← (L.hdr k1 o h1).2, ← (L.hdr k2 o h2).2]

theorem mem_update_iff (fl : Nat → List Nat) (j : Nat) (L : List Nat) (o k : Nat) :
    o ∈ Function.update fl j L k ↔ (k = j ∧ o ∈ L) ∨ (k ≠ j ∧ o ∈ fl k) := by
  by_cases h : k = j
  · subst h; simp
  · simp [Function.update_noteq h, h]

/-- Writes to tags and orders of blocks that are on no list, and no write to
a link, leave the lists as they are. -/
theorem Lists.lists_frame {cfg : Config} {pool pool2 : buddy_pool} {fl : Nat → List Nat}
    (L : Lists cfg pool fl) (hK : pool2.kval_m = pool.kval_m)
    (hn : ∀ q, (pool2.mem q).next = (pool.mem q).next)
    (hp : ∀ q, (pool2.mem q).prev = (pool.mem q).prev)
    (hs : ∀ k, (pool2.mem (Ptr.sentinel k)).tag = (pool.mem (Ptr.sentinel k)).tag ∧
      (pool2.mem (Ptr.sentinel k)).kval = (pool.mem (Ptr.sentinel k)).kval)
    (hb : ∀ k o, o ∈ fl k → (pool2.mem (Ptr.block o)).tag = (pool.mem (Ptr.block o)).tag ∧
      (pool2.mem (Ptr.block o)).kval = (pool.mem (Ptr.block o)).kval) :
    Lists cfg pool2 fl where
  chain k hk := Chain.chain_frame pool pool2 k (fl k) _ (L.chain k (hK ▸ hk)) (hn _)
    (fun o _ => ⟨hn _, hp _⟩) (hp _)
  sent k hk := by rw [(hs k).1, (hs k).2]; exact L.sent k (hK ▸ hk)
  hdr k o ho := by rw [(hb k o ho).1, (hb k o ho).2]; exact L.hdr k o ho
  nodup := L.nodup

theorem Lists.lists_setKval {cfg : Config} {pool : buddy_pool} {fl : Nat → List Nat}
    (L : Lists cfg pool fl) (o v : Nat) (ho : ∀ k, o ∉ fl k) :
    Lists cfg (setKval pool (Ptr.block o) v) fl := by
  refine Lists.lists_frame L (show (Buddy.setKval pool (Ptr.block o) v).kval_m = pool.kval_m from rfl)
    ?_ ?_ ?_ ?_ <;> intros <;> simp
  rename_i k o2 h
  intro e; subst e; exact absurd h (ho k)

theorem Lists.lists_setTag {cfg : Config} {pool : buddy_pool} {fl : Nat → List Nat}
    (L : Lists cfg pool fl) (o v : Nat) (ho : ∀ k, o ∉ fl k) :
    Lists cfg (setTag pool (Ptr.block o) v) fl := by
  refine Lists.lists_frame L (show (Buddy.setTag pool (Ptr.block o) v).kval_m = pool.kval_m from rfl)
    ?_ ?_ ?_ ?_ <;> intros <;> simp
  rename_i k o2 h
  intro e; subst e; exact absurd h (ho k)

/-- Unlinking a listed block. -/
theorem Lists.lists_unlink {cfg : Config} {pool : buddy_pool} {fl : Nat → List Nat}
    (L : Lists cfg pool fl) (j o : Nat) (hj : j ≤ pool.kval_m) (ho : o ∈ fl j) :
    Lists cfg (unlink pool (Ptr.block o)) (Function.update fl j ((fl j).erase o)) := by
  have hcj := L.chain j hj
  have hprev := Chain.prev_mem pool j o (fl j) _ hcj ho (L.nodup j)
  have hnext := Chain.next_mem pool j o (fl j) _ hcj ho (L.nodup j)
  have hpr : (pool.mem (Ptr.block o)).prev ≠ Ptr.block o := by
    rcases hprev with h | ⟨o2, _, hne, h⟩
    · rw [h]; intro e; cases e
    · rw [h]; intro e; injection e with e; exact hne e
  constructor
  · intro k hk
    by_cases hkj : k = j
    · subst hkj
      rw [Function.update_same]
      exact Chain.chain_unlink pool k o (fl k) _ hcj ho (L.nodup k) (by intro _ _ e; cases e)
    · rw [Function.update_noteq hkj]
      apply Chain.chain_frame pool _ k (fl k) _ (L.chain k hk)
      · rw [unlink_next, if_neg]
        rcases hprev with h | ⟨o2, _, _, h⟩
        · rw [h]; intro e; injection e with e; exact hkj e
        · rw [h]; intro e; cases e
      · intro x hx
        rw [unlink_next, unlink_prev _ _ _ hpr, if_neg, if_neg]
        · exact ⟨rfl, rfl⟩
        · rcases hnext with h | ⟨o2, ho2, _, h⟩
          · rw [h]; intro e; cases e
          · rw [h]; intro e; injection e with e; subst e
            exact hkj (L.order_unique x k j hx ho2)
        · rcases hprev with h | ⟨o2, ho2, _, h⟩
          · rw [h]; intro e; cases e
          · rw [h]; intro e; injection e with e; subst e
            exact hkj (L.order_unique x k j hx ho2)
      · rw [unlink_prev _ _ _ hpr, if_neg]
        rcases hnext with h | ⟨o2, _, _, h⟩
        · rw [h]; intro e; injection e with e; exact hkj e
        · rw [h]; intro e; cases e
  · intro k hk
    simp only [unlink_tag, unlink_kval]
    exact L.sent k hk
  · intro k x hx
    simp only [unlink_tag, unlink_kval]
    rw [mem_update_iff] at hx
    rcases hx with ⟨rfl, h⟩ | ⟨_, h⟩
    · exact L.hdr k x (List.mem_of_mem_erase h)
    · exact L.hdr k x h
  · intro k
    by_cases hkj : k = j
    · subst hkj
      rw [Function.update_same]
      exact (L.nodup k).erase o
    · rw [Function.update_noteq hkj]
      exact L.nodup k

/-- Head insertion of a block that is on no list and already carries the tag
and the order of the list. -/
theorem Lists.lists_push {cfg : Config} {pool : buddy_pool} {fl : Nat → List Nat}
    (L : Lists cfg pool fl) (j o : Nat) (hj : j ≤ pool.kval_m) (ho : ∀ k, o ∉ fl k)
    (ht : (pool.mem (Ptr.block o)).tag = cfg.BLOCK_AVAIL)
    (hk : (pool.mem (Ptr.block o)).kval = j) :
    Lists cfg (push_head pool j (Ptr.block o)) (Function.update fl j (o :: fl j)) := by
  have hcj := L.chain j hj
  have hbs : Ptr.block o ≠ Ptr.sentinel j := by intro e; cases e
  have hhead := Chain.head_eq pool j (fl j) _ hcj
  have hhd : (pool.mem (Ptr.sentinel j)).next = Ptr.sentinel j ∨
      ∃ x, x ∈ fl j ∧ (pool.mem (Ptr.sentinel j)).next = Ptr.block x := by
    rcases hhead with ⟨_, h⟩ | ⟨x, r, e, h⟩
    · exact Or.inl h
    · exact Or.inr ⟨x, by rw [e]; simp, h⟩
  constructor
  · intro k hk
    by_cases hkj : k = j
    · subst hkj
      rw [Function.update_same]
      exact Chain.chain_push pool k o (fl k) hcj (ho k) (L.nodup k)
    · rw [Function.update_noteq hkj]
      apply Chain.chain_frame pool _ k (fl k) _ (L.chain k hk)
      · rw [push_head_next, if_neg (by intro e; injection e with e; exact hkj e),
          if_neg (by intro e; cases e)]
      · intro x hx
        have hxo : x ≠ o := by intro e; subst e; exact ho k hx
        rw [push_head_next, push_head_prev _ _ _ _ hbs, if_neg (by intro e; cases e),
          if_neg (by intro e; injection e with e; exact hxo e), if_neg,
          if_neg (by intro e; injection e with e; exact hxo e)]
        · exact ⟨rfl, rfl⟩
        · rcases hhd with h | ⟨y, hy, h⟩
          · rw [h]; intro e; cases e
          · rw [h]; intro e; injection e with e; subst e
            exact hkj (L.order_unique x k j hx hy)
      · rw [push_head_prev _ _ _ _ hbs, if_neg, if_neg (by intro e; cases e)]
        rcases hhd with h | ⟨y, _, h⟩
        · rw [h]; intro e; injection e with e; exact hkj e
        · rw [h]; intro e; cases e
  · intro k hk
    simp only [push_head_tag, push_head_kval]
    exact L.sent k hk
  · intro k x hx
    simp only [push_head_tag, push_head_kval]
    rw [mem_update_iff] at hx
    rcases hx with ⟨rfl, h⟩ | ⟨_, h⟩
    · rcases List.mem_cons.1 h with e | h
      · subst e; exact ⟨ht, hk⟩
      · exact L.hdr k x h
    · exact L.hdr k x h
  · intro k
    by_cases hkj : k = j
    · subst hkj
      rw [Function.update_same]
      exact List.nodup_cons.2 ⟨ho k, L.nodup k⟩
    · rw [Function.update_noteq hkj]
      exact L.nodup k

/-! ## The search loop -/

theorem searchLoop_spec (pool : buddy_pool) : ∀ (fuel block_k : Nat),
    pool.kval_m + 1 - block_k ≤ fuel →
    block_k ≤ searchLoop pool fuel block_k ∧
    (∀ j, block_k ≤ j → j < searchLoop pool fuel block_k →
      j ≤ pool.kval_m ∧ (pool.mem (Ptr.sentinel j)).next = Ptr.sentinel j) ∧
    (searchLoop pool fuel block_k ≤ pool.kval_m →
      (pool.mem (Ptr.sentinel (searchLoop pool fuel block_k))).next ≠
        Ptr.sentinel (searchLoop pool fuel block_k)) := by
  intro fuel
  induction fuel with
  | zero =>
    intro b hf
    simp only [searchLoop]
    exact ⟨le_refl _, fun j h1 h2 => by omega, fun h => by omega⟩
  | succ n ih =>
    intro b hf
    rw [searchLoop]
    by_cases hc : b ≤ pool.kval_m ∧ (pool.mem (Ptr.sentinel b)).next = Ptr.sentinel b
    · rw [if_pos hc]
      obtain ⟨i1, i2, i3⟩ := ih (b + 1) (by omega)
      refine ⟨by omega, ?_, i3⟩
      intro j h1 h2
      rcases Nat.eq_or_lt_of_le h1 with e | l
      · subst e; exact hc
      · exact i2 j (by omega) h2
    · rw [if_neg hc]
      refine ⟨le_refl _, fun j h1 h2 => by omega, ?_⟩
      intro h1 h2
      exact hc ⟨h1, h2⟩

/-- More than `kval_m + 1 - block_k` iterations are never used. -/
theorem searchLoop_fuel (pool : buddy_pool) : ∀ (fuel block_k : Nat),
    pool.kval_m + 1 - block_k ≤ fuel →
    searchLoop pool fuel block_k = searchLoop pool (pool.kval_m + 1 - block_k) block_k := by
  intro fuel
  induction fuel with
  | zero =>
    intro b hf
    have : pool.kval_m + 1 - b = 0 := by omega
    rw [this]
  | succ n ih =>
    intro b hf
    by_cases hc : b ≤ pool.kval_m ∧ (pool.mem (Ptr.sentinel b)).next = Ptr.sentinel b
    · have e : pool.kval_m + 1 - b = (pool.kval_m + 1 - (b + 1)) + 1 := by omega
      rw [e, searchLoop, searchLoop, if_pos hc, if_pos hc]
      exact ih (b + 1) (by omega)
    · rw [searchLoop, if_neg hc]
      cases h : pool.kval_m + 1 - b with
      | zero => rfl
      | succ m => rw [searchLoop, if_neg hc]

theorem TInv.not_free {cfg : Config} {pool : buddy_pool} {fl : Nat → List Nat}
    {rs : List (Nat × Nat)} {o k : Nat} (T : TInv cfg pool fl rs o k) : ∀ k2, o ∉ fl k2 := by
  intro k2 h
  have hR : (fun o2 k2 => (o2, k2) ∈ rs ∨ (o2 = o ∧ k2 = k)) o k := Or.inr ⟨rfl, rfl⟩
  have := T.layout.tiling.same_offset o k2 k (Or.inl h) (Or.inr hR)
  subst this
  exact T.layout.excl o k2 h hR

theorem mem_erase_update_iff {fl : Nat → List Nat} (hnd : ∀ k, (fl k).Nodup)
    (huniq : ∀ o k1 k2, o ∈ fl k1 → o ∈ fl k2 → k1 = k2) (j o : Nat) (ho : o ∈ fl j)
    (o2 k2 : Nat) :
    o2 ∈ Function.update fl j ((fl j).erase o) k2 ↔ (o2 ∈ fl k2 ∧ o2 ≠ o) := by
  rw [mem_update_iff]
  constructor
  · rintro (⟨rfl, h⟩ | ⟨hne, h⟩)
    · rw [(hnd k2).mem_erase_iff] at h
      exact ⟨h.2, h.1⟩
    · refine ⟨h, ?_⟩
      intro e; subst e
      exact hne (huniq o2 k2 j h ho)
  · rintro ⟨h, hne⟩
    by_cases e : k2 = j
    · subst e
      exact Or.inl ⟨rfl, (hnd k2).mem_erase_iff.2 ⟨hne, h⟩⟩
    · exact Or.inr ⟨e, h⟩

theorem mem_cons_update_iff (fl : Nat → List Nat) (j o o2 k2 : Nat) :
    o2 ∈ Function.update fl j (o :: fl j) k2 ↔ (o2 ∈ fl k2 ∨ (o2 = o ∧ k2 = j)) := by
  rw [mem_update_iff]
  constructor
  · rintro (⟨rfl, h⟩ | ⟨_, h⟩)
    · rcases List.mem_cons.1 h with e | h
      · exact Or.inr ⟨e, rfl⟩
      · exact Or.inl h
    · exact Or.inl h
  · rintro (h | ⟨rfl, rfl⟩)
    · by_cases e : k2 = j
      · subst e; exact Or.inl ⟨rfl, List.mem_cons_of_mem _ h⟩
      · exact Or.inr ⟨e, h⟩
    · exact Or.inl ⟨rfl, List.mem_cons_self _ _⟩

/-- Step A: a block is unlinked from its free list. -/
theorem GInv.ginv_take {cfg : Config} {pool : buddy_pool} {fl : Nat → List Nat}
    {rs : List (Nat × Nat)} (G : GInv cfg pool fl rs) (j o : Nat) (ho : o ∈ fl j) :
    TInv cfg (unlink pool (Ptr.block o)) (Function.update fl j ((fl j).erase o)) rs o j := by
  have hj : j ≤ pool.kval_m := G.layout.tiling.order_le o j (Or.inl ho)
  have hiff := mem_erase_update_iff G.lists.nodup G.lists.order_unique j o ho
  constructor
  · exact G.lists.lists_unlink j o hj ho
  · exact G.layout.layout_take o j ho _ _ hiff (fun _ _ => Iff.rfl)
  · intro o2 k2 h
    simp only [unlink_tag, unlink_kval]
    exact G.res o2 k2 h
  · exact G.rs_nodup
  · rw [unlink_kval]
    exact (G.lists.hdr j o ho).2
  · intro k2 h
    have := G.layout.tiling.same_offset o k2 j (Or.inr h) (Or.inl ho)
    subst this
    exact G.layout.excl o k2 ho h

/-- Step B: one round of the split loop of `buddy_malloc`. -/
theorem TInv.tinv_split {cfg : Config} {pool : buddy_pool} {fl : Nat → List Nat}
    {rs : List (Nat × Nat)} {o k : Nat} (T : TInv cfg pool fl rs o (k + 1)) :
    TInv cfg
      (push_head (setKval (setTag (setKval pool (Ptr.block o) k) (Ptr.block (o + 2 ^ k))
        cfg.BLOCK_AVAIL) (Ptr.block (o + 2 ^ k)) k) k (Ptr.block (o + 2 ^ k)))
      (Function.update fl k ((o + 2 ^ k) :: fl k)) rs o k := by
  have hR : (fun o2 k2 => (o2, k2) ∈ rs ∨ (o2 = o ∧ k2 = k + 1)) o (k + 1) := Or.inr ⟨rfl, rfl⟩
  have hB : (fun o2 k2 => o2 ∈ fl k2 ∨ ((o2, k2) ∈ rs ∨ (o2 = o ∧ k2 = k + 1))) o (k + 1) :=
    Or.inr hR
  have hpw := two_pow_succ_eq k
  have hpos := two_pow_pos_nat k
  have hk : k + 1 ≤ pool.kval_m := T.layout.tiling.order_le o (k + 1) hB
  have inside : ∀ o2 k2, (o2 ∈ fl k2 ∨ ((o2, k2) ∈ rs ∨ (o2 = o ∧ k2 = k + 1))) → o ≤ o2 →
      o2 < o + 2 ^ (k + 1) → o2 = o := by
    intro o2 k2 h a1 a2
    have hp2 := two_pow_pos_nat k2
    exact (T.layout.tiling.disjoint o2 k2 o (k + 1) o2 h hB (le_refl _) (by omega) a1 a2).1
  have hFu : ∀ k2, (o + 2 ^ k) ∉ fl k2 := by
    intro k2 h
    have := inside _ k2 (Or.inl h) (by omega) (by omega)
    omega
  have hRu : ∀ k2, (o + 2 ^ k, k2) ∉ rs := by
    intro k2 h
    have := inside _ k2 (Or.inr (Or.inl h)) (by omega) (by omega)
    omega
  have hne : o + 2 ^ k ≠ o := by omega
  constructor
  · apply Lists.lists_push
    · exact ((T.lists.lists_setKval o k T.not_free).lists_setTag _ _ hFu).lists_setKval _ _ hFu
    · show k ≤ pool.kval_m
      omega
    · exact hFu
    · simp
    · simp
  · apply T.layout.layout_split o k hR
    · intro o2 k2
      exact mem_cons_update_iff fl k (o + 2 ^ k) o2 k2
    · intro o2 k2
      constructor
      · rintro (h | ⟨rfl, rfl⟩)
        · refine Or.inl ⟨Or.inl h, ?_⟩
          intro e; subst e; exact T.fresh k2 h
        · exact Or.inr ⟨rfl, rfl⟩
      · rintro (⟨h | ⟨e, _⟩, n⟩ | h)
        · exact Or.inl h
        · exact absurd e n
        · exact Or.inr h
  · intro o2 k2 h
    have h1 : o2 ≠ o := by intro e; subst e; exact T.fresh k2 h
    have h2 : o2 ≠ o + 2 ^ k := by intro e; subst e; exact hRu k2 h
    simp only [push_head_tag, push_head_kval, setKval_tag, setKval_kval, setTag_tag, setTag_kval,
      Ptr.block.injEq, h1, h2, if_false]
    exact T.res o2 k2 h
  · exact T.rs_nodup
  · simp [fun e => hne (Eq.symm e)]
  · exact T.fresh

/-- Step C: the block in transit is handed out. -/
theorem TInv.reserve {cfg : Config} {pool : buddy_pool} {fl : Nat → List Nat}
    {rs : List (Nat × Nat)} {o k : Nat} (T : TInv cfg pool fl rs o k) :
    GInv cfg (setTag pool (Ptr.block o) cfg.BLOCK_RESERVED) fl ((o, k) :: rs) := by
  constructor
  · exact T.lists.lists_setTag o _ T.not_free
  · apply T.layout.layout_congr
    · intro o2 k2; exact Iff.rfl
    · intro o2 k2
      rw [List.mem_cons, Prod.mk.injEq]
      exact or_comm
  · intro o2 k2 h
    rcases List.mem_cons.1 h with e | h
    · rw [Prod.mk.injEq] at e
      obtain ⟨rfl, rfl⟩ := e
      simp only [setTag_tag, setTag_kval, if_pos]
      exact ⟨trivial, T.tk⟩
    · have h1 : o2 ≠ o := by intro e; rw [e] at h; exact T.fresh k2 h
      simp only [setTag_tag, setTag_kval, Ptr.block.injEq, h1, if_false]
      exact T.res o2 k2 h
  · exact List.nodup_cons.2 ⟨T.fresh k, T.rs_nodup⟩

/-- Step D: a block handed out comes back (`block->tag = BLOCK_AVAIL`). -/
theorem GInv.release {cfg : Config} {pool : buddy_pool} {fl : Nat → List Nat}
    {rs : List (Nat × Nat)} (G : GInv cfg pool fl rs) (o k : Nat) (h : (o, k) ∈ rs) :
    TInv cfg (setTag pool (Ptr.block o) cfg.BLOCK_AVAIL) fl (rs.erase (o, k)) o k := by
  have hno : ∀ k2, o ∉ fl k2 := by
    intro k2 h2
    have := G.layout.tiling.same_offset o k2 k (Or.inl h2) (Or.inr h)
    subst this
    exact G.layout.excl o k2 h2 h
  have hfresh : ∀ k2, (o, k2) ∉ rs.erase (o, k) := by
    intro k2 h2
    have h3 := List.mem_of_mem_erase h2
    have := G.layout.tiling.same_offset o k2 k (Or.inr h3) (Or.inr h)
    subst this
    exact (G.rs_nodup.mem_erase_iff.1 h2).1 rfl
  constructor
  · exact G.lists.lists_setTag o _ hno
  · apply G.layout.layout_congr
    · intro o2 k2; exact Iff.rfl
    · intro o2 k2
      constructor
      · rintro (h2 | ⟨rfl, rfl⟩)
        · exact List.mem_of_mem_erase h2
        · exact h
      · intro h2
        by_cases e : (o2, k2) = (o, k)
        · rw [Prod.mk.injEq] at e; exact Or.inr e
        · exact Or.inl (G.rs_nodup.mem_erase_iff.2 ⟨e, h2⟩)
  · intro o2 k2 h2
    have h1 : o2 ≠ o := by intro e; subst e; exact hfresh k2 h2
    simp only [setTag_tag, setTag_kval, Ptr.block.injEq, h1, if_false]
    exact G.res o2 k2 (List.mem_of_mem_erase h2)
  · exact G.rs_nodup.erase _
  · rw [setTag_kval]
    exact (G.res o k h).2
  · exact hfresh

/-- Step E: one round of the coalescing loop of `buddy_free`. -/
theorem TInv.tinv_merge {cfg : Config} {pool : buddy_pool} {fl : Nat → List Nat}
    {rs : List (Nat × Nat)} {o k : Nat} (T : TInv cfg pool fl rs o k)
    (hb : o ^^^ 2 ^ k ∈ fl k) :
    TInv cfg (setKval (unlink pool (Ptr.block (o ^^^ 2 ^ k))) (Ptr.block (parent o k)) (k + 1))
      (Function.update fl k ((fl k).erase (o ^^^ 2 ^ k))) rs (parent o k) (k + 1) := by
  have hR : (fun o2 k2 => (o2, k2) ∈ rs ∨ (o2 = o ∧ k2 = k)) o k := Or.inr ⟨rfl, rfl⟩
  have hk : k ≤ pool.kval_m := T.layout.tiling.order_le o k (Or.inr hR)
  have hiff := mem_erase_update_iff T.lists.nodup T.lists.order_unique k _ hb
  have hRb : ∀ k2, (o ^^^ 2 ^ k, k2) ∉ rs := by
    intro k2 h
    have := T.layout.tiling.same_offset _ k2 k (Or.inr (Or.inl h)) (Or.inl hb)
    subst this
    exact T.layout.excl _ _ hb (Or.inl h)
  have hpar : parent o k = o ∨ parent o k = o ^^^ 2 ^ k := by
    unfold parent; split <;> simp
  have hpfree : ∀ k2, parent o k ∉ Function.update fl k ((fl k).erase (o ^^^ 2 ^ k)) k2 := by
    intro k2 h
    rw [hiff] at h
    rcases hpar with e | e
    · rw [e] at h; exact T.not_free k2 h.1
    · exact h.2 e
  have hpres : ∀ k2, (parent o k, k2) ∉ rs := by
    intro k2 h
    rcases hpar with e | e
    · rw [e] at h; exact T.fresh k2 h
    · rw [e] at h; exact hRb k2 h
  constructor
  · exact (T.lists.lists_unlink k _ hk hb).lists_setKval _ _ hpfree
  · apply T.layout.layout_merge o k hR hb
    · exact hiff
    · intro o2 k2
      constructor
      · rintro (h | h)
        · refine Or.inl ⟨Or.inl h, ?_⟩
          intro e; subst e; exact T.fresh k2 h
        · exact Or.inr h
      · rintro (⟨h | ⟨e, _⟩, n⟩ | h)
        · exact Or.inl h
        · exact absurd e n
        · exact Or.inr h
  · intro o2 k2 h
    have h1 : o2 ≠ parent o k := by intro e; subst e; exact hpres k2 h
    simp only [setKval_tag, setKval_kval, unlink_tag, unlink_kval, Ptr.block.injEq, h1, if_false]
    exact T.res o2 k2 h
  · exact T.rs_nodup
  · simp
  · exact hpres

/-- Step F: the block in transit is put on its free list. -/
theorem TInv.tinv_give {cfg : Config} {pool : buddy_pool} {fl : Nat → List Nat}
    {rs : List (Nat × Nat)} {o k : Nat} (T : TInv cfg pool fl rs o k)
    (hbud : k < pool.kval_m → o ^^^ 2 ^ k ∉ fl k) :
    GInv cfg (push_head (setTag pool (Ptr.block o) cfg.BLOCK_AVAIL) k (Ptr.block o))
      (Function.update fl k (o :: fl k)) rs := by
  have hR : (fun o2 k2 => (o2, k2) ∈ rs ∨ (o2 = o ∧ k2 = k)) o k := Or.inr ⟨rfl, rfl⟩
  have hk : k ≤ pool.kval_m := T.layout.tiling.order_le o k (Or.inr hR)
  constructor
  · apply Lists.lists_push
    · exact T.lists.lists_setTag o _ T.not_free
    · exact hk
    · exact T.not_free
    · simp
    · simpa using T.tk
  · apply T.layout.layout_give o k hR hbud
    · intro o2 k2
      exact mem_cons_update_iff fl k o o2 k2
    · intro o2 k2
      constructor
      · intro h
        refine ⟨Or.inl h, ?_⟩
        intro e; subst e; exact T.fresh k2 h
      · rintro ⟨h | ⟨e, _⟩, n⟩
        · exact h
        · exact absurd e n
  · intro o2 k2 h
    have h1 : o2 ≠ o := by intro e; subst e; exact T.fresh k2 h
    simp only [push_head_tag, push_head_kval, setTag_tag, setTag_kval, Ptr.block.injEq, h1,
      if_false]
    exact T.res o2 k2 h
  · exact T.rs_nodup

/-! ## The loops -/

theorem buddy_calc_eq (pool : buddy_pool) (o k : Nat) (h : (pool.mem (Ptr.block o)).kval = k) :
    buddy_calc pool o = o ^^^ 2 ^ k := by
  unfold buddy_calc
  rw [h, one_shl]

theorem splitLoop_kval_m (cfg : Config) (kval : Nat) : ∀ (fuel : Nat) (pool : buddy_pool)
    (o bk : Nat), (splitLoop cfg kval fuel pool o bk).kval_m = pool.kval_m := by
  intro fuel
  induction fuel with
  | zero => intro pool o bk; rfl
  | succ n ih =>
    intro pool o bk
    rw [splitLoop]
    split
    · simp only []
      rw [ih]; simp
    · rfl

theorem splitLoop_numbytes (cfg : Config) (kval : Nat) : ∀ (fuel : Nat) (pool : buddy_pool)
    (o bk : Nat), (splitLoop cfg kval fuel pool o bk).numbytes = pool.numbytes := by
  intro fuel
  induction fuel with
  | zero => intro pool o bk; rfl
  | succ n ih =>
    intro pool o bk
    rw [splitLoop]
    split
    · simp only []
      rw [ih]; simp
    · rfl

/-- More than `block_k - kval` iterations are never used by the split loop. -/
theorem splitLoop_fuel (cfg : Config) (kval : Nat) : ∀ (fuel : Nat) (pool : buddy_pool)
    (o bk : Nat), bk - kval ≤ fuel →
    splitLoop cfg kval fuel pool o bk = splitLoop cfg kval (bk - kval) pool o bk := by
  intro fuel
  induction fuel with
  | zero =>
    intro pool o bk hf
    have : bk - kval = 0 := by omega
    rw [this]
  | succ n ih =>
    intro pool o bk hf
    by_cases hc : bk > kval
    · have e : bk - kval = (bk - 1 - kval) + 1 := by omega
      rw [e, splitLoop, splitLoop, if_pos hc, if_pos hc]
      exact ih _ o (bk - 1) (by omega)
    · have e : bk - kval = 0 := by omega
      rw [e, splitLoop, splitLoop, if_neg hc]

/-- The split loop keeps the invariant and leaves the free lists `splitFl`. -/
theorem splitLoop_inv (cfg : Config) (kval : Nat) : ∀ (fuel : Nat) (pool : buddy_pool)
    (fl : Nat → List Nat) (rs : List (Nat × Nat)) (o bk : Nat),
    TInv cfg pool fl rs o bk → kval ≤ bk → bk - kval ≤ fuel →
    TInv cfg (splitLoop cfg kval fuel pool o bk) (splitFl fl o kval bk) rs o kval := by
  intro fuel
  induction fuel with
  | zero =>
    intro pool fl rs o bk T h1 h2
    have e : bk = kval := by omega
    subst e
    have : splitFl fl o bk bk = fl := by
      funext j; unfold splitFl; rw [if_neg (by omega)]
    rw [this]
    exact T
  | succ n ih =>
    intro pool fl rs o bk T h1 h2
    rw [splitLoop]
    by_cases hc : bk > kval
    · rw [if_pos hc]
      obtain ⟨k, rfl⟩ : ∃ k, bk = k + 1 := ⟨bk - 1, by omega⟩
      simp only [Nat.add_sub_cancel]
      have hal : 2 ^ (k + 1) ∣ o :=
        T.layout.tiling.aligned o (k + 1) (Or.inr (Or.inr ⟨rfl, rfl⟩))
      have hbc : buddy_calc (setKval pool (Ptr.block o) k) o = o + 2 ^ k := by
        rw [buddy_calc_eq _ o k (by simp), xor_two_pow_of_dvd_succ o k hal]
      rw [hbc]
      have T2 := ih _ _ rs o k T.tinv_split (by omega) (by omega)
      have e : splitFl (Function.update fl k ((o + 2 ^ k) :: fl k)) o kval k
          = splitFl fl o kval (k + 1) := by
        funext j
        unfold splitFl
        by_cases hj : j = k
        · subst hj
          rw [if_neg (by omega), if_pos (by omega), Function.update_same]
        · rw [Function.update_noteq hj]
          by_cases hj2 : kval ≤ j ∧ j < k
          · rw [if_pos hj2, if_pos (by omega)]
          · rw [if_neg hj2, if_neg (by omega)]
      rw [← e]
      exact T2
    · rw [if_neg hc]
      have e : bk = kval := by omega
      subst e
      have : splitFl fl o bk bk = fl := by
        funext j; unfold splitFl; rw [if_neg (by omega)]
      rw [this]
      exact T

/-- The test of the coalescing loop succeeds exactly when the buddy is on the
free list of the block's order. -/
theorem TInv.buddy_test {cfg : Config} {pool : buddy_pool} {fl : Nat → List Nat}
    {rs : List (Nat × Nat)} {o k : Nat} (T : TInv cfg pool fl rs o k)
    (hne : cfg.BLOCK_AVAIL ≠ cfg.BLOCK_RESERVED) (hk : k < pool.kval_m) :
    ((pool.mem (Ptr.block (o ^^^ 2 ^ k))).tag = cfg.BLOCK_AVAIL ∧
      (pool.mem (Ptr.block (o ^^^ 2 ^ k))).kval = k) ↔ o ^^^ 2 ^ k ∈ fl k := by
  constructor
  · rintro ⟨h1, h2⟩
    have hB : (fun o2 k2 => o2 ∈ fl k2 ∨ ((o2, k2) ∈ rs ∨ (o2 = o ∧ k2 = k))) o k :=
      Or.inr (Or.inr ⟨rfl, rfl⟩)
    obtain ⟨k2, _, hb⟩ := T.layout.tiling.buddy_start o k hB hk
    rcases hb with hb | hb | ⟨e, _⟩
    · have := (T.lists.hdr k2 _ hb).2
      rw [h2] at this
      subst this
      exact hb
    · have := (T.res _ k2 hb).1
      rw [h1] at this
      exact absurd this hne
    · exact absurd e (xor_two_pow_ne o k)
  · intro h
    exact T.lists.hdr k _ h

theorem freeLoop_kval_m (cfg : Config) : ∀ (fuel : Nat) (pool : buddy_pool) (o k : Nat),
    (freeLoop cfg fuel pool o k).1.kval_m = pool.kval_m := by
  intro fuel
  induction fuel with
  | zero => intro pool o k; rfl
  | succ n ih =>
    intro pool o k
    rw [freeLoop]
    split
    · simp only []
      split
      · rfl
      · rw [ih]; simp
    · rfl

theorem freeLoop_numbytes (cfg : Config) : ∀ (fuel : Nat) (pool : buddy_pool) (o k : Nat),
    (freeLoop cfg fuel pool o k).1.numbytes = pool.numbytes := by
  intro fuel
  induction fuel with
  | zero => intro pool o k; rfl
  | succ n ih =>
    intro pool o k
    rw [freeLoop]
    split
    · simp only []
      split
      · rfl
      · rw [ih]; simp
    · rfl

/-- More than `kval_m - kval` iterations are never used by the coalescing
loop. -/
theorem freeLoop_fuel (cfg : Config) : ∀ (fuel : Nat) (pool : buddy_pool) (o k : Nat),
    pool.kval_m - k ≤ fuel →
    freeLoop cfg fuel pool o k = freeLoop cfg (pool.kval_m - k) pool o k := by
  intro fuel
  induction fuel with
  | zero =>
    intro pool o k hf
    have : pool.kval_m - k = 0 := by omega
    rw [this]
  | succ n ih =>
    intro pool o k hf
    by_cases hk : k < pool.kval_m
    · have e : pool.kval_m - k = (pool.kval_m - (k + 1)) + 1 := by omega
      rw [e, freeLoop, freeLoop, if_pos hk, if_pos hk]
      simp only []
      split
      · rfl
      · have := ih (setKval (unlink pool (Ptr.block (buddy_calc pool o)))
          (Ptr.block (if buddy_calc pool o < o then buddy_calc pool o else o)) (k + 1))
          (if buddy_calc pool o < o then buddy_calc pool o else o) (k + 1)
          (by simp; omega)
        simpa using this
    · have e : pool.kval_m - k = 0 := by omega
      rw [e, freeLoop, freeLoop, if_neg hk]

/-- The coalescing loop keeps the invariant, and at its exit the buddy of the
block in transit is not free (or the block is the whole region). -/
theorem freeLoop_inv (cfg : Config) (hne : cfg.BLOCK_AVAIL ≠ cfg.BLOCK_RESERVED) :
    ∀ (fuel : Nat) (pool : buddy_pool) (fl : Nat → List Nat) (rs : List (Nat × Nat)) (o k : Nat),
    TInv cfg pool fl rs o k → pool.kval_m - k ≤ fuel →
    ∃ fl2, TInv cfg (freeLoop cfg fuel pool o k).1 fl2 rs (freeLoop cfg fuel pool o k).2.1
        (freeLoop cfg fuel pool o k).2.2 ∧
      ((freeLoop cfg fuel pool o k).2.2 < pool.kval_m →
        (freeLoop cfg fuel pool o k).2.1 ^^^ 2 ^ (freeLoop cfg fuel pool o k).2.2 ∉
          fl2 (freeLoop cfg fuel pool o k).2.2) := by
  intro fuel
  induction fuel with
  | zero =>
    intro pool fl rs o k T hf
    exact ⟨fl, T, fun h => by simp only [freeLoop] at h; omega⟩
  | succ n ih =>
    intro pool fl rs o k T hf
    rw [freeLoop]
    by_cases hk : k < pool.kval_m
    · rw [if_pos hk]
      have hbc := buddy_calc_eq pool o k T.tk
      have htest := T.buddy_test hne hk
      simp only [hbc]
      by_cases hb : o ^^^ 2 ^ k ∈ fl k
      · have h12 := htest.2 hb
        rw [if_neg (by rw [h12.1, h12.2]; simp)]
        have T2 := T.tinv_merge hb
        have e : (if o ^^^ 2 ^ k < o then o ^^^ 2 ^ k else o) = parent o k := rfl
        rw [e]
        obtain ⟨fl2, T3, h3⟩ := ih _ _ rs _ _ T2 (by simp; omega)
        exact ⟨fl2, T3, by simpa using h3⟩
      · have hnt : (pool.mem (Ptr.block (o ^^^ 2 ^ k))).tag ≠ cfg.BLOCK_AVAIL ∨
            (pool.mem (Ptr.block (o ^^^ 2 ^ k))).kval ≠ k := by
          by_contra hcon
          push_neg at hcon
          exact hb (htest.1 hcon)
        rw [if_pos hnt]
        exact ⟨fl, T, fun _ => hb⟩
    · rw [if_neg hk]
      exact ⟨fl, T, fun h => absurd h hk⟩

/-! ## `buddy_init` -/

theorem initLoop_kval_m (cfg : Config) : ∀ (n : Nat) (pool : buddy_pool),
    (initLoop cfg n pool).kval_m = pool.kval_m := by
  intro n
  induction n with
  | zero => intro pool; rfl
  | succ n ih => intro pool; simp [initLoop, ih]

theorem initLoop_numbytes (cfg : Config) : ∀ (n : Nat) (pool : buddy_pool),
    (initLoop cfg n pool).numbytes = pool.numbytes := by
  intro n
  induction n with
  | zero => intro pool; rfl
  | succ n ih => intro pool; simp [initLoop, ih]

theorem initLoop_other (cfg : Config) : ∀ (n : Nat) (pool : buddy_pool) (q : Ptr),
    (∀ i, i < n → q ≠ Ptr.sentinel i) → (initLoop cfg n pool).mem q = pool.mem q := by
  intro n
  induction n with
  | zero => intro pool q _; rfl
  | succ n ih =>
    intro pool q hq
    have h1 := ih pool q (fun i hi => hq i (by omega))
    have h2 := hq n (by omega)
    apply avail_ext <;> simp [initLoop, h1, h2]

theorem initLoop_sent (cfg : Config) : ∀ (n : Nat) (pool : buddy_pool) (i : Nat), i < n →
    ((initLoop cfg n pool).mem (Ptr.sentinel i)).tag = cfg.BLOCK_UNUSED ∧
    ((initLoop cfg n pool).mem (Ptr.sentinel i)).kval = i ∧
    ((initLoop cfg n pool).mem (Ptr.sentinel i)).next = Ptr.sentinel i ∧
    ((initLoop cfg n pool).mem (Ptr.sentinel i)).prev = Ptr.sentinel i := by
  intro n
  induction n with
  | zero => intro pool i hi; omega
  | succ n ih =>
    intro pool i hi
    by_cases e : i = n
    · subst e
      simp [initLoop]
    · have h1 := ih pool i (by omega)
      simp [initLoop, e, h1]

theorem init_pool_kval_m (cfg : Config) (K : Nat) : (init_pool cfg K).kval_m = K := by
  simp [init_pool, initLoop_kval_m]

theorem init_pool_numbytes (cfg : Config) (K : Nat) :
    (init_pool cfg K).numbytes = (1 <<< K) % 2 ^ 64 := by
  simp [init_pool, initLoop_numbytes]

theorem init_pool_sent_lt (cfg : Config) (K i : Nat) (hi : i < K) :
    ((init_pool cfg K).mem (Ptr.sentinel i)).tag = cfg.BLOCK_UNUSED ∧
    ((init_pool cfg K).mem (Ptr.sentinel i)).kval = i ∧
    ((init_pool cfg K).mem (Ptr.sentinel i)).next = Ptr.sentinel i ∧
    ((init_pool cfg K).mem (Ptr.sentinel i)).prev = Ptr.sentinel i := by
  have h := fun p => initLoop_sent cfg (K + 1) p i (by omega)
  have hne : i ≠ K := by omega
  simp [init_pool, h, hne]

theorem init_pool_sent_top (cfg : Config) (K : Nat) :
    ((init_pool cfg K).mem (Ptr.sentinel K)).tag = cfg.BLOCK_UNUSED ∧
    ((init_pool cfg K).mem (Ptr.sentinel K)).kval = K ∧
    ((init_pool cfg K).mem (Ptr.sentinel K)).next = Ptr.block 0 ∧
    ((init_pool cfg K).mem (Ptr.sentinel K)).prev = Ptr.block 0 := by
  have h := fun p => initLoop_sent cfg (K + 1) p K (by omega)
  simp [init_pool, h]

theorem init_pool_base (cfg : Config) (K : Nat) :
    ((init_pool cfg K).mem (Ptr.block 0)).tag = cfg.BLOCK_AVAIL ∧
    ((init_pool cfg K).mem (Ptr.block 0)).kval = K ∧
    ((init_pool cfg K).mem (Ptr.block 0)).next = Ptr.sentinel K ∧
    ((init_pool cfg K).mem (Ptr.block 0)).prev = Ptr.sentinel K := by
  simp [init_pool]

theorem mem_initFl (K o k : Nat) : o ∈ initFl K k ↔ (o = 0 ∧ k = K) := by
  unfold initFl
  rw [mem_update_iff]
  simp
  tauto

/-- The invariant holds after `buddy_init`. -/
theorem init_pool_inv (cfg : Config) (K : Nat) : GInv cfg (init_pool cfg K) (initFl K) [] := by
  have hK := init_pool_kval_m cfg K
  constructor
  · constructor
    · intro k hk
      rw [hK] at hk
      rcases Nat.lt_or_ge k K with hlt | hge
      · have e : initFl K k = [] := by
          unfold initFl; rw [Function.update_noteq (by omega)]
        rw [e]
        have h := init_pool_sent_lt cfg K k hlt
        exact ⟨h.2.2.1, h.2.2.2⟩
      · have e : k = K := by omega
        subst e
        have e : initFl k k = [0] := by
          unfold initFl; rw [Function.update_same]
        rw [e]
        have h := init_pool_sent_top cfg k
        have h2 := init_pool_base cfg k
        exact ⟨h.2.2.1, h2.2.2.2, h2.2.2.1, h.2.2.2⟩
    · intro k hk
      rw [hK] at hk
      rcases Nat.lt_or_ge k K with hlt | hge
      · have h := init_pool_sent_lt cfg K k hlt
        exact ⟨h.1, h.2.1⟩
      · have e : k = K := by omega
        subst e
        have h := init_pool_sent_top cfg k
        exact ⟨h.1, h.2.1⟩
    · intro k o ho
      rw [mem_initFl] at ho
      obtain ⟨rfl, rfl⟩ := ho
      have h2 := init_pool_base cfg k
      exact ⟨h2.1, h2.2.1⟩
    · intro k
      unfold initFl
      by_cases e : k = K
      · subst e; rw [Function.update_same]; simp
      · rw [Function.update_noteq e]; simp
  · rw [hK]
    constructor
    · constructor
      · intro o k h
        rcases h with h | h
        · rw [mem_initFl] at h; rw [h.1]; exact dvd_zero _
        · simp at h
      · intro o k h
        rcases h with h | h
        · rw [mem_initFl] at h; rw [h.1, h.2]; omega
        · simp at h
      · intro o1 k1 o2 k2 x h1 h2 _ _ _ _
        rcases h1 with h1 | h1
        · rcases h2 with h2 | h2
          · rw [mem_initFl] at h1 h2
            exact ⟨by rw [h1.1, h2.1], by rw [h1.2, h2.2]⟩
          · simp at h2
        · simp at h1
      · intro x hx
        exact ⟨0, K, Or.inl ((mem_initFl K 0 K).2 ⟨rfl, rfl⟩), Nat.zero_le _, by omega⟩
    · intro o k _ h
      simp at h
    · intro o k hk h _
      rw [mem_initFl] at h
      omega
  · intro o k h
    simp at h
  · exact List.nodup_nil

/-! ## `buddy_malloc` and `buddy_free` on states that satisfy the invariant -/

theorem buddy_malloc_fail (cfg : Config) (pool : buddy_pool) (size e k0 : Nat) (hs : size ≠ 0)
    (hb : btok ((size + cfg.header_size) % 2 ^ 64) = some k0)
    (hgt : pool.kval_m < searchLoop pool
      (pool.kval_m + 1 - (if k0 < cfg.SMALLEST_K then cfg.SMALLEST_K else k0))
      (if k0 < cfg.SMALLEST_K then cfg.SMALLEST_K else k0)) :
    buddy_malloc cfg (some pool) size e = some ⟨none, some pool, ENOMEM⟩ := by
  simp only [buddy_malloc, hs, if_false, hb]
  rw [if_pos hgt]

theorem buddy_malloc_none (cfg : Config) (pool : buddy_pool) (size e : Nat) (hs : size ≠ 0)
    (hb : btok ((size + cfg.header_size) % 2 ^ 64) = none) :
    buddy_malloc cfg (some pool) size e = none := by
  simp only [buddy_malloc, hs, if_false, hb]

theorem buddy_malloc_zero (cfg : Config) (pool : buddy_pool) (e : Nat) :
    buddy_malloc cfg (some pool) 0 e = some ⟨none, some pool, e⟩ := by
  simp only [buddy_malloc, if_true]

theorem buddy_malloc_ok (cfg : Config) (pool : buddy_pool) (size e k0 o : Nat) (hs : size ≠ 0)
    (hb : btok ((size + cfg.header_size) % 2 ^ 64) = some k0)
    (hle : searchLoop pool
      (pool.kval_m + 1 - (if k0 < cfg.SMALLEST_K then cfg.SMALLEST_K else k0))
      (if k0 < cfg.SMALLEST_K then cfg.SMALLEST_K else k0) ≤ pool.kval_m)
    (hn : (pool.mem (Ptr.sentinel (searchLoop pool
      (pool.kval_m + 1 - (if k0 < cfg.SMALLEST_K then cfg.SMALLEST_K else k0))
      (if k0 < cfg.SMALLEST_K then cfg.SMALLEST_K else k0)))).next = Ptr.block o) :
    buddy_malloc cfg (some pool) size e = some ⟨some (o + cfg.header_size),
      some (setTag (splitLoop cfg (if k0 < cfg.SMALLEST_K then cfg.SMALLEST_K else k0)
        (searchLoop pool
          (pool.kval_m + 1 - (if k0 < cfg.SMALLEST_K then cfg.SMALLEST_K else k0))
          (if k0 < cfg.SMALLEST_K then cfg.SMALLEST_K else k0) -
          (if k0 < cfg.SMALLEST_K then cfg.SMALLEST_K else k0))
        (unlink pool (Ptr.block o)) o
        (searchLoop pool
          (pool.kval_m + 1 - (if k0 < cfg.SMALLEST_K then cfg.SMALLEST_K else k0))
          (if k0 < cfg.SMALLEST_K then cfg.SMALLEST_K else k0)))
        (Ptr.block o) cfg.BLOCK_RESERVED), e⟩ := by
  simp only [buddy_malloc, hs, if_false, hb]
  rw [if_neg (by omega)]
  simp only [hn]

theorem Lists.empty_iff {cfg : Config} {pool : buddy_pool} {fl : Nat → List Nat}
    (L : Lists cfg pool fl) (k : Nat) (hk : k ≤ pool.kval_m) :
    (pool.mem (Ptr.sentinel k)).next = Ptr.sentinel k ↔ fl k = [] := by
  rcases Chain.head_eq pool k (fl k) _ (L.chain k hk) with ⟨h1, h2⟩ | ⟨o, r, h1, h2⟩
  · exact ⟨fun _ => h1, fun _ => h2⟩
  · rw [h1, h2]
    constructor
    · intro e; cases e
    · intro e; cases e

/-- What `buddy_malloc` does in a state that satisfies the invariant, once
`btok` has returned `k0`. -/
theorem GInv.ginv_malloc {cfg : Config} {pool : buddy_pool} {fl : Nat → List Nat}
    {rs : List (Nat × Nat)} (G : GInv cfg pool fl rs) (size e k0 kv : Nat) (hs : size ≠ 0)
    (hb : btok ((size + cfg.header_size) % 2 ^ 64) = some k0)
    (hkv : kv = if k0 < cfg.SMALLEST_K then cfg.SMALLEST_K else k0) :
    ((∀ j, kv ≤ j → j ≤ pool.kval_m → fl j = []) ∧
      buddy_malloc cfg (some pool) size e = some ⟨none, some pool, ENOMEM⟩) ∨
    (∃ bk o r pool2, kv ≤ bk ∧ bk ≤ pool.kval_m ∧ fl bk = o :: r ∧
      (∀ j, kv ≤ j → j < bk → fl j = []) ∧
      buddy_malloc cfg (some pool) size e = some ⟨some (o + cfg.header_size), some pool2, e⟩ ∧
      GInv cfg pool2 (splitFl (Function.update fl bk r) o kv bk) ((o, kv) :: rs) ∧
      pool2.kval_m = pool.kval_m ∧ pool2.numbytes = pool.numbytes) := by
  subst hkv
  obtain ⟨s1, s2, s3⟩ := searchLoop_spec pool
    (pool.kval_m + 1 - (if k0 < cfg.SMALLEST_K then cfg.SMALLEST_K else k0))
    (if k0 < cfg.SMALLEST_K then cfg.SMALLEST_K else k0) (le_refl _)
  have hempty : ∀ j, (if k0 < cfg.SMALLEST_K then cfg.SMALLEST_K else k0) ≤ j →
      j < searchLoop pool
        (pool.kval_m + 1 - (if k0 < cfg.SMALLEST_K then cfg.SMALLEST_K else k0))
        (if k0 < cfg.SMALLEST_K then cfg.SMALLEST_K else k0) → fl j = [] := by
    intro j h1 h2
    obtain ⟨a, b⟩ := s2 j h1 h2
    exact (G.lists.empty_iff j a).1 b
  rcases Nat.lt_or_ge pool.kval_m (searchLoop pool
    (pool.kval_m + 1 - (if k0 < cfg.SMALLEST_K then cfg.SMALLEST_K else k0))
    (if k0 < cfg.SMALLEST_K then cfg.SMALLEST_K else k0)) with hgt | hle
  · left
    exact ⟨fun j h1 h2 => hempty j h1 (by omega), buddy_malloc_fail cfg pool size e k0 hs hb hgt⟩
  · right
    have hne := s3 hle
    rcases Chain.head_eq pool _ (fl _) _ (G.lists.chain _ hle) with ⟨_, h2⟩ | ⟨o, r, h1, h2⟩
    · exact absurd h2 hne
    · have hmem : o ∈ fl (searchLoop pool
          (pool.kval_m + 1 - (if k0 < cfg.SMALLEST_K then cfg.SMALLEST_K else k0))
          (if k0 < cfg.SMALLEST_K then cfg.SMALLEST_K else k0)) := by rw [h1]; simp
      have T := G.ginv_take _ o hmem
      have her : (fl (searchLoop pool
          (pool.kval_m + 1 - (if k0 < cfg.SMALLEST_K then cfg.SMALLEST_K else k0))
          (if k0 < cfg.SMALLEST_K then cfg.SMALLEST_K else k0))).erase o = r := by
        rw [h1, List.erase_cons_head]
      rw [her] at T
      have T2 := splitLoop_inv cfg _ _ _ _ rs o _ T s1 (le_refl _)
      refine ⟨_, o, r, _, s1, hle, h1, hempty, buddy_malloc_ok cfg pool size e k0 o hs hb hle h2,
        T2.reserve, ?_, ?_⟩
      · simp [splitLoop_kval_m]
      · simp [splitLoop_numbytes]

/-- What `buddy_free` does to an outstanding block in a state that satisfies
the invariant. -/
theorem GInv.ginv_free {cfg : Config} {pool : buddy_pool} {fl : Nat → List Nat}
    {rs : List (Nat × Nat)} (G : GInv cfg pool fl rs)
    (hne : cfg.BLOCK_AVAIL ≠ cfg.BLOCK_RESERVED) (o k : Nat) (h : (o, k) ∈ rs) :
    (∃ fl2, GInv cfg (buddy_free cfg pool (some (o + cfg.header_size))) fl2 (rs.erase (o, k))) ∧
    (buddy_free cfg pool (some (o + cfg.header_size))).kval_m = pool.kval_m ∧
    (buddy_free cfg pool (some (o + cfg.header_size))).numbytes = pool.numbytes := by
  have T := G.release o k h
  have hk : ((setTag pool (Ptr.block o) cfg.BLOCK_AVAIL).mem (Ptr.block o)).kval = k := T.tk
  obtain ⟨fl2, T2, hb⟩ := freeLoop_inv cfg hne (pool.kval_m - k) _ _ _ o k T (by simp)
  have G2 := T2.tinv_give (by rw [freeLoop_kval_m]; exact hb)
  simp only [buddy_free, Nat.add_sub_cancel, hk, setTag_kval_m]
  refine ⟨⟨_, G2⟩, ?_, ?_⟩
  · simp [freeLoop_kval_m]
  · simp [freeLoop_numbytes]

theorem map_erase_offset (hdr : Nat) : ∀ (rs : List (Nat × Nat)) (b : Nat × Nat),
    (∀ b1 b2, b1 ∈ rs → b2 ∈ rs → b1.1 = b2.1 → b1 = b2) → b ∈ rs →
    (rs.map (fun b => b.1 + hdr)).erase (b.1 + hdr) = (rs.erase b).map (fun b => b.1 + hdr) := by
  intro rs
  induction rs with
  | nil => intro b _ hb; simp at hb
  | cons a rs ih =>
    intro b hinj hb
    by_cases e : a = b
    · subst e
      simp
    · have hne : a.1 + hdr ≠ b.1 + hdr := by
        intro h
        exact e (hinj a b (List.mem_cons_self _ _) hb (by omega))
      have hb2 : b ∈ rs := by
        rcases List.mem_cons.1 hb with h | h
        · exact absurd h.symm e
        · exact h
      rw [List.map_cons, List.erase_cons_tail (by simpa using hne),
        List.erase_cons_tail (by simpa using e), List.map_cons,
        ih b (fun b1 b2 h1 h2 => hinj b1 b2 (List.mem_cons_of_mem _ h1) (List.mem_cons_of_mem _ h2))
          hb2]

theorem GInv.offset_inj {cfg : Config} {pool : buddy_pool} {fl : Nat → List Nat}
    {rs : List (Nat × Nat)} (G : GInv cfg pool fl rs) :
    ∀ b1 b2 : Nat × Nat, b1 ∈ rs → b2 ∈ rs → b1.1 = b2.1 → b1 = b2 := by
  rintro ⟨o1, k1⟩ ⟨o2, k2⟩ h1 h2 e
  simp only at e
  subst e
  have := G.layout.tiling.same_offset o1 k1 k2 (Or.inr h1) (Or.inr h2)
  subst this
  rfl

theorem buddy_init_eq (cfg : Config) (size : Nat) (pool : buddy_pool)
    (h : buddy_init cfg size = some pool) : ∃ K, pool = init_pool cfg K := by
  unfold buddy_init at h
  split at h
  · exact ⟨_, (Option.some.inj h).symm⟩
  · split at h
    · cases h
    · exact ⟨_, (Option.some.inj h).symm⟩

/-- Every reachable state satisfies the invariant. -/
theorem Reach.reach_inv {cfg : Config} (hne : cfg.BLOCK_AVAIL ≠ cfg.BLOCK_RESERVED)
    {pool : buddy_pool} {errno : Nat} {out : List Nat} (h : Reach cfg pool errno out) :
    Inv cfg pool out := by
  induction h with
  | init size errno pool _ hi =>
    obtain ⟨K, rfl⟩ := buddy_init_eq cfg size pool hi
    exact ⟨_, [], init_pool_inv cfg K, rfl⟩
  | malloc pool errno out size r pool2 _ _ hm hp ih =>
    obtain ⟨fl, rs, G, hout⟩ := ih
    by_cases hs : size = 0
    · subst hs
      rw [buddy_malloc_zero] at hm
      cases hm
      cases hp
      exact ⟨fl, rs, G, hout⟩
    · cases hb : btok ((size + cfg.header_size) % 2 ^ 64) with
      | none =>
        rw [buddy_malloc_none cfg pool size errno hs hb] at hm
        cases hm
      | some k0 =>
        rcases G.ginv_malloc size errno k0 _ hs hb rfl with ⟨_, h2⟩ | ⟨bk, o, r2, p2, _, _, _, _, h2, G2, _⟩
        · rw [h2] at hm
          cases hm
          cases hp
          exact ⟨fl, rs, G, hout⟩
        · rw [h2] at hm
          cases hm
          cases hp
          exact ⟨_, _, G2, by simp [hout]⟩
  | free pool errno out p _ hp ih =>
    obtain ⟨fl, rs, G, hout⟩ := ih
    subst hout
    obtain ⟨⟨o, k⟩, hb, rfl⟩ := List.mem_map.1 hp
    obtain ⟨⟨fl2, G2⟩, _⟩ := G.ginv_free hne o k hb
    exact ⟨fl2, _, G2, map_erase_offset cfg.header_size rs (o, k) G.offset_inj hb⟩

/-! ## The invariant in terms of what can be read off the pool -/

theorem nodup_length_le (n : Nat) (L : List Nat) (hnd : L.Nodup) (hb : ∀ x, x ∈ L → x < n) :
    L.length ≤ n := by
  have hsub : L ⊆ List.range n := fun x hx => List.mem_range.2 (hb x hx)
  have := (List.subperm_of_subset hnd hsub).length_le
  simpa using this

theorem GInv.freeList_eq {cfg : Config} {pool : buddy_pool} {fl : Nat → List Nat}
    {rs : List (Nat × Nat)} (G : GInv cfg pool fl rs) (k : Nat) (hk : k ≤ pool.kval_m) :
    freeList pool k = fl k := by
  unfold freeList
  apply Chain.walk_eq pool k (fl k) _ _ (G.lists.chain k hk)
  apply nodup_length_le _ _ (G.lists.nodup k)
  intro x hx
  have := G.layout.tiling.bounded x k (Or.inl hx)
  have := two_pow_pos_nat k
  omega

theorem GInv.isFree_iff {cfg : Config} {pool : buddy_pool} {fl : Nat → List Nat}
    {rs : List (Nat × Nat)} (G : GInv cfg pool fl rs) (o k : Nat) :
    IsFreeBlock pool o k ↔ o ∈ fl k := by
  unfold IsFreeBlock
  constructor
  · rintro ⟨h1, h2⟩
    rw [G.freeList_eq k h1] at h2
    exact h2
  · intro h
    have hk := G.layout.tiling.order_le o k (Or.inl h)
    exact ⟨hk, by rw [G.freeList_eq k hk]; exact h⟩

theorem GInv.isRes_iff {cfg : Config} {pool : buddy_pool} {fl : Nat → List Nat}
    {rs : List (Nat × Nat)} (G : GInv cfg pool fl rs) (o k : Nat) :
    IsResBlock cfg pool (rs.map (fun b => b.1 + cfg.header_size)) o k ↔ (o, k) ∈ rs := by
  unfold IsResBlock
  constructor
  · rintro ⟨h1, h2⟩
    obtain ⟨⟨o2, k2⟩, hb, e⟩ := List.mem_map.1 h1
    simp only [Nat.add_right_cancel_iff] at e
    subst e
    have := (G.res o2 k2 hb).2
    rw [h2] at this
    subst this
    exact hb
  · intro h
    exact ⟨List.mem_map.2 ⟨(o, k), h, rfl⟩, (G.res o k h).2⟩

/-- In a state that satisfies the invariant, the blocks on the free lists and
the outstanding blocks form a layout of the region. -/
theorem Inv.inv_layout {cfg : Config} {pool : buddy_pool} {out : List Nat} (h : Inv cfg pool out) :
    Layout pool.kval_m (IsFreeBlock pool) (IsResBlock cfg pool out) := by
  obtain ⟨fl, rs, G, rfl⟩ := h
  exact G.layout.layout_congr _ _ (G.isFree_iff) (G.isRes_iff)

/-- With nothing outstanding, a state that satisfies the invariant is full. -/
theorem GInv.ginv_full {cfg : Config} {pool : buddy_pool} {fl : Nat → List Nat}
    (G : GInv cfg pool fl []) : is_full cfg pool ∧ check_buddy_pool_full cfg pool := by
  have hfull := G.layout.layout_full (by intro o k h; simp at h)
  have hlow : ∀ i, i < pool.kval_m → fl i = [] := by
    intro i hi
    apply List.eq_nil_iff_forall_not_mem.2
    intro x hx
    have := (hfull x i).1 hx
    omega
  have htop : fl pool.kval_m = [0] := by
    have hmem : 0 ∈ fl pool.kval_m := (hfull 0 _).2 ⟨rfl, rfl⟩
    have hnd := G.lists.nodup pool.kval_m
    cases hl : fl pool.kval_m with
    | nil => rw [hl] at hmem; simp at hmem
    | cons a r =>
      rw [hl] at hnd
      have ha : a = 0 := ((hfull a _).1 (by rw [hl]; simp)).1
      subst ha
      cases r with
      | nil => rfl
      | cons b r2 =>
        have hb : b = 0 := ((hfull b _).1 (by rw [hl]; simp)).1
        subst hb
        simp at hnd
  have hc := G.lists.chain pool.kval_m (le_refl _)
  rw [htop] at hc
  simp only [Chain] at hc
  obtain ⟨c1, c2, c3, c4⟩ := hc
  have hh := G.lists.hdr pool.kval_m 0 (by rw [htop]; simp)
  have hsent : ∀ i, i < pool.kval_m →
      (pool.mem (Ptr.sentinel i)).next = Ptr.sentinel i ∧
      (pool.mem (Ptr.sentinel i)).prev = Ptr.sentinel i ∧
      (pool.mem (Ptr.sentinel i)).tag = cfg.BLOCK_UNUSED ∧
      (pool.mem (Ptr.sentinel i)).kval = i := by
    intro i hi
    have hci := G.lists.chain i (by omega)
    rw [hlow i hi] at hci
    simp only [Chain] at hci
    have hs := G.lists.sent i (by omega)
    exact ⟨hci.1, hci.2, hs.1, hs.2⟩
  constructor
  · refine ⟨?_, ?_, c1, c4, c3, c2, hh.1, hh.2⟩
    · intro i hi
      obtain ⟨a, b, c, d⟩ := hsent i hi
      exact ⟨a, b, c, d, by rw [G.freeList_eq i (by omega), hlow i hi]⟩
    · rw [G.freeList_eq _ (le_refl _), htop]
  · refine ⟨hsent, ?_, ?_, ?_, c1⟩
    · rw [c1]; exact hh.1
    · rw [c1]; exact c3
    · rw [c4]; exact c2

theorem Inv.inv_full {cfg : Config} {pool : buddy_pool} (h : Inv cfg pool []) :
    is_full cfg pool ∧ check_buddy_pool_full cfg pool := by
  obtain ⟨fl, rs, G, e⟩ := h
  have : rs = [] := by
    cases rs with
    | nil => rfl
    | cons a r => simp at e
  subst this
  exact G.ginv_full

theorem Inv.out_nodup {cfg : Config} {pool : buddy_pool} {out : List Nat}
    (h : Inv cfg pool out) : out.Nodup := by
  obtain ⟨fl, rs, G, rfl⟩ := h
  apply List.Nodup.map_on _ G.rs_nodup
  intro b1 h1 b2 h2 e
  exact G.offset_inj b1 b2 h1 h2 (by omega)

theorem Inv.freeList_nodup {cfg : Config} {pool : buddy_pool} {out : List Nat}
    (h : Inv cfg pool out) (k : Nat) (hk : k ≤ pool.kval_m) : (freeList pool k).Nodup := by
  obtain ⟨fl, rs, G, rfl⟩ := h
  rw [G.freeList_eq k hk]
  exact G.lists.nodup k

theorem Inv.res_tag {cfg : Config} {pool : buddy_pool} {out : List Nat}
    (h : Inv cfg pool out) (o : Nat) (ho : o + cfg.header_size ∈ out) :
    (pool.mem (Ptr.block o)).tag = cfg.BLOCK_RESERVED := by
  obtain ⟨fl, rs, G, rfl⟩ := h
  obtain ⟨⟨o2, k2⟩, hb, e⟩ := List.mem_map.1 ho
  simp only [Nat.add_right_cancel_iff] at e
  subst e
  exact (G.res o2 k2 hb).1

theorem Inv.hdr_le {cfg : Config} {pool : buddy_pool} {out : List Nat}
    (h : Inv cfg pool out) (p : Nat) (hp : p ∈ out) : cfg.header_size ≤ p := by
  obtain ⟨fl, rs, G, rfl⟩ := h
  obtain ⟨b, _, e⟩ := List.mem_map.1 hp
  omega

/-! ## Running the calls -/

theorem buddy_malloc_pool_some (cfg : Config) (pool : buddy_pool) (size e : Nat) (r : MallocResult)
    (h : buddy_malloc cfg (some pool) size e = some r) : ∃ p, r.pool = some p := by
  by_cases hs : size = 0
  · subst hs
    rw [buddy_malloc_zero] at h
    cases h; exact ⟨_, rfl⟩
  · cases hb : btok ((size + cfg.header_size) % 2 ^ 64) with
    | none =>
      rw [buddy_malloc_none cfg pool size e hs hb] at h
      cases h
    | some k0 =>
      rcases Nat.lt_or_ge pool.kval_m (searchLoop pool
        (pool.kval_m + 1 - (if k0 < cfg.SMALLEST_K then cfg.SMALLEST_K else k0))
        (if k0 < cfg.SMALLEST_K then cfg.SMALLEST_K else k0)) with hgt | hle
      · rw [buddy_malloc_fail cfg pool size e k0 hs hb hgt] at h
        cases h; exact ⟨_, rfl⟩
      · cases hn : (pool.mem (Ptr.sentinel (searchLoop pool
          (pool.kval_m + 1 - (if k0 < cfg.SMALLEST_K then cfg.SMALLEST_K else k0))
          (if k0 < cfg.SMALLEST_K then cfg.SMALLEST_K else k0)))).next with
        | block o =>
          rw [buddy_malloc_ok cfg pool size e k0 o hs hb hle hn] at h
          cases h; exact ⟨_, rfl⟩
        | null =>
          simp only [buddy_malloc, hs, if_false, hb] at h
          rw [if_neg (by omega)] at h
          simp only [hn] at h
          cases h
        | sentinel i =>
          simp only [buddy_malloc, hs, if_false, hb] at h
          rw [if_neg (by omega)] at h
          simp only [hn] at h
          cases h

/-- A call of `buddy_malloc` that returns leads from a reachable state to a
reachable state. -/
theorem Reach.malloc_run {cfg : Config} {pool : buddy_pool} {e : Nat} {out : List Nat}
    (h : Reach cfg pool e out) (size : Nat) (hs : size < 2 ^ 64)
    (hr : (buddy_malloc cfg (some pool) size e).isSome = true) :
    Reach cfg (malloc_pool cfg pool size e) (malloc_errno cfg pool size e)
      (match malloc_ret cfg pool size e with
        | some p => p :: out
        | none => out) := by
  cases hm : buddy_malloc cfg (some pool) size e with
  | none => rw [hm] at hr; cases hr
  | some r =>
    obtain ⟨p, hp⟩ := buddy_malloc_pool_some cfg pool size e r hm
    have := Reach.malloc pool e out size r p h hs hm hp
    simp only [malloc_pool, malloc_errno, malloc_ret, hm, hp]
    exact this

theorem buddy_init_some (cfg : Config) (size k : Nat) (hs : size ≠ 0) (hb : btok size = some k) :
    buddy_init cfg size = some (init_pool cfg (init_kval cfg k)) := by
  simp only [buddy_init, hs, if_false, hb]

theorem reach_fresh20 : Reach std fresh20 0 [] :=
  Reach.init (2 ^ 20) 0 fresh20 (by norm_num)
    (buddy_init_some std (2 ^ 20) 20 (by norm_num) (by decide))

theorem reach_one_byte : Reach std one_byte 0 [24] := by
  have h := Reach.malloc_run reach_fresh20 1 (by norm_num) (by decide!)
  have e1 : malloc_ret std fresh20 1 0 = some 24 := by decide!
  have e2 : malloc_errno std fresh20 1 0 = 0 := by decide!
  rw [e1, e2] at h
  exact h

theorem reach_quarter1 : Reach std quarter1 0 [24] := by
  have h := Reach.malloc_run reach_fresh20 (2 ^ 18 - 24) (by norm_num) (by decide!)
  have e1 : malloc_ret std fresh20 (2 ^ 18 - 24) 0 = some 24 := by decide!
  have e2 : malloc_errno std fresh20 (2 ^ 18 - 24) 0 = 0 := by decide!
  rw [e1, e2] at h
  exact h

theorem reach_quarter2 : Reach std quarter2 0 [262168, 24] := by
  have h := Reach.malloc_run reach_quarter1 (2 ^ 18 - 24) (by norm_num) (by decide!)
  have e1 : malloc_ret std quarter1 (2 ^ 18 - 24) 0 = some 262168 := by decide!
  have e2 : malloc_errno std quarter1 (2 ^ 18 - 24) 0 = 0 := by decide!
  rw [e1, e2] at h
  exact h

theorem reach_quarter3 : Reach std quarter3 0 [524312, 262168, 24] := by
  have h := Reach.malloc_run reach_quarter2 (2 ^ 18 - 24) (by norm_num) (by decide!)
  have e1 : malloc_ret std quarter2 (2 ^ 18 - 24) 0 = some 524312 := by decide!
  have e2 : malloc_errno std quarter2 (2 ^ 18 - 24) 0 = 0 := by decide!
  rw [e1, e2] at h
  exact h

theorem reach_quarter4 : Reach std quarter4 0 [786456, 524312, 262168, 24] := by
  have h := Reach.malloc_run reach_quarter3 (2 ^ 18 - 24) (by norm_num) (by decide!)
  have e1 : malloc_ret std quarter3 (2 ^ 18 - 24) 0 = some 786456 := by decide!
  have e2 : malloc_errno std quarter3 (2 ^ 18 - 24) 0 = 0 := by decide!
  rw [e1, e2] at h
  exact h

/-! ## More on reachable states -/

theorem init_kval_bounds (cfg : Config) (hs : cfg.sane) (k : Nat) (hk : k ≤ 63) :
    cfg.MIN_K ≤ init_kval cfg k ∧ init_kval cfg k ≤ 63 := by
  obtain ⟨h1, h2, h3, h4, _⟩ := hs
  unfold init_kval
  simp only []
  split <;> split <;> omega

theorem buddy_init_order (cfg : Config) (hs : cfg.sane) (size : Nat) (pool : buddy_pool)
    (h : buddy_init cfg size = some pool) :
    (∃ K, pool = init_pool cfg K) ∧ cfg.MIN_K ≤ pool.kval_m ∧ pool.kval_m ≤ 63 := by
  unfold buddy_init at h
  split at h
  · have e := (Option.some.inj h).symm
    subst e
    rw [init_pool_kval_m]
    exact ⟨⟨_, rfl⟩, init_kval_bounds cfg hs _ (by have := hs.2.2.2.1; omega)⟩
  · cases hb : btok size with
    | none => rw [hb] at h; cases h
    | some k =>
      rw [hb] at h
      have e := (Option.some.inj h).symm
      subst e
      rw [init_pool_kval_m]
      obtain ⟨k2, hk2, _, _, hle⟩ := btok_spec size ((btok_some_iff size k).1 hb).1
      rw [hb] at hk2
      cases hk2
      exact ⟨⟨_, rfl⟩, init_kval_bounds cfg hs _ hle⟩

/-- Freeing a list of distinct outstanding pointers keeps the invariant; the
blocks still outstanding are the ones not freed. -/
theorem GInv.ginv_freeAll {cfg : Config} (hne : cfg.BLOCK_AVAIL ≠ cfg.BLOCK_RESERVED) :
    ∀ (S : List Nat) (pool : buddy_pool) (fl : Nat → List Nat) (rs : List (Nat × Nat)),
    GInv cfg pool fl rs → S.Nodup → (∀ p, p ∈ S → p ∈ rs.map (fun b => b.1 + cfg.header_size)) →
    ∃ fl2 rs2, GInv cfg (freeAll cfg pool S) fl2 rs2 ∧
      (∀ b, b ∈ rs2 ↔ (b ∈ rs ∧ b.1 + cfg.header_size ∉ S)) ∧
      (freeAll cfg pool S).kval_m = pool.kval_m := by
  intro S
  induction S with
  | nil =>
    intro pool fl rs G _ _
    exact ⟨fl, rs, G, fun b => by simp, rfl⟩
  | cons p S ih =>
    intro pool fl rs G hnd hsub
    rw [List.nodup_cons] at hnd
    obtain ⟨⟨o, k⟩, hb, e⟩ := List.mem_map.1 (hsub p (List.mem_cons_self _ _))
    simp only at e
    subst e
    obtain ⟨⟨fl1, G1⟩, hK, _⟩ := G.ginv_free hne o k hb
    have hsub1 : ∀ q, q ∈ S → q ∈ (rs.erase (o, k)).map (fun b => b.1 + cfg.header_size) := by
      intro q hq
      obtain ⟨b, hb2, e2⟩ := List.mem_map.1 (hsub q (List.mem_cons_of_mem _ hq))
      refine List.mem_map.2 ⟨b, ?_, e2⟩
      apply G.rs_nodup.mem_erase_iff.2
      refine ⟨?_, hb2⟩
      intro e3
      subst e3
      simp only at e2
      subst e2
      exact hnd.1 hq
    obtain ⟨fl2, rs2, G2, hmem, hK2⟩ := ih _ fl1 _ G1 hnd.2 hsub1
    refine ⟨fl2, rs2, G2, ?_, ?_⟩
    · intro b
      rw [hmem, G.rs_nodup.mem_erase_iff, List.mem_cons]
      constructor
      · rintro ⟨⟨h1, h2⟩, h3⟩
        refine ⟨h2, ?_⟩
        rintro (h4 | h4)
        · exact h1 (G.offset_inj b (o, k) h2 hb (by simp only; omega))
        · exact h3 h4
      · rintro ⟨h1, h2⟩
        refine ⟨⟨?_, h1⟩, fun h => h2 (Or.inr h)⟩
        intro e3
        subst e3
        exact h2 (Or.inl rfl)
    · show (Buddy.freeAll cfg (buddy_free cfg pool (some (o + cfg.header_size))) S).kval_m = _
      rw [hK2, hK]

/-- In a reachable state, once `btok` has returned `k0` for the request,
`buddy_malloc` returns; it returns `NULL`, with `errno = ENOMEM` and the pool
untouched, when every list `avail[j]`, `max k0 SMALLEST_K ≤ j ≤ kval_m`, is
empty, and a non-null pointer, with `errno` untouched, otherwise. -/
theorem Reach.malloc_null_iff {cfg : Config} (hne : cfg.BLOCK_AVAIL ≠ cfg.BLOCK_RESERVED)
    {pool : buddy_pool} {e : Nat} {out : List Nat} (h : Reach cfg pool e out) (n k0 : Nat)
    (hn : 1 ≤ n) (hb : btok ((n + cfg.header_size) % 2 ^ 64) = some k0) :
    ((∀ j, (if k0 < cfg.SMALLEST_K then cfg.SMALLEST_K else k0) ≤ j → j ≤ pool.kval_m →
        (pool.mem (Ptr.sentinel j)).next = Ptr.sentinel j) →
      buddy_malloc cfg (some pool) n e = some ⟨none, some pool, ENOMEM⟩) ∧
    ((∃ j, (if k0 < cfg.SMALLEST_K then cfg.SMALLEST_K else k0) ≤ j ∧ j ≤ pool.kval_m ∧
        (pool.mem (Ptr.sentinel j)).next ≠ Ptr.sentinel j) →
      ∃ p pool2, buddy_malloc cfg (some pool) n e = some ⟨some p, some pool2, e⟩) := by
  obtain ⟨fl, rs, G, _⟩ := h.reach_inv hne
  rcases G.ginv_malloc n e k0 _ (by omega) hb rfl with ⟨hempty, hm⟩ |
    ⟨bk, o, r, pool2, h1, h2, h3, _, hm, _, _⟩
  · refine ⟨fun _ => hm, ?_⟩
    rintro ⟨j, a1, a2, a3⟩
    exact absurd ((G.lists.empty_iff j a2).2 (hempty j a1 a2)) a3
  · refine ⟨?_, fun _ => ⟨_, pool2, hm⟩⟩
    intro hall
    have := (G.lists.empty_iff bk h2).1 (hall bk h1 h2)
    rw [h3] at this
    cases this

/-- In a reachable state, the block behind a non-null pointer returned by
`buddy_malloc` is tagged `BLOCK_RESERVED`, and its order is at least
`SMALLEST_K` and large enough for `required_size`, the 64-bit sum of the
request and the header size. -/
theorem Reach.malloc_block {cfg : Config} (hne : cfg.BLOCK_AVAIL ≠ cfg.BLOCK_RESERVED)
    {pool : buddy_pool} {e : Nat} {out : List Nat} (h : Reach cfg pool e out)
    (n p e2 : Nat) (pool2 : buddy_pool)
    (hm : buddy_malloc cfg (some pool) n e = some ⟨some p, some pool2, e2⟩) :
    cfg.header_size ≤ p ∧
    (pool2.mem (Ptr.block (p - cfg.header_size))).tag = cfg.BLOCK_RESERVED ∧
    cfg.SMALLEST_K ≤ (pool2.mem (Ptr.block (p - cfg.header_size))).kval ∧
    (n + cfg.header_size) % 2 ^ 64 ≤ 2 ^ (pool2.mem (Ptr.block (p - cfg.header_size))).kval := by
  obtain ⟨fl, rs, G, _⟩ := h.reach_inv hne
  by_cases hs : n = 0
  · subst hs
    rw [buddy_malloc_zero] at hm
    cases hm
  · cases hb : btok ((n + cfg.header_size) % 2 ^ 64) with
    | none =>
      rw [buddy_malloc_none cfg pool n e hs hb] at hm
      cases hm
    | some k0 =>
      have hk0 := ((btok_some_iff _ k0).1 hb).2.1
      rcases G.ginv_malloc n e k0 _ hs hb rfl with ⟨_, h2⟩ | ⟨bk, o, r, p2, _, _, _, _, h2, G2, _⟩
      · rw [h2] at hm
        cases hm
      · rw [h2] at hm
        cases hm
        have hr := G2.res o _ (List.mem_cons_self _ _)
        rw [Nat.add_sub_cancel]
        refine ⟨Nat.le_add_left _ _, hr.1, ?_, ?_⟩
        · rw [hr.2]; split <;> omega
        · rw [hr.2]
          have : (2:Nat) ^ k0 ≤ 2 ^ (if k0 < cfg.SMALLEST_K then cfg.SMALLEST_K else k0) :=
            Nat.pow_le_pow_right (by norm_num) (by split <;> omega)
          omega

/-! ## The claims -/

/-- C1 (full coalescing): in every state reachable from `buddy_init` by calls
of `buddy_malloc` and by calls of `buddy_free` on outstanding pointers, once no
pointer is outstanding the pool is full: every `avail[i]`, `i < kval_m`, is an
empty self-linked sentinel with tag `BLOCK_UNUSED` and order `i`, and
`avail[kval_m]` holds exactly the block at `base`, with tag `BLOCK_AVAIL` and
order `kval_m`; the assertions of `check_buddy_pool_full` hold. -/
theorem full_coalescing (cfg : Config) (hne : cfg.BLOCK_AVAIL ≠ cfg.BLOCK_RESERVED)
    (pool : buddy_pool) (errno : Nat) (h : Reach cfg pool errno []) :
    is_full cfg pool ∧ check_buddy_pool_full cfg pool :=
  (h.reach_inv hne).inv_full

/-- Witness for C1: the pool of `test_buddy_malloc_one_byte` after
`buddy_free(&pool, mem)`. -/
theorem full_coalescing_witness :
    Reach std (buddy_free std one_byte (some 24)) 0 [] ∧
    (is_full std (buddy_free std one_byte (some 24)) ∧
      check_buddy_pool_full std (buddy_free std one_byte (some 24))) :=
  ⟨Reach.free one_byte 0 [24] 24 reach_one_byte (by simp),
   full_coalescing std (by decide) _ 0 (Reach.free one_byte 0 [24] 24 reach_one_byte (by simp))⟩

/-- C2 (tiling, no overlap): in every reachable state the blocks on the free
lists and the outstanding blocks, each occupying `[o, o + 2^k)`, are aligned,
lie inside `[0, 2^kval_m)`, are pairwise disjoint and cover `[0, 2^kval_m)`;
no block is both free and outstanding and none is listed twice; in particular
every outstanding block lies inside the region and overlaps no other
outstanding block. -/
theorem tiling_no_overlap (cfg : Config) (hne : cfg.BLOCK_AVAIL ≠ cfg.BLOCK_RESERVED)
    (pool : buddy_pool) (errno : Nat) (out : List Nat) (h : Reach cfg pool errno out) :
    Tiling pool.kval_m (fun o k => IsFreeBlock pool o k ∨ IsResBlock cfg pool out o k) ∧
    (∀ o k, IsFreeBlock pool o k → ¬ IsResBlock cfg pool out o k) ∧
    out.Nodup ∧ (∀ k, k ≤ pool.kval_m → (freeList pool k).Nodup) ∧
    (∀ p, p ∈ out → cfg.header_size ≤ p ∧
      (p - cfg.header_size) + 2 ^ (pool.mem (Ptr.block (p - cfg.header_size))).kval
        ≤ 2 ^ pool.kval_m ∧
      ∀ q, q ∈ out → q ≠ p →
        (p - cfg.header_size) + 2 ^ (pool.mem (Ptr.block (p - cfg.header_size))).kval
            ≤ q - cfg.header_size ∨
        (q - cfg.header_size) + 2 ^ (pool.mem (Ptr.block (q - cfg.header_size))).kval
            ≤ p - cfg.header_size) := by
  have hinv := h.reach_inv hne
  have L := hinv.inv_layout
  refine ⟨L.tiling, L.excl, hinv.out_nodup, hinv.freeList_nodup, ?_⟩
  intro p hp
  have hle := hinv.hdr_le p hp
  have hres : ∀ q, q ∈ out → IsResBlock cfg pool out (q - cfg.header_size)
      (pool.mem (Ptr.block (q - cfg.header_size))).kval := by
    intro q hq
    have := hinv.hdr_le q hq
    refine ⟨?_, rfl⟩
    rw [Nat.sub_add_cancel this]
    exact hq
  refine ⟨hle, L.tiling.bounded _ _ (Or.inr (hres p hp)), ?_⟩
  intro q hq hqp
  have hleq := hinv.hdr_le q hq
  by_contra hcon
  push_neg at hcon
  have hpos1 := two_pow_pos_nat (pool.mem (Ptr.block (p - cfg.header_size))).kval
  have hpos2 := two_pow_pos_nat (pool.mem (Ptr.block (q - cfg.header_size))).kval
  have := (L.tiling.disjoint _ _ _ _ (max (p - cfg.header_size) (q - cfg.header_size))
    (Or.inr (hres p hp)) (Or.inr (hres q hq)) (le_max_left _ _)
    (by rcases le_total (p - cfg.header_size) (q - cfg.header_size) with a | a
        · rw [max_eq_right a]; omega
        · rw [max_eq_left a]; omega)
    (le_max_right _ _)
    (by rcases le_total (p - cfg.header_size) (q - cfg.header_size) with a | a
        · rw [max_eq_right a]; omega
        · rw [max_eq_left a]; omega)).1
  omega

/-- Witness for C2: the pool of `test_buddy_malloc_exhaustion` after two
calls of `buddy_malloc`. -/
theorem tiling_no_overlap_witness :
    Reach std quarter2 0 [262168, 24] ∧
    Tiling quarter2.kval_m
      (fun o k => IsFreeBlock quarter2 o k ∨ IsResBlock std quarter2 [262168, 24] o k) :=
  ⟨reach_quarter2, (tiling_no_overlap std (by decide) quarter2 0 _ reach_quarter2).1⟩

/-- C3 (size sufficiency), the code at the failing input: on the fresh pool
of `2^20` bytes, `buddy_malloc(&pool, SIZE_MAX)` computes
`required_size = 23`, returns the block at `base` with order
`SMALLEST_K = 6`, and `2^6` is less than `SIZE_MAX + header_size`. -/
theorem size_sufficiency_overflow :
    Reach std fresh20 0 [] ∧
    malloc_ret std fresh20 (2 ^ 64 - 1) 0 = some 24 ∧
    ((malloc_pool std fresh20 (2 ^ 64 - 1) 0).mem (Ptr.block 0)).kval = 6 ∧
    ¬ (2 ^ 64 - 1 + std.header_size ≤ 2 ^ 6) :=
  ⟨reach_fresh20, by decide!, by decide!, by decide⟩

/-- C4 (out of memory), the code at the failing input: on the fresh pool of
`2^20` bytes, `buddy_malloc(&pool, 2^63)` does not return (`btok` is called
with `2^63 + 24` and its loop never exits), although no list `avail[j]` with
`j ≥ 64` exists. -/
theorem oom_malloc_diverges :
    Reach std fresh20 0 [] ∧
    buddy_malloc std (some fresh20) (2 ^ 63) 0 = none ∧
    (∀ fuel, btokLoop ((2 ^ 63 + std.header_size) % 2 ^ 64) fuel 1 0 = none) ∧
    fresh20.kval_m = 20 :=
  ⟨reach_fresh20,
   buddy_malloc_none std fresh20 (2 ^ 63) 0 (by norm_num) (btok_none _ (by decide)),
   fun fuel => btokLoop_none _ (by decide) fuel 1 0 (Or.inr ⟨0, by omega, rfl⟩),
   init_pool_kval_m std 20⟩

/-- C5 (bad inputs): `buddy_malloc` with a null pool returns `NULL`,
`buddy_malloc` with size 0 returns `NULL`, and `buddy_free(pool, NULL)` is a
no-op; the pool and `errno` are left as they were. -/
theorem bad_inputs (cfg : Config) (pool : buddy_pool) (size errno : Nat) :
    buddy_malloc cfg none size errno = some ⟨none, none, errno⟩ ∧
    buddy_malloc cfg (some pool) 0 errno = some ⟨none, some pool, errno⟩ ∧
    buddy_free cfg pool none = pool :=
  ⟨rfl, buddy_malloc_zero cfg pool errno, rfl⟩

theorem init_kval_id (cfg : Config) (k : Nat) (h1 : cfg.MIN_K ≤ k) (h2 : k ≤ cfg.MAX_K) :
    init_kval cfg k = k := by
  unfold init_kval
  simp only [if_neg (show ¬ k < cfg.MIN_K by omega), if_neg (show ¬ k > cfg.MAX_K by omega)]

theorem two_pow_lt_64 (k : Nat) (h : 2 ^ k < 2 ^ 64) : k ≤ 63 := by
  have := (Nat.pow_lt_pow_iff_right (a := 2) (by norm_num)).1 h
  omega

/-- C6 (initial state): for `MIN_K ≤ k ≤ MAX_K - 1` (and `2^k` a `size_t`
value), `buddy_init(pool, 2^k)` returns with `kval_m = k`,
`numbytes = 2^k`, and the pool full: `avail[k]` holds exactly the block at
`base`, with order `k`, tag `BLOCK_AVAIL` and `next = prev = &avail[k]`, and
every `avail[i]`, `i < k`, is an empty self-linked sentinel with tag
`BLOCK_UNUSED` and order `i`. -/
theorem init_state (cfg : Config) (k : Nat) (h1 : cfg.MIN_K ≤ k) (h2 : k ≤ cfg.MAX_K - 1)
    (h3 : 2 ^ k < 2 ^ 64) :
    ∃ pool, buddy_init cfg (2 ^ k) = some pool ∧ pool.kval_m = k ∧ pool.numbytes = 2 ^ k ∧
      is_full cfg pool := by
  have hk := two_pow_lt_64 k h3
  refine ⟨init_pool cfg k, ?_, init_pool_kval_m cfg k, ?_, (init_pool_inv cfg k).ginv_full.1⟩
  · have := buddy_init_some cfg (2 ^ k) k (by have := two_pow_pos_nat k; omega)
      (btok_two_pow k hk)
    rw [init_kval_id cfg k h1 (by omega)] at this
    exact this
  · rw [init_pool_numbytes, one_shl, Nat.mod_eq_of_lt h3]

/-- Witness for C6: `buddy_init(&pool, UINT64_C(1) << 20)`. -/
theorem init_state_witness :
    std.MIN_K ≤ 20 ∧ 20 ≤ std.MAX_K - 1 ∧ 2 ^ 20 < 2 ^ 64 ∧
    ∃ pool, buddy_init std (2 ^ 20) = some pool ∧ pool.kval_m = 20 ∧ pool.numbytes = 2 ^ 20 ∧
      is_full std pool :=
  ⟨by decide, by decide, by norm_num, init_state std 20 (by decide) (by decide) (by norm_num)⟩

/-- C7 (pool order selection), the code at the failing input: a size whose
order is exactly `MAX_K` is not clamped; `buddy_init(pool, 2^MAX_K)` sets
`kval_m = MAX_K`, which is above `MAX_K - 1`. -/
theorem init_order_unclamped (cfg : Config) (h0 : 0 < cfg.MAX_K) (h1 : cfg.MIN_K ≤ cfg.MAX_K)
    (h2 : cfg.MAX_K ≤ 63) :
    ∃ pool, buddy_init cfg (2 ^ cfg.MAX_K) = some pool ∧ pool.kval_m = cfg.MAX_K ∧
      ¬ pool.kval_m ≤ cfg.MAX_K - 1 := by
  refine ⟨init_pool cfg cfg.MAX_K, ?_, init_pool_kval_m cfg _, ?_⟩
  · have := buddy_init_some cfg (2 ^ cfg.MAX_K) cfg.MAX_K
      (by have := two_pow_pos_nat cfg.MAX_K; omega) (btok_two_pow _ h2)
    rw [init_kval_id cfg _ h1 (le_refl _)] at this
    exact this
  · rw [init_pool_kval_m]; omega

/-- Witness for C7's theorem: `buddy_init(&pool, UINT64_C(1) << 48)` with the
upstream constants. -/
theorem init_order_unclamped_witness :
    0 < std.MAX_K ∧ std.MIN_K ≤ std.MAX_K ∧ std.MAX_K ≤ 63 ∧
    ∃ pool, buddy_init std (2 ^ std.MAX_K) = some pool ∧ pool.kval_m = std.MAX_K ∧
      ¬ pool.kval_m ≤ std.MAX_K - 1 :=
  ⟨by decide, by decide, by decide, init_order_unclamped std (by decide) (by decide) (by decide)⟩

/-- C8 (exact order computation), the code at the failing input: for
`bytes = 2^63 + 1` the loop of `btok` never exits, whatever the number of
iterations allowed: `bytes_ceil` reaches `2^63`, is shifted to `0`, and
`0 < bytes` holds for ever. -/
theorem btok_diverges :
    (∀ fuel, btokLoop (2 ^ 63 + 1) fuel 1 0 = none) ∧ btok (2 ^ 63 + 1) = none :=
  ⟨fun fuel => btokLoop_none _ (by norm_num) fuel 1 0 (Or.inr ⟨0, by omega, rfl⟩),
   btok_none _ (by norm_num)⟩

/-- C9 (fresh-pool round trip): on a freshly initialised pool of order
`kval_m`, for `1 ≤ n ≤ 2^kval_m - header_size`, `buddy_malloc(pool, n)`
returns a non-null pointer `p` and leaves `errno` alone, and after
`buddy_free(pool, p)` the pool is full and passes `check_buddy_pool_full`. -/
theorem fresh_round_trip (cfg : Config) (hs : cfg.sane) (size n errno : Nat) (pool : buddy_pool)
    (hi : buddy_init cfg size = some pool) (h1 : 1 ≤ n)
    (h2 : n ≤ 2 ^ pool.kval_m - cfg.header_size) :
    ∃ p pool2, buddy_malloc cfg (some pool) n errno = some ⟨some p, some pool2, errno⟩ ∧
      is_full cfg (buddy_free cfg pool2 (some p)) ∧
      check_buddy_pool_full cfg (buddy_free cfg pool2 (some p)) := by
  obtain ⟨⟨K, rfl⟩, hmin, hmax⟩ := buddy_init_order cfg hs size pool hi
  rw [init_pool_kval_m] at hmin hmax h2
  have hne := hs.2.2.2.2
  have hsk := hs.1
  have G0 := init_pool_inv cfg K
  have hK63 : (2:Nat) ^ K ≤ 2 ^ 63 := Nat.pow_le_pow_right (by norm_num) hmax
  have hreq : n + cfg.header_size ≤ 2 ^ K := by omega
  have hmod : (n + cfg.header_size) % 2 ^ 64 = n + cfg.header_size :=
    Nat.mod_eq_of_lt (by omega)
  obtain ⟨k0, hb, hb1, hb2, _⟩ := btok_spec (n + cfg.header_size) (by omega)
  have hk0 : k0 ≤ K := by
    rcases hb2 with e | hlt
    · omega
    · have : (2:Nat) ^ (k0 - 1) < 2 ^ K := by omega
      have := (Nat.pow_lt_pow_iff_right (a := 2) (by norm_num)).1 this
      omega
  rw [← hmod] at hb
  rcases G0.ginv_malloc n errno k0 _ (by omega) hb rfl with ⟨hempty, _⟩ | ⟨bk, o, r, pool2, _, _, _, _, hm, G2, _⟩
  · exfalso
    have := hempty K (by split <;> omega) (by rw [init_pool_kval_m])
    have hmem : 0 ∈ initFl K K := (mem_initFl K 0 K).2 ⟨rfl, rfl⟩
    rw [this] at hmem
    simp at hmem
  · refine ⟨_, pool2, hm, ?_⟩
    obtain ⟨⟨fl3, G3⟩, _⟩ := G2.ginv_free hne o _ (List.mem_cons_self _ _)
    rw [List.erase_cons_head] at G3
    exact G3.ginv_full

theorem std_sane : std.sane :=
  ⟨by decide, by decide, by decide, by decide, by decide⟩

/-- Witness for C9: `test_buddy_malloc_one_byte`. -/
theorem fresh_round_trip_witness :
    std.sane ∧ buddy_init std (2 ^ 20) = some fresh20 ∧ 1 ≤ 1 ∧
    1 ≤ 2 ^ fresh20.kval_m - std.header_size ∧
    ∃ p pool2, buddy_malloc std (some fresh20) 1 0 = some ⟨some p, some pool2, 0⟩ ∧
      is_full std (buddy_free std pool2 (some p)) ∧
      check_buddy_pool_full std (buddy_free std pool2 (some p)) :=
  ⟨std_sane, buddy_init_some std (2 ^ 20) 20 (by norm_num) (by decide), le_refl _, by decide!,
   fresh_round_trip std std_sane (2 ^ 20) 1 0 fresh20
     (buddy_init_some std (2 ^ 20) 20 (by norm_num) (by decide)) (le_refl _) (by decide!)⟩

/-- C10 (order independence of frees), counterexample: with the four quarter
blocks of `test_buddy_malloc_exhaustion` outstanding, freeing the first and
then the third leaves `avail[18]` as the list third, first; freeing the third
and then the first leaves it as the list first, third. -/
theorem free_order_matters :
    Reach std quarter4 0 [786456, 524312, 262168, 24] ∧
    freeList (freeAll std quarter4 [24, 524312]) 18 = [524288, 0] ∧
    freeList (freeAll std quarter4 [524312, 24]) 18 = [0, 524288] ∧
    freeList (freeAll std quarter4 [24, 524312]) 18 ≠
      freeList (freeAll std quarter4 [524312, 24]) 18 :=
  ⟨reach_quarter4, by decide!, by decide!, by decide!⟩

/-- C10 as amended: in every reachable state, freeing the same set of
outstanding pointers in two orders leaves, for every order `k`, the same set
of blocks on `avail[k]` (the two lists are permutations of each other), and
the same `kval_m`. -/
theorem free_order_same_blocks (cfg : Config) (hne : cfg.BLOCK_AVAIL ≠ cfg.BLOCK_RESERVED)
    (pool : buddy_pool) (errno : Nat) (out S1 S2 : List Nat) (h : Reach cfg pool errno out)
    (hperm : S1.Perm S2) (hnd : S1.Nodup) (hsub : ∀ p, p ∈ S1 → p ∈ out) :
    (freeAll cfg pool S1).kval_m = (freeAll cfg pool S2).kval_m ∧
    ∀ k, k ≤ pool.kval_m →
      (freeList (freeAll cfg pool S1) k).Perm (freeList (freeAll cfg pool S2) k) := by
  obtain ⟨fl, rs, G, rfl⟩ := h.reach_inv hne
  obtain ⟨fl1, rs1, G1, hm1, hK1⟩ := GInv.ginv_freeAll hne S1 pool fl rs G hnd hsub
  obtain ⟨fl2, rs2, G2, hm2, hK2⟩ := GInv.ginv_freeAll hne S2 pool fl rs G (hperm.nodup_iff.1 hnd)
    (fun p hp => hsub p (hperm.mem_iff.2 hp))
  refine ⟨by rw [hK1, hK2], ?_⟩
  intro k hk
  rw [G1.freeList_eq k (by rw [hK1]; exact hk), G2.freeList_eq k (by rw [hK2]; exact hk)]
  have hrs : ∀ o k, (o, k) ∈ rs2 ↔ (o, k) ∈ rs1 := by
    intro o k
    rw [hm1, hm2, hperm.mem_iff]
  have L1 := G1.layout
  have L2 := G2.layout.layout_congr (fun o k => o ∈ fl2 k) (fun o k => (o, k) ∈ rs1)
    (fun _ _ => Iff.rfl) (fun o k => (hrs o k).symm)
  rw [hK1] at L1
  rw [hK2] at L2
  apply (List.perm_ext_iff_of_nodup (G1.lists.nodup k) (G2.lists.nodup k)).2
  intro o
  exact ⟨L1.canonical L2 o k, L2.canonical L1 o k⟩

/-- Witness for C10 as amended: the two orders of the counterexample. -/
theorem free_order_same_blocks_witness :
    Reach std quarter4 0 [786456, 524312, 262168, 24] ∧
    [24, 524312].Perm [524312, 24] ∧
    (freeAll std quarter4 [24, 524312]).kval_m = (freeAll std quarter4 [524312, 24]).kval_m ∧
    ∀ k, k ≤ quarter4.kval_m →
      (freeList (freeAll std quarter4 [24, 524312]) k).Perm
        (freeList (freeAll std quarter4 [524312, 24]) k) :=
  ⟨reach_quarter4, List.Perm.swap _ _ _,
   free_order_same_blocks std (by decide) quarter4 0 _ [24, 524312] [524312, 24] reach_quarter4
     (List.Perm.swap _ _ _) (by decide) (by decide)⟩

/-! ## Links of a well-formed list -/

/-- Following `next` along a list ends at the sentinel. -/
theorem Chain.walk_end_eq (pool : buddy_pool) (k : Nat) : ∀ (L : List Nat) (p : Ptr) (fuel : Nat),
    Chain pool k p L → L.length ≤ fuel →
    walk_end pool fuel (pool.mem p).next = Ptr.sentinel k := by
  intro L
  induction L with
  | nil =>
    intro p fuel hc _
    simp only [Chain] at hc
    rw [hc.1]
    cases fuel <;> rfl
  | cons o L ih =>
    intro p fuel hc hf
    simp only [Chain] at hc
    obtain ⟨h1, _, h3⟩ := hc
    rw [h1]
    cases fuel with
    | zero => simp at hf
    | succ n =>
      simp only [walk_end]
      exact ih (Ptr.block o) n h3 (by simpa using hf)

/-- In a list, every node is the `prev` of its `next` and the `next` of its
`prev`. -/
theorem Chain.links (pool : buddy_pool) (k : Nat) : ∀ (L : List Nat) (p : Ptr),
    Chain pool k p L →
    (pool.mem (pool.mem p).next).prev = p ∧
    (pool.mem (pool.mem (Ptr.sentinel k)).prev).next = Ptr.sentinel k ∧
    ∀ o, o ∈ L → (pool.mem (pool.mem (Ptr.block o)).next).prev = Ptr.block o ∧
      (pool.mem (pool.mem (Ptr.block o)).prev).next = Ptr.block o := by
  intro L
  induction L with
  | nil =>
    intro p hc
    simp only [Chain] at hc
    refine ⟨by rw [hc.1, hc.2], by rw [hc.2, hc.1], ?_⟩
    intro o ho; simp at ho
  | cons a L ih =>
    intro p hc
    simp only [Chain] at hc
    obtain ⟨h1, h2, h3⟩ := hc
    obtain ⟨i1, i2, i3⟩ := ih (Ptr.block a) h3
    refine ⟨by rw [h1, h2], i2, ?_⟩
    intro o ho
    rcases List.mem_cons.1 ho with h | h
    · subst h
      exact ⟨i1, by rw [h2, h1]⟩
    · exact i3 o h

/-- In a state that satisfies the invariant, the lists read off the pool are
well formed and their members carry the tag and the order of the list. -/
theorem Inv.lists_ok {cfg : Config} {pool : buddy_pool} {out : List Nat}
    (h : Inv cfg pool out) (k : Nat) (hk : k ≤ pool.kval_m) :
    Chain pool k (Ptr.sentinel k) (freeList pool k) ∧
    ((pool.mem (Ptr.sentinel k)).tag = cfg.BLOCK_UNUSED ∧
      (pool.mem (Ptr.sentinel k)).kval = k) ∧
    (∀ o, o ∈ freeList pool k → (pool.mem (Ptr.block o)).tag = cfg.BLOCK_AVAIL ∧
      (pool.mem (Ptr.block o)).kval = k) ∧
    (freeList pool k).length ≤ 2 ^ pool.kval_m := by
  obtain ⟨fl, rs, G, _⟩ := h
  rw [G.freeList_eq k hk]
  refine ⟨G.lists.chain k hk, G.lists.sent k hk, G.lists.hdr k, ?_⟩
  apply nodup_length_le _ _ (G.lists.nodup k)
  intro x hx
  have := G.layout.tiling.bounded x k (Or.inl hx)
  have := two_pow_pos_nat k
  omega

/-! ## The claims on invariants and on buddy arithmetic -/

/-- C14 (no free buddy pairs): in every reachable state, for every order
`k < kval_m`, no two blocks on `avail[k]` are buddies of each other: if the
block at offset `o` is on the list, the block at `o XOR 2^k` is not. -/
theorem no_free_buddies (cfg : Config) (hne : cfg.BLOCK_AVAIL ≠ cfg.BLOCK_RESERVED)
    (pool : buddy_pool) (errno : Nat) (out : List Nat) (h : Reach cfg pool errno out)
    (k o : Nat) (hk : k < pool.kval_m) (ho : o ∈ freeList pool k) :
    o ^^^ 2 ^ k ∉ freeList pool k := by
  have L := (h.reach_inv hne).inv_layout
  intro hb
  exact L.nobuddy o k hk ⟨by omega, ho⟩ ⟨by omega, hb⟩

/-- Witness for C14: the pool of `test_buddy_malloc_one_byte` after
`buddy_malloc(&pool, 1)`, where `avail[10]` holds the block at offset 1024. -/
theorem no_free_buddies_witness :
    Reach std one_byte 0 [24] ∧ 10 < one_byte.kval_m ∧ 1024 ∈ freeList one_byte 10 ∧
    1024 ^^^ 2 ^ 10 ∉ freeList one_byte 10 :=
  ⟨reach_one_byte, by decide!, by decide!,
   no_free_buddies std (by decide) one_byte 0 [24] reach_one_byte 10 1024 (by decide!)
     (by decide!)⟩

/-- C15 (alignment): in every reachable state, every block on a free list
`avail[k]`, and every outstanding block whose header has order `k`, starts at
an offset from `base` that is a multiple of `2^k`. -/
theorem blocks_aligned (cfg : Config) (hne : cfg.BLOCK_AVAIL ≠ cfg.BLOCK_RESERVED)
    (pool : buddy_pool) (errno : Nat) (out : List Nat) (h : Reach cfg pool errno out) :
    (∀ k o, k ≤ pool.kval_m → o ∈ freeList pool k → 2 ^ k ∣ o) ∧
    (∀ p, p ∈ out → cfg.header_size ≤ p ∧
      2 ^ (pool.mem (Ptr.block (p - cfg.header_size))).kval ∣ p - cfg.header_size) := by
  have hinv := h.reach_inv hne
  have L := hinv.inv_layout
  constructor
  · intro k o hk ho
    exact L.tiling.aligned o k (Or.inl ⟨hk, ho⟩)
  · intro p hp
    have hle := hinv.hdr_le p hp
    refine ⟨hle, L.tiling.aligned _ _ (Or.inr ⟨?_, rfl⟩)⟩
    rw [Nat.sub_add_cancel hle]
    exact hp

/-- Witness for C15: the pool of `test_buddy_malloc_exhaustion` after two
calls of `buddy_malloc`. -/
theorem blocks_aligned_witness :
    Reach std quarter2 0 [262168, 24] ∧
    (∀ k o, k ≤ quarter2.kval_m → o ∈ freeList quarter2 k → 2 ^ k ∣ o) ∧
    (∀ p, p ∈ [262168, 24] → std.header_size ≤ p ∧
      2 ^ (quarter2.mem (Ptr.block (p - std.header_size))).kval ∣ p - std.header_size) :=
  ⟨reach_quarter2, blocks_aligned std (by decide) quarter2 0 _ reach_quarter2⟩

/-- C16 (free-list membership): in every reachable state, for every
`k ≤ kval_m`, every block on `avail[k]` has tag `BLOCK_AVAIL` and order `k` in
its header, and the sentinel `avail[k]` has tag `BLOCK_UNUSED` and order
`k`. -/
theorem free_list_membership (cfg : Config) (hne : cfg.BLOCK_AVAIL ≠ cfg.BLOCK_RESERVED)
    (pool : buddy_pool) (errno : Nat) (out : List Nat) (h : Reach cfg pool errno out)
    (k : Nat) (hk : k ≤ pool.kval_m) :
    (∀ o, o ∈ freeList pool k → (pool.mem (Ptr.block o)).tag = cfg.BLOCK_AVAIL ∧
      (pool.mem (Ptr.block o)).kval = k) ∧
    (pool.mem (Ptr.sentinel k)).tag = cfg.BLOCK_UNUSED ∧
    (pool.mem (Ptr.sentinel k)).kval = k := by
  obtain ⟨_, hs, hh, _⟩ := (h.reach_inv hne).lists_ok k hk
  exact ⟨hh, hs.1, hs.2⟩

/-- Witness for C16: the list `avail[19]` of the pool of
`test_buddy_malloc_exhaustion` after two calls of `buddy_malloc`. -/
theorem free_list_membership_witness :
    Reach std quarter2 0 [262168, 24] ∧ 19 ≤ quarter2.kval_m ∧
    (∀ o, o ∈ freeList quarter2 19 → (quarter2.mem (Ptr.block o)).tag = std.BLOCK_AVAIL ∧
      (quarter2.mem (Ptr.block o)).kval = 19) ∧
    (quarter2.mem (Ptr.sentinel 19)).tag = std.BLOCK_UNUSED ∧
    (quarter2.mem (Ptr.sentinel 19)).kval = 19 :=
  ⟨reach_quarter2, by decide!,
   free_list_membership std (by decide) quarter2 0 _ reach_quarter2 19 (by decide!)⟩

/-- C17 (list well-formedness): in every reachable state, for every
`k ≤ kval_m`, the list headed by `avail[k]` is a well-formed circular doubly
linked list: following `next` from the sentinel leads back to the sentinel,
and every node `x` on it, the sentinel included, has `x.next.prev = x` and
`x.prev.next = x`.  Reachable states are those produced by the unlinking and
head insertion of `buddy_malloc` and `buddy_free`. -/
theorem list_well_formed (cfg : Config) (hne : cfg.BLOCK_AVAIL ≠ cfg.BLOCK_RESERVED)
    (pool : buddy_pool) (errno : Nat) (out : List Nat) (h : Reach cfg pool errno out)
    (k : Nat) (hk : k ≤ pool.kval_m) :
    walk_end pool (2 ^ pool.kval_m) (pool.mem (Ptr.sentinel k)).next = Ptr.sentinel k ∧
    (pool.mem (pool.mem (Ptr.sentinel k)).next).prev = Ptr.sentinel k ∧
    (pool.mem (pool.mem (Ptr.sentinel k)).prev).next = Ptr.sentinel k ∧
    ∀ o, o ∈ freeList pool k →
      (pool.mem (pool.mem (Ptr.block o)).next).prev = Ptr.block o ∧
      (pool.mem (pool.mem (Ptr.block o)).prev).next = Ptr.block o := by
  obtain ⟨hc, _, _, hlen⟩ := (h.reach_inv hne).lists_ok k hk
  obtain ⟨l1, l2, l3⟩ := Chain.links pool k _ _ hc
  exact ⟨Chain.walk_end_eq pool k _ _ _ hc hlen, l1, l2, l3⟩

/-- Witness for C17: the list `avail[18]` after the first and the third
quarter of the pool of `test_buddy_malloc_exhaustion` were freed. -/
theorem list_well_formed_witness :
    Reach std (buddy_free std (buddy_free std quarter4 (some 24)) (some 524312)) 0
      [786456, 262168] ∧
    18 ≤ (buddy_free std (buddy_free std quarter4 (some 24)) (some 524312)).kval_m ∧
    walk_end (buddy_free std (buddy_free std quarter4 (some 24)) (some 524312))
      (2 ^ (buddy_free std (buddy_free std quarter4 (some 24)) (some 524312)).kval_m)
      ((buddy_free std (buddy_free std quarter4 (some 24)) (some 524312)).mem
        (Ptr.sentinel 18)).next = Ptr.sentinel 18 :=
  ⟨Reach.free _ 0 _ 524312 (Reach.free quarter4 0 _ 24 reach_quarter4 (by decide)) (by decide),
   by decide!,
   (list_well_formed std (by decide) _ 0 _
     (Reach.free _ 0 _ 524312 (Reach.free quarter4 0 _ 24 reach_quarter4 (by decide))
       (by decide)) 18 (by decide!)).1⟩

/-- C18 (buddy pairing): for a pool order `K`, an order `k < K` and a block
offset `o < 2^K` that is a multiple of `2^k`, with order `k` in the block's
header, the offset `o XOR 2^k` computed by `buddy_calc` is a multiple of `2^k`
below `2^K`, differs from `o` by exactly `2^k`, is mapped back to `o` by
`buddy_calc` at the same order, and the smaller of the two offsets is a
multiple of `2^(k+1)`, so that the two blocks together are the aligned block
of order `k+1` at that offset. -/
theorem buddy_pairing (pool : buddy_pool) (K k o : Nat) (hk : k < K) (ho : o < 2 ^ K)
    (hal : 2 ^ k ∣ o) (hkv : (pool.mem (Ptr.block o)).kval = k) :
    buddy_calc pool o = o ^^^ 2 ^ k ∧
    2 ^ k ∣ buddy_calc pool o ∧ buddy_calc pool o < 2 ^ K ∧
    (buddy_calc pool o = o + 2 ^ k ∨ o = buddy_calc pool o + 2 ^ k) ∧
    ((pool.mem (Ptr.block (buddy_calc pool o))).kval = k →
      buddy_calc pool (buddy_calc pool o) = o) ∧
    2 ^ (k + 1) ∣ min o (buddy_calc pool o) ∧
    max o (buddy_calc pool o) = min o (buddy_calc pool o) + 2 ^ k ∧
    min o (buddy_calc pool o) + 2 ^ (k + 1) ≤ 2 ^ K := by
  have hbc := buddy_calc_eq pool o k hkv
  rw [hbc]
  obtain ⟨hpd, hpc⟩ := parent_spec o k hal
  have hpos := two_pow_pos_nat k
  have hpw := two_pow_succ_eq k
  have hbd : o + 2 ^ k ≤ 2 ^ K := dvd_gap _ _ _ hal (pow_dvd_pow 2 (by omega)) ho
  have hpb := parent_bounded o k K hal hk hbd
  refine ⟨rfl, xor_two_pow_dvd o k hal, ?_, ?_, ?_, ?_, ?_, ?_⟩
  · rcases hpc with ⟨a, b⟩ | ⟨a, b⟩ <;> omega
  · rcases hpc with ⟨_, b⟩ | ⟨_, b⟩
    · exact Or.inl b
    · exact Or.inr b
  · intro h2
    rw [buddy_calc_eq pool _ k h2, xor_two_pow_invol]
  · rcases hpc with ⟨a, b⟩ | ⟨a, b⟩
    · rw [min_eq_left (by omega), ← a]; exact hpd
    · rw [min_eq_right (by omega), ← a]; exact hpd
  · rcases hpc with ⟨a, b⟩ | ⟨a, b⟩
    · rw [min_eq_left (by omega), max_eq_right (by omega)]; exact b
    · rw [min_eq_right (by omega), max_eq_left (by omega)]; exact b
  · rcases hpc with ⟨a, b⟩ | ⟨a, b⟩
    · rw [min_eq_left (by omega), ← a]; exact hpb
    · rw [min_eq_right (by omega), ← a]; exact hpb

/-- Witness for C18: the block at offset 1024 on `avail[10]` of the pool of
`test_buddy_malloc_one_byte`, whose buddy is the block at offset 0. -/
theorem buddy_pairing_witness :
    10 < 20 ∧ 1024 < 2 ^ 20 ∧ 2 ^ 10 ∣ 1024 ∧ (one_byte.mem (Ptr.block 1024)).kval = 10 ∧
    buddy_calc one_byte 1024 = 1024 ^^^ 2 ^ 10 :=
  ⟨by decide, by decide, by decide, by decide!,
   (buddy_pairing one_byte 20 10 1024 (by decide) (by decide) (by decide) (by decide!)).1⟩

/-! ## Allocation followed by release -/

theorem splitFl_self (fl : Nat → List Nat) (o k : Nat) : splitFl fl o k k = fl := by
  funext j; unfold splitFl; rw [if_neg (by omega)]

/-- The coalescing loop undoes the split loop: started on the block at `o` of
order `kv`, with the upper halves of the orders `kv .. bk - 1` alone on their
lists, it leaves the block at `o` with order `bk` and the lists without the
upper halves. -/
theorem freeLoop_unsplit (cfg : Config) (hne : cfg.BLOCK_AVAIL ≠ cfg.BLOCK_RESERVED) :
    ∀ (d fuel : Nat) (pool : buddy_pool) (fl0 : Nat → List Nat) (rs : List (Nat × Nat))
      (o kv bk : Nat),
    bk = kv + d → bk ≤ pool.kval_m → TInv cfg pool (splitFl fl0 o kv bk) rs o kv →
    (∀ j, kv ≤ j → j < bk → fl0 j = []) → 2 ^ bk ∣ o →
    (bk < pool.kval_m → o ^^^ 2 ^ bk ∉ fl0 bk) → pool.kval_m - kv ≤ fuel →
    (freeLoop cfg fuel pool o kv).2.1 = o ∧ (freeLoop cfg fuel pool o kv).2.2 = bk ∧
    (freeLoop cfg fuel pool o kv).1.kval_m = pool.kval_m ∧
    TInv cfg (freeLoop cfg fuel pool o kv).1 fl0 rs o bk := by
  intro d
  induction d with
  | zero =>
    intro fuel pool fl0 rs o kv bk hbk hle T _ _ hbud hf
    have e : bk = kv := by omega
    subst e
    rw [splitFl_self] at T
    cases fuel with
    | zero => exact ⟨rfl, rfl, rfl, T⟩
    | succ f =>
      rw [freeLoop]
      by_cases hk : bk < pool.kval_m
      · rw [if_pos hk]
        have hbc := buddy_calc_eq pool o bk T.tk
        have htest := T.buddy_test hne hk
        simp only [hbc]
        have hnt : (pool.mem (Ptr.block (o ^^^ 2 ^ bk))).tag ≠ cfg.BLOCK_AVAIL ∨
            (pool.mem (Ptr.block (o ^^^ 2 ^ bk))).kval ≠ bk := by
          by_contra hcon
          push_neg at hcon
          exact hbud hk (htest.1 hcon)
        rw [if_pos hnt]
        exact ⟨rfl, rfl, rfl, T⟩
      · rw [if_neg hk]
        exact ⟨rfl, rfl, rfl, T⟩
  | succ d ih =>
    intro fuel pool fl0 rs o kv bk hbk hle T hempty hal hbud hf
    have hk : kv < pool.kval_m := by omega
    obtain ⟨f, rfl⟩ : ∃ f, fuel = f + 1 := ⟨fuel - 1, by omega⟩
    have hal1 : 2 ^ (kv + 1) ∣ o := two_pow_dvd_of_le (kv + 1) bk o (by omega) hal
    have hx : o ^^^ 2 ^ kv = o + 2 ^ kv := xor_two_pow_of_dvd_succ o kv hal1
    have hpos := two_pow_pos_nat kv
    have hb : o ^^^ 2 ^ kv ∈ splitFl fl0 o kv bk kv := by
      unfold splitFl
      rw [if_pos (by omega), hx]
      exact List.mem_cons_self _ _
    have hbc := buddy_calc_eq pool o kv T.tk
    have h12 := (T.buddy_test hne hk).2 hb
    have T2 := T.tinv_merge hb
    have hpar : parent o kv = o := by
      unfold parent
      rw [if_neg (by omega)]
    rw [hpar] at T2
    have efl : Function.update (splitFl fl0 o kv bk) kv
        ((splitFl fl0 o kv bk kv).erase (o ^^^ 2 ^ kv)) = splitFl fl0 o (kv + 1) bk := by
      funext j
      by_cases hj : j = kv
      · subst hj
        rw [Function.update_same]
        unfold splitFl
        rw [if_pos (by omega), if_neg (by omega), hx, List.erase_cons_head]
      · rw [Function.update_noteq hj]
        unfold splitFl
        by_cases hj2 : kv ≤ j ∧ j < bk
        · rw [if_pos hj2, if_pos (by omega)]
        · rw [if_neg hj2, if_neg (by omega)]
    rw [efl] at T2
    have hrec := ih f _ fl0 rs o (kv + 1) bk (by omega) (by simpa using hle) T2
      (fun j h1 h2 => hempty j (by omega) h2) hal (by simpa using hbud) (by simp; omega)
    rw [freeLoop, if_pos hk]
    simp only [hbc]
    rw [if_neg (by rw [h12.1, h12.2]; simp)]
    have eb : (if o ^^^ 2 ^ kv < o then o ^^^ 2 ^ kv else o) = o := by
      rw [if_neg (by omega)]
    simp only [eb]
    obtain ⟨r1, r2, r3, r4⟩ := hrec
    exact ⟨r1, r2, by rw [r3]; simp, r4⟩

/-- In a state that satisfies the invariant, a successful `buddy_malloc`
followed by `buddy_free` of the pointer it returned gives back the free lists
and the outstanding blocks of the state before the two calls. -/
theorem GInv.malloc_free {cfg : Config} {pool : buddy_pool} {fl : Nat → List Nat}
    {rs : List (Nat × Nat)} (G : GInv cfg pool fl rs)
    (hne : cfg.BLOCK_AVAIL ≠ cfg.BLOCK_RESERVED) (n e k0 p e2 : Nat) (pool2 : buddy_pool)
    (hs : n ≠ 0) (hb : btok ((n + cfg.header_size) % 2 ^ 64) = some k0)
    (hm : buddy_malloc cfg (some pool) n e = some ⟨some p, some pool2, e2⟩) :
    GInv cfg (buddy_free cfg pool2 (some p)) fl rs ∧
    (buddy_free cfg pool2 (some p)).kval_m = pool.kval_m ∧ e2 = e ∧
    ∃ bk o r, p = o + cfg.header_size ∧
      (if k0 < cfg.SMALLEST_K then cfg.SMALLEST_K else k0) ≤ bk ∧ bk ≤ pool.kval_m ∧
      fl bk = o :: r ∧
      (∀ j, (if k0 < cfg.SMALLEST_K then cfg.SMALLEST_K else k0) ≤ j → j < bk → fl j = []) ∧
      GInv cfg pool2 (splitFl (Function.update fl bk r) o
        (if k0 < cfg.SMALLEST_K then cfg.SMALLEST_K else k0) bk)
        ((o, if k0 < cfg.SMALLEST_K then cfg.SMALLEST_K else k0) :: rs) := by
  rcases G.ginv_malloc n e k0 _ hs hb rfl with ⟨_, h2⟩ |
    ⟨bk, o, r, p2, h1, h2, h3, h4, h5, G2, hK2, _⟩
  · rw [h2] at hm
    cases hm
  · rw [h5] at hm
    cases hm
    have hmem : o ∈ fl bk := by rw [h3]; exact List.mem_cons_self _ _
    have T := G2.release o _ (List.mem_cons_self _ _)
    rw [List.erase_cons_head] at T
    have hk : ((setTag pool2 (Ptr.block o) cfg.BLOCK_AVAIL).mem (Ptr.block o)).kval
        = (if k0 < cfg.SMALLEST_K then cfg.SMALLEST_K else k0) := T.tk
    have hunsplit := freeLoop_unsplit cfg hne
      (bk - (if k0 < cfg.SMALLEST_K then cfg.SMALLEST_K else k0))
      (pool2.kval_m - (if k0 < cfg.SMALLEST_K then cfg.SMALLEST_K else k0))
      (setTag pool2 (Ptr.block o) cfg.BLOCK_AVAIL) (Function.update fl bk r) rs o
      (if k0 < cfg.SMALLEST_K then cfg.SMALLEST_K else k0) bk (by omega)
      (by simpa [hK2] using h2) T
      (fun j a b => by rw [Function.update_noteq (by omega)]; exact h4 j a b)
      (G.layout.tiling.aligned o bk (Or.inl hmem))
      (by
        intro hlt
        rw [Function.update_same]
        intro hr
        have hlt2 : bk < pool.kval_m := by simpa [hK2] using hlt
        exact G.layout.nobuddy o bk hlt2 hmem (by rw [h3]; exact List.mem_cons_of_mem _ hr))
      (by simp)
    obtain ⟨u1, u2, u3, T3⟩ := hunsplit
    have G3 := T3.tinv_give (by
      intro hlt
      rw [Function.update_same]
      intro hr
      have hlt2 : bk < pool.kval_m := by
        rw [u3] at hlt
        simpa [hK2] using hlt
      exact G.layout.nobuddy o bk hlt2 hmem (by rw [h3]; exact List.mem_cons_of_mem _ hr))
    have efl : Function.update (Function.update fl bk r) bk (o :: Function.update fl bk r bk)
        = fl := by
      rw [Function.update_same, Function.update_idem, ← h3, Function.update_eq_self]
    rw [efl] at G3
    have efree : buddy_free cfg pool2 (some (o + cfg.header_size)) =
        push_head (setTag (freeLoop cfg
          (pool2.kval_m - (if k0 < cfg.SMALLEST_K then cfg.SMALLEST_K else k0))
          (setTag pool2 (Ptr.block o) cfg.BLOCK_AVAIL) o
          (if k0 < cfg.SMALLEST_K then cfg.SMALLEST_K else k0)).1 (Ptr.block o)
          cfg.BLOCK_AVAIL) bk (Ptr.block o) := by
      simp only [buddy_free, Nat.add_sub_cancel, hk, setTag_kval_m, u1, u2]
    rw [efree]
    refine ⟨G3, ?_, rfl, bk, o, r, rfl, h1, h2, h3, h4, G2⟩
    rw [push_head_kval_m, setTag_kval_m, u3, setTag_kval_m, hK2]

/-! ## Room after a release -/

/-- After a block of order `k` stopped being reserved, a free block of order
at least `k` exists. -/
theorem Layout.room_after_free {K : Nat} {F R F2 R2 : Nat → Nat → Prop} (L : Layout K F R)
    (L2 : Layout K F2 R2) (o k : Nat) (hR : R o k)
    (hR2 : ∀ o2 k2, R2 o2 k2 ↔ (R o2 k2 ∧ o2 ≠ o)) : ∃ ox kx, k ≤ kx ∧ F2 ox kx := by
  have hB : (fun o k => F o k ∨ R o k) o k := Or.inr hR
  have hal := L.tiling.aligned o k hB
  have hbd := L.tiling.bounded o k hB
  have hpos := two_pow_pos_nat k
  obtain ⟨ox, kx, hx, hx1, hx2⟩ := L2.tiling.cover o (by omega)
  have hnoR : ∀ o3 k3 x, R2 o3 k3 → o3 ≤ x → x < o3 + 2 ^ k3 → o ≤ x → x < o + 2 ^ k → False := by
    intro o3 k3 x h3 a1 a2 b1 b2
    rw [hR2] at h3
    exact h3.2 (L.tiling.disjoint o3 k3 o k x (Or.inr h3.1) hB a1 a2 b1 b2).1
  have hF : F2 ox kx := by
    rcases hx with h | h
    · exact h
    · exact (hnoR ox kx o h hx1 hx2 (le_refl _) (by omega)).elim
  refine ⟨ox, kx, ?_, hF⟩
  by_contra hlt
  have hn := dyadic_nested ox kx o k o (by omega) (L2.tiling.aligned ox kx hx) hal hx1 hx2
    (le_refl _) (by omega)
  have hposx := two_pow_pos_nat kx
  exact L2.min_free o k hal (L.tiling.order_le o k hB) hnoR kx ox hF (by omega) hn.1 (by omega)

/-- The invariant of the states of `ReachN`: every outstanding pointer is the
user pointer of a block handed out, whose order is the one `buddy_malloc`
computes for the size it was requested with. -/
theorem ReachN.reachN_inv {cfg : Config} (hne : cfg.BLOCK_AVAIL ≠ cfg.BLOCK_RESERVED)
    {pool : buddy_pool} {errno : Nat} {out : List (Nat × Nat)} (h : ReachN cfg pool errno out) :
    ∃ fl rs, GInv cfg pool fl rs ∧ (out.map Prod.fst).Nodup ∧
      (∀ q, q ∈ out.map Prod.fst ↔ q ∈ rs.map (fun b => b.1 + cfg.header_size)) ∧
      ∀ p n, (p, n) ∈ out → ∃ k0 o, n ≠ 0 ∧ btok ((n + cfg.header_size) % 2 ^ 64) = some k0 ∧
        p = o + cfg.header_size ∧
        (o, if k0 < cfg.SMALLEST_K then cfg.SMALLEST_K else k0) ∈ rs := by
  induction h with
  | init size errno pool _ hi =>
    obtain ⟨K, rfl⟩ := buddy_init_eq cfg size pool hi
    exact ⟨_, [], init_pool_inv cfg K, List.nodup_nil, fun q => by simp, fun p n hp => by simp at hp⟩
  | malloc pool errno out size r pool2 _ _ hm hp ih =>
    obtain ⟨fl, rs, G, hnd, hmem, hpairs⟩ := ih
    by_cases hs : size = 0
    · subst hs
      rw [buddy_malloc_zero] at hm
      cases hm
      cases hp
      exact ⟨fl, rs, G, hnd, hmem, hpairs⟩
    · cases hb : btok ((size + cfg.header_size) % 2 ^ 64) with
      | none =>
        rw [buddy_malloc_none cfg pool size errno hs hb] at hm
        cases hm
      | some k0 =>
        rcases G.ginv_malloc size errno k0 _ hs hb rfl with ⟨_, h2⟩ |
          ⟨bk, o, r2, p2, _, _, _, _, h2, G2, _⟩
        · rw [h2] at hm
          cases hm
          cases hp
          exact ⟨fl, rs, G, hnd, hmem, hpairs⟩
        · rw [h2] at hm
          cases hm
          cases hp
          have hfresh : o + cfg.header_size ∉ rs.map (fun b => b.1 + cfg.header_size) := by
            intro hin
            obtain ⟨⟨o2, k2⟩, hb2, e2⟩ := List.mem_map.1 hin
            simp only [Nat.add_right_cancel_iff] at e2
            subst e2
            have hnd2 := G2.rs_nodup
            rw [List.nodup_cons] at hnd2
            have := G2.layout.tiling.same_offset o2 k2 _ (Or.inr (List.mem_cons_of_mem _ hb2))
              (Or.inr (List.mem_cons_self _ _))
            subst this
            exact hnd2.1 hb2
          refine ⟨_, _, G2, ?_, ?_, ?_⟩
          · simp only [List.map_cons]
            exact List.nodup_cons.2 ⟨fun hin => hfresh ((hmem _).1 hin), hnd⟩
          · intro q
            simp only [List.map_cons, List.mem_cons]
            rw [hmem q]
          · intro p n hpn
            rcases List.mem_cons.1 hpn with e | hin
            · rw [Prod.mk.injEq] at e
              obtain ⟨rfl, rfl⟩ := e
              exact ⟨k0, o, hs, hb, rfl, List.mem_cons_self _ _⟩
            · obtain ⟨k1, o1, a0, a, b, c⟩ := hpairs p n hin
              exact ⟨k1, o1, a0, a, b, List.mem_cons_of_mem _ c⟩
  | free pool errno out p n _ hp ih =>
    obtain ⟨fl, rs, G, hnd, hmem, hpairs⟩ := ih
    obtain ⟨k0, o, _, hb, rfl, hin⟩ := hpairs p n hp
    obtain ⟨⟨fl2, G2⟩, _⟩ := G.ginv_free hne o _ hin
    have hout_nd : out.Nodup := List.Nodup.of_map _ hnd
    have hfst : ∀ q m, (q, m) ∈ out.erase (o + cfg.header_size, n) →
        (q, m) ∈ out ∧ q ≠ o + cfg.header_size := by
      intro q m hq
      have h1 := (hout_nd.mem_erase_iff.1 hq)
      refine ⟨h1.2, ?_⟩
      intro e
      subst e
      have := List.inj_on_of_nodup_map hnd h1.2 hp rfl
      exact h1.1 this
    refine ⟨fl2, _, G2, ?_, ?_, ?_⟩
    · exact hnd.sublist ((List.erase_sublist _ _).map _)
    · intro q
      constructor
      · intro hq
        obtain ⟨⟨q2, m⟩, hq2, e⟩ := List.mem_map.1 hq
        simp only at e
        subst e
        obtain ⟨a, b⟩ := hfst q2 m hq2
        obtain ⟨⟨o3, k3⟩, hb3, e3⟩ := List.mem_map.1 ((hmem q2).1 (List.mem_map.2 ⟨(q2, m), a, rfl⟩))
        simp only at e3
        refine List.mem_map.2 ⟨(o3, k3), ?_, e3⟩
        apply G.rs_nodup.mem_erase_iff.2
        refine ⟨?_, hb3⟩
        intro e4
        rw [Prod.mk.injEq] at e4
        omega
      · intro hq
        obtain ⟨⟨o3, k3⟩, hb3, e3⟩ := List.mem_map.1 hq
        simp only at e3
        have h3 := G.rs_nodup.mem_erase_iff.1 hb3
        obtain ⟨⟨q2, m⟩, hq2, e⟩ :=
          List.mem_map.1 ((hmem q).2 (List.mem_map.2 ⟨(o3, k3), h3.2, e3⟩))
        simp only at e
        subst e
        refine List.mem_map.2 ⟨(q2, m), ?_, rfl⟩
        apply hout_nd.mem_erase_iff.2
        refine ⟨?_, hq2⟩
        intro e4
        rw [Prod.mk.injEq] at e4
        apply h3.1
        have : o3 = o := by omega
        subst this
        have := G.layout.tiling.same_offset o3 k3 _ (Or.inr h3.2) (Or.inr hin)
        rw [this]
    · intro q m hq
      obtain ⟨a, b⟩ := hfst q m hq
      obtain ⟨k1, o1, c0, c1, c2, c3⟩ := hpairs q m a
      refine ⟨k1, o1, c0, c1, c2, ?_⟩
      apply G.rs_nodup.mem_erase_iff.2
      refine ⟨?_, c3⟩
      intro e4
      rw [Prod.mk.injEq] at e4
      omega

/-- A call of `buddy_malloc` that returns leads from a state of `ReachN` to a
state of `ReachN`. -/
theorem ReachN.malloc_runN {cfg : Config} {pool : buddy_pool} {e : Nat} {out : List (Nat × Nat)}
    (h : ReachN cfg pool e out) (size : Nat) (hs : size < 2 ^ 64)
    (hr : (buddy_malloc cfg (some pool) size e).isSome = true) :
    ReachN cfg (malloc_pool cfg pool size e) (malloc_errno cfg pool size e)
      (match malloc_ret cfg pool size e with
        | some p => (p, size) :: out
        | none => out) := by
  cases hm : buddy_malloc cfg (some pool) size e with
  | none => rw [hm] at hr; cases hr
  | some r =>
    obtain ⟨p, hp⟩ := buddy_malloc_pool_some cfg pool size e r hm
    have := ReachN.malloc pool e out size r p h hs hm hp
    simp only [malloc_pool, malloc_errno, malloc_ret, hm, hp]
    exact this

theorem reachN_fresh20 : ReachN std fresh20 0 [] :=
  ReachN.init (2 ^ 20) 0 fresh20 (by norm_num)
    (buddy_init_some std (2 ^ 20) 20 (by norm_num) (by decide))

theorem reachN_quarter1 : ReachN std quarter1 0 [(24, 2 ^ 18 - 24)] := by
  have h := ReachN.malloc_runN reachN_fresh20 (2 ^ 18 - 24) (by norm_num) (by decide!)
  have e1 : malloc_ret std fresh20 (2 ^ 18 - 24) 0 = some 24 := by decide!
  have e2 : malloc_errno std fresh20 (2 ^ 18 - 24) 0 = 0 := by decide!
  rw [e1, e2] at h
  exact h

theorem reachN_quarter2 : ReachN std quarter2 0 [(262168, 2 ^ 18 - 24), (24, 2 ^ 18 - 24)] := by
  have h := ReachN.malloc_runN reachN_quarter1 (2 ^ 18 - 24) (by norm_num) (by decide!)
  have e1 : malloc_ret std quarter1 (2 ^ 18 - 24) 0 = some 262168 := by decide!
  have e2 : malloc_errno std quarter1 (2 ^ 18 - 24) 0 = 0 := by decide!
  rw [e1, e2] at h
  exact h

theorem reachN_quarter3 : ReachN std quarter3 0
    [(524312, 2 ^ 18 - 24), (262168, 2 ^ 18 - 24), (24, 2 ^ 18 - 24)] := by
  have h := ReachN.malloc_runN reachN_quarter2 (2 ^ 18 - 24) (by norm_num) (by decide!)
  have e1 : malloc_ret std quarter2 (2 ^ 18 - 24) 0 = some 524312 := by decide!
  have e2 : malloc_errno std quarter2 (2 ^ 18 - 24) 0 = 0 := by decide!
  rw [e1, e2] at h
  exact h

theorem reachN_quarter4 : ReachN std quarter4 0
    [(786456, 2 ^ 18 - 24), (524312, 2 ^ 18 - 24), (262168, 2 ^ 18 - 24), (24, 2 ^ 18 - 24)] := by
  have h := ReachN.malloc_runN reachN_quarter3 (2 ^ 18 - 24) (by norm_num) (by decide!)
  have e1 : malloc_ret std quarter3 (2 ^ 18 - 24) 0 = some 786456 := by decide!
  have e2 : malloc_errno std quarter3 (2 ^ 18 - 24) 0 = 0 := by decide!
  rw [e1, e2] at h
  exact h

/-! ## The claims on allocation and release -/

/-- C11 (recovery after exhaustion): in every reachable state (in particular
in one in which some call of `buddy_malloc` fails with out-of-memory), for
every outstanding pointer `p` that was returned by `buddy_malloc(pool, n)`,
after `buddy_free(pool, p)` a call `buddy_malloc(pool, n)` with the same `n`
returns a non-null pointer and leaves `errno` alone. -/
theorem recovery_after_free (cfg : Config) (hne : cfg.BLOCK_AVAIL ≠ cfg.BLOCK_RESERVED)
    (pool : buddy_pool) (errno : Nat) (out : List (Nat × Nat)) (p n e3 : Nat)
    (h : ReachN cfg pool errno out) (hp : (p, n) ∈ out) :
    ∃ q pool2, buddy_malloc cfg (some (buddy_free cfg pool (some p))) n e3 =
      some ⟨some q, some pool2, e3⟩ := by
  obtain ⟨fl, rs, G, _, _, hpairs⟩ := h.reachN_inv hne
  obtain ⟨k0, o, hn0, hb, rfl, hin⟩ := hpairs p n hp
  obtain ⟨⟨fl2, G2⟩, hK, _⟩ := G.ginv_free hne o _ hin
  have L2 := G2.layout
  rw [hK] at L2
  obtain ⟨ox, kx, hle, hF⟩ := G.layout.room_after_free L2 o _ hin (by
    intro o2 k2
    rw [G.rs_nodup.mem_erase_iff]
    constructor
    · rintro ⟨a, b⟩
      refine ⟨b, ?_⟩
      intro e
      subst e
      have := G.layout.tiling.same_offset o2 k2 _ (Or.inr b) (Or.inr hin)
      subst this
      exact a rfl
    · rintro ⟨a, b⟩
      refine ⟨?_, a⟩
      intro e
      rw [Prod.mk.injEq] at e
      exact b e.1)
  have hkx : kx ≤ pool.kval_m := L2.tiling.order_le ox kx (Or.inl hF)
  rcases G2.ginv_malloc n e3 k0 _ hn0 hb rfl with ⟨hempty, _⟩ | ⟨_, o2, _, pool2, _, _, _, _, hm, _, _⟩
  · exfalso
    have := hempty kx hle (by rw [hK]; exact hkx)
    rw [this] at hF
    simp at hF
  · exact ⟨_, pool2, hm⟩

/-- Witness for C11: the exhausted pool of `test_buddy_malloc_exhaustion`
(four quarters outstanding); after the third quarter is freed, a request of
the same size succeeds. -/
theorem recovery_after_free_witness :
    ReachN std quarter4 0
      [(786456, 2 ^ 18 - 24), (524312, 2 ^ 18 - 24), (262168, 2 ^ 18 - 24), (24, 2 ^ 18 - 24)] ∧
    malloc_ret std quarter4 (2 ^ 18 - 24) 0 = none ∧
    malloc_errno std quarter4 (2 ^ 18 - 24) 0 = ENOMEM ∧
    ∃ q pool2, buddy_malloc std (some (buddy_free std quarter4 (some 524312))) (2 ^ 18 - 24) 0 =
      some ⟨some q, some pool2, 0⟩ :=
  ⟨reachN_quarter4, by decide!, by decide!,
   recovery_after_free std (by decide) quarter4 0 _ 524312 (2 ^ 18 - 24) 0 reachN_quarter4
     (by decide)⟩

theorem initFl_update_nil (K j : Nat) : Function.update (initFl K) K [] j = [] := by
  by_cases h : j = K
  · subst h; rw [Function.update_same]
  · rw [Function.update_noteq h]
    unfold initFl
    rw [Function.update_noteq h]

/-- C12 (deterministic split on a fresh pool): on a freshly initialised pool
of order `K`, for `n ≥ 1` whose target order
`k = max(btok(n + header_size), SMALLEST_K)` is at most `K`,
`buddy_malloc(pool, n)` returns `base + header_size`; the header at `base` has
tag `BLOCK_RESERVED` and order `k`; for every `j` with `k ≤ j < K` the list
`avail[j]` holds exactly one block, at offset `2^j`, with tag `BLOCK_AVAIL` and
order `j`; `avail[i]` is empty for `i < k` and for `i = K`. -/
theorem deterministic_split (cfg : Config) (size n k0 errno : Nat) (pool : buddy_pool)
    (hi : buddy_init cfg size = some pool) (hn : 1 ≤ n)
    (hb : btok ((n + cfg.header_size) % 2 ^ 64) = some k0)
    (hk : (if k0 < cfg.SMALLEST_K then cfg.SMALLEST_K else k0) ≤ pool.kval_m) :
    ∃ pool2, buddy_malloc cfg (some pool) n errno =
        some ⟨some cfg.header_size, some pool2, errno⟩ ∧
      pool2.kval_m = pool.kval_m ∧
      (pool2.mem (Ptr.block 0)).tag = cfg.BLOCK_RESERVED ∧
      (pool2.mem (Ptr.block 0)).kval = (if k0 < cfg.SMALLEST_K then cfg.SMALLEST_K else k0) ∧
      (∀ j, (if k0 < cfg.SMALLEST_K then cfg.SMALLEST_K else k0) ≤ j → j < pool.kval_m →
        freeList pool2 j = [2 ^ j] ∧ (pool2.mem (Ptr.block (2 ^ j))).tag = cfg.BLOCK_AVAIL ∧
        (pool2.mem (Ptr.block (2 ^ j))).kval = j) ∧
      (∀ i, i < (if k0 < cfg.SMALLEST_K then cfg.SMALLEST_K else k0) → freeList pool2 i = []) ∧
      freeList pool2 pool.kval_m = [] := by
  obtain ⟨K, rfl⟩ := buddy_init_eq cfg size pool hi
  rw [init_pool_kval_m] at hk ⊢
  have G0 := init_pool_inv cfg K
  rcases G0.ginv_malloc n errno k0 _ (by omega) hb rfl with ⟨hempty, _⟩ |
    ⟨bk, o, r, pool2, h1, h2, h3, _, hm, G2, hK2, _⟩
  · exfalso
    have := hempty K hk (by rw [init_pool_kval_m])
    have hmem : 0 ∈ initFl K K := (mem_initFl K 0 K).2 ⟨rfl, rfl⟩
    rw [this] at hmem
    simp at hmem
  · have hmem : o ∈ initFl K bk := by rw [h3]; exact List.mem_cons_self _ _
    obtain ⟨rfl, rfl⟩ := (mem_initFl K o bk).1 hmem
    rw [init_pool_kval_m] at hK2
    have hfl : ∀ j, splitFl (Function.update (initFl bk) bk r) 0
        (if k0 < cfg.SMALLEST_K then cfg.SMALLEST_K else k0) bk j =
        if (if k0 < cfg.SMALLEST_K then cfg.SMALLEST_K else k0) ≤ j ∧ j < bk then [2 ^ j]
        else [] := by
      intro j
      have hr : r = [] := by
        have e : initFl bk bk = [0] := by unfold initFl; rw [Function.update_same]
        rw [e] at h3
        exact (List.cons.inj h3).2.symm
      subst hr
      unfold splitFl
      rw [initFl_update_nil, Nat.zero_add]
    have hres := G2.res 0 _ (List.mem_cons_self _ _)
    refine ⟨pool2, by simpa using hm, hK2, hres.1, hres.2, ?_, ?_, ?_⟩
    · intro j a b
      have hj : freeList pool2 j = [2 ^ j] := by
        rw [G2.freeList_eq j (by omega), hfl j, if_pos ⟨a, b⟩]
      have hh := G2.lists.hdr j (2 ^ j) (by rw [hfl j, if_pos ⟨a, b⟩]; simp)
      exact ⟨hj, hh.1, hh.2⟩
    · intro i hi2
      rw [G2.freeList_eq i (by omega), hfl i, if_neg (by omega)]
    · rw [G2.freeList_eq bk (by omega), hfl bk, if_neg (by omega)]

/-- Witness for C12: `buddy_malloc(&pool, 1)` on the fresh pool of `2^20`
bytes (`test_buddy_min_block_size`): `btok(25) = 5`, target order 6. -/
theorem deterministic_split_witness :
    buddy_init std (2 ^ 20) = some fresh20 ∧ 1 ≤ 1 ∧
    btok ((1 + std.header_size) % 2 ^ 64) = some 5 ∧
    (if 5 < std.SMALLEST_K then std.SMALLEST_K else 5) ≤ fresh20.kval_m ∧
    ∃ pool2, buddy_malloc std (some fresh20) 1 0 = some ⟨some std.header_size, some pool2, 0⟩ ∧
      pool2.kval_m = fresh20.kval_m ∧
      (pool2.mem (Ptr.block 0)).tag = std.BLOCK_RESERVED ∧
      (pool2.mem (Ptr.block 0)).kval = (if 5 < std.SMALLEST_K then std.SMALLEST_K else 5) ∧
      (∀ j, (if 5 < std.SMALLEST_K then std.SMALLEST_K else 5) ≤ j → j < fresh20.kval_m →
        freeList pool2 j = [2 ^ j] ∧ (pool2.mem (Ptr.block (2 ^ j))).tag = std.BLOCK_AVAIL ∧
        (pool2.mem (Ptr.block (2 ^ j))).kval = j) ∧
      (∀ i, i < (if 5 < std.SMALLEST_K then std.SMALLEST_K else 5) → freeList pool2 i = []) ∧
      freeList pool2 fresh20.kval_m = [] :=
  ⟨buddy_init_some std (2 ^ 20) 20 (by norm_num) (by decide), le_refl _, by decide, by decide!,
   deterministic_split std (2 ^ 20) 1 5 0 fresh20
     (buddy_init_some std (2 ^ 20) 20 (by norm_num) (by decide)) (le_refl _) (by decide)
     (by decide!)⟩

/-- C13 (uniform-size capacity), the code at the failing input: on the fresh
pool of `2^20` bytes, four calls `buddy_malloc(&pool, 2^18 - 24)` return four
distinct non-null pointers and leave every list `avail[0..20]` empty, and
`buddy_malloc(&pool, 5)` then returns `NULL` with `errno = ENOMEM`; but the
call `buddy_malloc(&pool, 2^63)`, also of positive size, does not return
(`btok` is called with `2^63 + 24` and its loop never exits). -/
theorem capacity_then_diverges :
    Reach std quarter4 0 [786456, 524312, 262168, 24] ∧
    [786456, 524312, 262168, 24].Nodup ∧
    (∀ j, j ≤ 20 → freeList quarter4 j = []) ∧
    malloc_ret std quarter4 5 0 = none ∧ malloc_errno std quarter4 5 0 = ENOMEM ∧
    buddy_malloc std (some quarter4) (2 ^ 63) 0 = none ∧
    (∀ fuel, btokLoop ((2 ^ 63 + std.header_size) % 2 ^ 64) fuel 1 0 = none) :=
  ⟨reach_quarter4, by decide, by decide!, by decide!, by decide!,
   buddy_malloc_none std quarter4 (2 ^ 63) 0 (by norm_num) (btok_none _ (by decide)),
   fun fuel => btokLoop_none _ (by decide) fuel 1 0 (Or.inr ⟨0, by omega, rfl⟩)⟩

theorem buddy_malloc_ret_btok (cfg : Config) (pool : buddy_pool) (n e p e2 : Nat)
    (pool2 : buddy_pool)
    (hm : buddy_malloc cfg (some pool) n e = some ⟨some p, some pool2, e2⟩) :
    n ≠ 0 ∧ ∃ k0, btok ((n + cfg.header_size) % 2 ^ 64) = some k0 := by
  by_cases hs : n = 0
  · subst hs
    rw [buddy_malloc_zero] at hm
    cases hm
  · cases hb : btok ((n + cfg.header_size) % 2 ^ 64) with
    | none =>
      rw [buddy_malloc_none cfg pool n e hs hb] at hm
      cases hm
    | some k0 => exact ⟨hs, k0, rfl⟩

/-- C19 (LIFO reuse): in every reachable state, if `buddy_malloc(pool, n)`
returns a non-null pointer `p`, then after `buddy_free(pool, p)` a call
`buddy_malloc(pool, n)` returns the same pointer `p`. -/
theorem lifo_reuse (cfg : Config) (hne : cfg.BLOCK_AVAIL ≠ cfg.BLOCK_RESERVED)
    (pool : buddy_pool) (errno : Nat) (out : List Nat) (n p e2 e3 : Nat) (pool2 : buddy_pool)
    (h : Reach cfg pool errno out)
    (hm : buddy_malloc cfg (some pool) n errno = some ⟨some p, some pool2, e2⟩) :
    ∃ pool4, buddy_malloc cfg (some (buddy_free cfg pool2 (some p))) n e3 =
      some ⟨some p, some pool4, e3⟩ := by
  obtain ⟨fl, rs, G, _⟩ := h.reach_inv hne
  obtain ⟨hs, k0, hb⟩ := buddy_malloc_ret_btok cfg pool n errno p e2 pool2 hm
  obtain ⟨G3, hK, _, bk, o, r, rfl, a1, a2, a3, a4, _⟩ :=
    G.malloc_free hne n errno k0 p e2 pool2 hs hb hm
  rcases G3.ginv_malloc n e3 k0 _ hs hb rfl with ⟨hempty, _⟩ |
    ⟨bk2, o2, r2, pool4, b1, b2, b3, b4, hm2, _, _⟩
  · exfalso
    have := hempty bk a1 (by rw [hK]; exact a2)
    rw [a3] at this
    cases this
  · have hbk : bk2 = bk := by
      rcases Nat.lt_trichotomy bk2 bk with hlt | heq | hgt
      · have := a4 bk2 b1 hlt
        rw [b3] at this
        cases this
      · exact heq
      · have := b4 bk a1 hgt
        rw [a3] at this
        cases this
    subst hbk
    rw [a3] at b3
    have ho : o = o2 := (List.cons.inj b3).1
    subst ho
    exact ⟨pool4, hm2⟩

/-- A call of `buddy_malloc` that returns, in terms of `malloc_ret`,
`malloc_pool` and `malloc_errno`. -/
theorem buddy_malloc_run_eq (cfg : Config) (pool : buddy_pool) (size e : Nat)
    (hr : (buddy_malloc cfg (some pool) size e).isSome = true) :
    buddy_malloc cfg (some pool) size e =
      some ⟨malloc_ret cfg pool size e, some (malloc_pool cfg pool size e),
        malloc_errno cfg pool size e⟩ := by
  cases hm : buddy_malloc cfg (some pool) size e with
  | none => rw [hm] at hr; cases hr
  | some r =>
    obtain ⟨p, hp⟩ := buddy_malloc_pool_some cfg pool size e r hm
    simp only [malloc_pool, malloc_errno, malloc_ret, hm, hp]
    cases r
    simp only at hp
    subst hp
    rfl

/-- The third call of `test_buddy_malloc_exhaustion`. -/
theorem malloc_quarter3_eq :
    buddy_malloc std (some quarter2) (2 ^ 18 - 24) 0 = some ⟨some 524312, some quarter3, 0⟩ := by
  have h := buddy_malloc_run_eq std quarter2 (2 ^ 18 - 24) 0 (by decide!)
  have e1 : malloc_ret std quarter2 (2 ^ 18 - 24) 0 = some 524312 := by decide!
  have e2 : malloc_errno std quarter2 (2 ^ 18 - 24) 0 = 0 := by decide!
  rw [e1, e2] at h
  exact h

/-- Witness for C19: with two quarters of the pool of
`test_buddy_malloc_exhaustion` outstanding, the third is allocated, freed and
allocated again. -/
theorem lifo_reuse_witness :
    Reach std quarter2 0 [262168, 24] ∧
    buddy_malloc std (some quarter2) (2 ^ 18 - 24) 0 = some ⟨some 524312, some quarter3, 0⟩ ∧
    ∃ pool4, buddy_malloc std (some (buddy_free std quarter3 (some 524312))) (2 ^ 18 - 24) 7 =
      some ⟨some 524312, some pool4, 7⟩ :=
  ⟨reach_quarter2, malloc_quarter3_eq,
   lifo_reuse std (by decide) quarter2 0 _ (2 ^ 18 - 24) 524312 0 7 quarter3 reach_quarter2
     malloc_quarter3_eq⟩

/-- C20 (allocate/free round trip): in every reachable state `s`, if
`buddy_malloc(pool, n)` returns a non-null pointer `p`, then an immediate
`buddy_free(pool, p)` restores every free list: for every `k ≤ kval_m`,
`avail[k]` holds the same blocks in the same order as in `s`; the outstanding
blocks and their headers' orders are those of `s`, `kval_m` is unchanged, and
the state is reachable with the outstanding pointers of `s` (`n` is a
`size_t` value). -/
theorem malloc_free_restores (cfg : Config) (hne : cfg.BLOCK_AVAIL ≠ cfg.BLOCK_RESERVED)
    (pool : buddy_pool) (errno : Nat) (out : List Nat) (n p e2 : Nat) (pool2 : buddy_pool)
    (h : Reach cfg pool errno out) (hsz : n < 2 ^ 64)
    (hm : buddy_malloc cfg (some pool) n errno = some ⟨some p, some pool2, e2⟩) :
    (buddy_free cfg pool2 (some p)).kval_m = pool.kval_m ∧
    (∀ k, k ≤ pool.kval_m → freeList (buddy_free cfg pool2 (some p)) k = freeList pool k) ∧
    (∀ o k, IsResBlock cfg (buddy_free cfg pool2 (some p)) out o k ↔
      IsResBlock cfg pool out o k) ∧
    Reach cfg (buddy_free cfg pool2 (some p)) e2 out := by
  obtain ⟨fl, rs, G, rfl⟩ := h.reach_inv hne
  obtain ⟨hs, k0, hb⟩ := buddy_malloc_ret_btok cfg pool n errno p e2 pool2 hm
  obtain ⟨G3, hK, _, _⟩ := G.malloc_free hne n errno k0 p e2 pool2 hs hb hm
  refine ⟨hK, ?_, ?_, ?_⟩
  · intro k hk
    rw [G3.freeList_eq k (by rw [hK]; exact hk), G.freeList_eq k hk]
  · intro o k
    rw [G3.isRes_iff, G.isRes_iff]
  · have h1 := Reach.malloc pool errno _ n ⟨some p, some pool2, e2⟩ pool2 h hsz hm rfl
    have h2 := Reach.free pool2 e2 _ p h1 (List.mem_cons_self _ _)
    simp only [List.erase_cons_head] at h2
    exact h2

/-- Witness for C20: with two quarters of the pool of
`test_buddy_malloc_exhaustion` outstanding, the third is allocated and freed
at once. -/
theorem malloc_free_restores_witness :
    Reach std quarter2 0 [262168, 24] ∧ 2 ^ 18 - 24 < 2 ^ 64 ∧
    buddy_malloc std (some quarter2) (2 ^ 18 - 24) 0 = some ⟨some 524312, some quarter3, 0⟩ ∧
    ∀ k, k ≤ quarter2.kval_m →
      freeList (buddy_free std quarter3 (some 524312)) k = freeList quarter2 k :=
  ⟨reach_quarter2, by norm_num, malloc_quarter3_eq,
   (malloc_free_restores std (by decide) quarter2 0 _ (2 ^ 18 - 24) 524312 0 quarter3
     reach_quarter2 (by norm_num) malloc_quarter3_eq).2.1⟩

/-! ## Pools filled with blocks of one order -/

/-- An aligned offset inside the slot `[s * 2^m, s * 2^m + 2^m)` is its start. -/
theorem slot_start (m o s : Nat) (hd : 2 ^ m ∣ o) (h1 : o ≤ s * 2 ^ m)
    (h2 : s * 2 ^ m < o + 2 ^ m) : o = s * 2 ^ m := by
  by_contra hne
  have hlt : o < s * 2 ^ m := by omega
  have := dvd_gap (2 ^ m) o (s * 2 ^ m) hd (Dvd.intro_left s rfl) hlt
  omega

/-- When every reserved block has order `m`, every free block has order at
least `m`. -/
theorem Layout.free_order_ge {K : Nat} {F R : Nat → Nat → Prop} (L : Layout K F R) (m : Nat)
    (hm : m ≤ K) (hR : ∀ o k, R o k → k = m) : ∀ o k, F o k → m ≤ k := by
  intro o k hF
  by_contra hlt
  have hpos := two_pow_pos_nat m
  have hmod := Nat.mod_lt o hpos
  have hdiv := Nat.div_add_mod o (2 ^ m)
  have hd : 2 ^ m ∣ 2 ^ m * (o / 2 ^ m) := Dvd.intro _ rfl
  refine L.min_free (2 ^ m * (o / 2 ^ m)) m hd hm ?_ k o hF (by omega) (by omega) (by omega)
  intro o2 k2 x h2 a1 a2 b1 b2
  have hk2 := hR o2 k2 h2
  subst hk2
  have hal := L.tiling.aligned o2 k2 (Or.inr h2)
  have e : o2 = 2 ^ k2 * (o / 2 ^ k2) := by
    by_contra hne
    rcases Nat.lt_or_gt_of_ne hne with h | h
    · have := dvd_gap _ _ _ hal hd h
      omega
    · have := dvd_gap _ _ _ hd hal h
      omega
  have := L.tiling.disjoint o k o2 k2 o (Or.inl hF) (Or.inr h2) (le_refl _)
    (by have := two_pow_pos_nat k; omega) (by omega) (by omega)
  obtain ⟨rfl, rfl⟩ := this
  exact L.excl _ _ hF h2

/-- When every reserved block has order `m` and there is no free block, every
slot of order `m` is a reserved block. -/
theorem Layout.slots_reserved {K : Nat} {F R : Nat → Nat → Prop} (L : Layout K F R) (m : Nat)
    (hm : m ≤ K) (hR : ∀ o k, R o k → k = m) (hF : ∀ o k, ¬ F o k) :
    ∀ s, s < 2 ^ (K - m) → R (s * 2 ^ m) m := by
  intro s hs
  have hpow : (2:Nat) ^ K = 2 ^ (K - m) * 2 ^ m := by
    rw [← pow_add, Nat.sub_add_cancel hm]
  have hx : s * 2 ^ m < 2 ^ K := by
    rw [hpow]
    exact Nat.mul_lt_mul_of_pos_right hs (two_pow_pos_nat m)
  obtain ⟨o, k, hB, h1, h2⟩ := L.tiling.cover _ hx
  rcases hB with hB | hB
  · exact absurd hB (hF o k)
  · have hk := hR o k hB
    subst hk
    have := slot_start k o s (L.tiling.aligned o k (Or.inr hB)) h1 h2
    subst this
    exact hB

/-- With fewer than `2^(K-m)` reserved blocks, all of order `m`, there is a
free block of order at least `m`. -/
theorem GInv.room {cfg : Config} {pool : buddy_pool} {fl : Nat → List Nat}
    {rs : List (Nat × Nat)} (G : GInv cfg pool fl rs) (m : Nat) (hm : m ≤ pool.kval_m)
    (hR : ∀ o k, (o, k) ∈ rs → k = m) (hlen : rs.length < 2 ^ (pool.kval_m - m)) :
    ∃ j, m ≤ j ∧ j ≤ pool.kval_m ∧ fl j ≠ [] := by
  by_contra hcon
  have hF : ∀ o k, ¬ o ∈ fl k := by
    intro o k hF
    have h1 := G.layout.free_order_ge m hm hR o k hF
    have h2 := G.layout.tiling.order_le o k (Or.inl hF)
    apply hcon
    refine ⟨k, h1, h2, ?_⟩
    intro e
    rw [e] at hF
    cases hF
  have hall := G.layout.slots_reserved m hm hR hF
  have hsub : (List.range (2 ^ (pool.kval_m - m))).map (fun s => (s * 2 ^ m, m)) ⊆ rs := by
    intro b hb
    rw [List.mem_map] at hb
    obtain ⟨s, hs, rfl⟩ := hb
    exact hall s (List.mem_range.1 hs)
  have hnd : ((List.range (2 ^ (pool.kval_m - m))).map (fun s => (s * 2 ^ m, m))).Nodup := by
    apply List.Nodup.map _ (List.nodup_range _)
    intro a b e
    simp only [Prod.mk.injEq, and_true] at e
    exact Nat.eq_of_mul_eq_mul_right (two_pow_pos_nat m) e
  have := (List.subperm_of_subset hnd hsub).length_le
  rw [List.length_map, List.length_range] at this
  omega

/-- With `2^(K-m)` reserved blocks, all of order `m`, every free list is
empty. -/
theorem GInv.exhausted {cfg : Config} {pool : buddy_pool} {fl : Nat → List Nat}
    {rs : List (Nat × Nat)} (G : GInv cfg pool fl rs) (m : Nat) (hm : m ≤ pool.kval_m)
    (hR : ∀ o k, (o, k) ∈ rs → k = m) (hlen : rs.length = 2 ^ (pool.kval_m - m)) :
    ∀ j, fl j = [] := by
  have hpos := two_pow_pos_nat m
  have hpow : (2:Nat) ^ pool.kval_m = 2 ^ (pool.kval_m - m) * 2 ^ m := by
    rw [← pow_add, Nat.sub_add_cancel hm]
  -- the slot indices of the reserved blocks
  have hnd : (rs.map (fun b => b.1 / 2 ^ m)).Nodup := by
    apply List.Nodup.map_on _ G.rs_nodup
    rintro ⟨o1, k1⟩ h1 ⟨o2, k2⟩ h2 e
    simp only at e
    have e1 := hR o1 k1 h1
    have e2 := hR o2 k2 h2
    have a1 := G.layout.tiling.aligned o1 k1 (Or.inr h1)
    have a2 := G.layout.tiling.aligned o2 k2 (Or.inr h2)
    rw [e1] at a1
    rw [e2] at a2
    have : o1 = o2 := by
      rw [← Nat.div_mul_cancel a1, ← Nat.div_mul_cancel a2, e]
    rw [this, e1, e2]
  have hsub : rs.map (fun b => b.1 / 2 ^ m) ⊆ List.range (2 ^ (pool.kval_m - m)) := by
    intro s hs
    rw [List.mem_map] at hs
    obtain ⟨⟨o, k⟩, hb, rfl⟩ := hs
    have e1 := hR o k hb
    subst e1
    have hbd := G.layout.tiling.bounded o k (Or.inr hb)
    rw [List.mem_range]
    apply (Nat.div_lt_iff_lt_mul hpos).2
    rw [← hpow]
    omega
  have hperm := (List.subperm_of_subset hnd hsub).perm_of_length_le (by
    rw [List.length_map, List.length_range, hlen])
  intro j
  rcases hj : fl j with _ | ⟨o, r⟩
  · rfl
  · exfalso
    have hF : o ∈ fl j := by rw [hj]; exact List.mem_cons_self _ _
    have hbd := G.layout.tiling.bounded o j (Or.inl hF)
    have hpj := two_pow_pos_nat j
    have hs : o / 2 ^ m ∈ rs.map (fun b => b.1 / 2 ^ m) := by
      rw [hperm.mem_iff, List.mem_range]
      apply (Nat.div_lt_iff_lt_mul hpos).2
      rw [← hpow]
      omega
    rw [List.mem_map] at hs
    obtain ⟨⟨o2, k2⟩, hb, e⟩ := hs
    simp only at e
    have e1 := hR o2 k2 hb
    subst e1
    have a2 := G.layout.tiling.aligned o2 k2 (Or.inr hb)
    have hmod := Nat.mod_lt o hpos
    have hdiv := Nat.div_add_mod o (2 ^ k2)
    have ho2 : o2 = 2 ^ k2 * (o / 2 ^ k2) := by
      rw [← e, Nat.mul_div_cancel' a2]
    have := G.layout.tiling.disjoint o j o2 k2 o (Or.inl hF) (Or.inr hb) (le_refl _)
      (by omega) (by omega) (by omega)
    obtain ⟨rfl, rfl⟩ := this
    exact G.layout.excl _ _ hF hb

/-- Calls of `buddy_malloc(pool, 2^m - header_size)` succeed as long as fewer
than `2^(K-m)` blocks, all of order `m`, are outstanding. -/
theorem mallocLoop_uniform (cfg : Config) (m : Nat) (hm1 : cfg.SMALLEST_K ≤ m)
    (hm3 : cfg.header_size < 2 ^ m) (hm4 : m < 64) :
    ∀ (c : Nat) (pool : buddy_pool) (e : Nat) (fl : Nat → List Nat) (rs : List (Nat × Nat)),
      GInv cfg pool fl rs → m ≤ pool.kval_m → (∀ o k, (o, k) ∈ rs → k = m) →
      rs.length + c ≤ 2 ^ (pool.kval_m - m) →
      Reach cfg pool e (rs.map (fun b => b.1 + cfg.header_size)) →
      ∃ pool2 fl2 rs2,
        mallocLoop cfg (2 ^ m - cfg.header_size) c pool e
            (rs.map (fun b => b.1 + cfg.header_size)) =
          some (pool2, e, rs2.map (fun b => b.1 + cfg.header_size)) ∧
        GInv cfg pool2 fl2 rs2 ∧ pool2.kval_m = pool.kval_m ∧
        (∀ o k, (o, k) ∈ rs2 → k = m) ∧ rs2.length = rs.length + c ∧
        Reach cfg pool2 e (rs2.map (fun b => b.1 + cfg.header_size)) := by
  have h64 : (2:Nat) ^ m < 2 ^ 64 := Nat.pow_lt_pow_right (by norm_num) hm4
  have hsum : (2 ^ m - cfg.header_size + cfg.header_size) % 2 ^ 64 = 2 ^ m := by
    rw [Nat.sub_add_cancel (le_of_lt hm3), Nat.mod_eq_of_lt h64]
  have hb : btok ((2 ^ m - cfg.header_size + cfg.header_size) % 2 ^ 64) = some m := by
    rw [hsum]
    exact btok_two_pow m (by omega)
  have hkv : m = if m < cfg.SMALLEST_K then cfg.SMALLEST_K else m := by
    rw [if_neg (by omega)]
  intro c
  induction c with
  | zero =>
    intro pool e fl rs G _ hR _ hreach
    exact ⟨pool, fl, rs, rfl, G, rfl, hR, rfl, hreach⟩
  | succ c ih =>
    intro pool e fl rs G hm2 hR hlen hreach
    obtain ⟨j, j1, j2, j3⟩ := G.room m hm2 hR (by omega)
    rcases G.ginv_malloc (2 ^ m - cfg.header_size) e m m (by omega) hb hkv with
      ⟨hempty, _⟩ | ⟨bk, o, r, pool2, _, _, _, _, hmal, G2, hK2, _⟩
    · exact absurd (hempty j j1 j2) j3
    · have hR2 : ∀ o2 k2, (o2, k2) ∈ (o, m) :: rs → k2 = m := by
        intro o2 k2 h2
        rcases List.mem_cons.1 h2 with h | h
        · exact (Prod.mk.inj h).2
        · exact hR o2 k2 h
      have hreach2 : Reach cfg pool2 e
          (((o, m) :: rs).map (fun b => b.1 + cfg.header_size)) :=
        Reach.malloc pool e _ (2 ^ m - cfg.header_size) ⟨some (o + cfg.header_size), some pool2, e⟩
          pool2 hreach (by omega) hmal rfl
      obtain ⟨pool3, fl3, rs3, a1, a2, a3, a4, a5, a6⟩ := ih pool2 e _ ((o, m) :: rs) G2
        (by rw [hK2]; exact hm2) hR2 (by rw [hK2, List.length_cons]; omega) hreach2
      refine ⟨pool3, fl3, rs3, ?_, a2, by rw [a3, hK2], a4, by rw [a5, List.length_cons]; omega,
        a6⟩
      rw [mallocLoop, hmal]
      exact a1

/-- The capacity of a fresh pool for blocks of one order: on the pool built by
`buddy_init`, of order `K`, for `SMALLEST_K ≤ m ≤ K` with
`header_size < 2^m`, `2^(K-m)` calls `buddy_malloc(pool, 2^m - header_size)`
return pairwise distinct non-null pointers; afterwards every list
`avail[0..K]` is empty and every call of `buddy_malloc` with a positive size
on which `btok` returns gives `NULL` with `errno = ENOMEM`. -/
theorem uniform_capacity (cfg : Config) (size m e : Nat) (pool : buddy_pool)
    (hsz : size < 2 ^ 64) (hi : buddy_init cfg size = some pool)
    (hm1 : cfg.SMALLEST_K ≤ m) (hm2 : m ≤ pool.kval_m) (hm3 : cfg.header_size < 2 ^ m)
    (hm4 : m < 64) :
    ∃ pool2 out,
      mallocLoop cfg (2 ^ m - cfg.header_size) (2 ^ (pool.kval_m - m)) pool e [] =
        some (pool2, e, out) ∧
      out.length = 2 ^ (pool.kval_m - m) ∧ out.Nodup ∧ Reach cfg pool2 e out ∧
      pool2.kval_m = pool.kval_m ∧
      (∀ j, j ≤ pool.kval_m → freeList pool2 j = []) ∧
      (∀ n k0 e3, 1 ≤ n → btok ((n + cfg.header_size) % 2 ^ 64) = some k0 →
        buddy_malloc cfg (some pool2) n e3 = some ⟨none, some pool2, ENOMEM⟩) := by
  have hreach : Reach cfg pool e [] := Reach.init size e pool hsz hi
  obtain ⟨K, rfl⟩ := buddy_init_eq cfg size pool hi
  have G0 := init_pool_inv cfg K
  obtain ⟨pool2, fl2, rs2, a1, G2, a3, a4, a5, a6⟩ :=
    mallocLoop_uniform cfg m hm1 hm3 hm4 _ (init_pool cfg K) e (initFl K) [] G0 hm2
      (fun o k h => by cases h) (by rw [List.length_nil, Nat.zero_add]) hreach
  rw [List.length_nil, Nat.zero_add] at a5
  have hex := G2.exhausted m (by rw [a3]; exact hm2) a4 (by rw [a5, a3])
  refine ⟨pool2, _, a1, by rw [List.length_map, a5], Inv.out_nodup ⟨fl2, rs2, G2, rfl⟩, a6, a3,
    ?_, ?_⟩
  · intro j hj
    rw [G2.freeList_eq j (by rw [a3]; exact hj)]
    exact hex j
  · intro n k0 e3 hn hb
    rcases G2.ginv_malloc n e3 k0 _ (by omega) hb rfl with ⟨_, hmal⟩ |
      ⟨bk, o, r, _, _, _, h3, _⟩
    · exact hmal
    · rw [hex bk] at h3
      cases h3

end Buddy
